import Mathlib

/-!
A shallow embedding of `gorun.go`.

`gorun` compiles one or more Go source files into a per-user cache directory
and replaces its own process image with the resulting executable.

The development has three layers:

* the library layer: byte strings, SHA-256 (FIPS 180-4), base64 URL encoding,
  the `path/filepath` functions and a small model of the operating system
  (file system, environment, working directory, child processes);
* the program layer: one definition per function of `gorun.go`, with the
  name of the source function;
* the theorems about the program layer.

Modelling decisions of the operating system layer:

* a Go `string` is a list of bytes;
* the file system is a finite map from canonical paths (lists of names from
  the root) to nodes; there are no symbolic links, so paths are resolved
  lexically; permissions are recorded but not enforced; the umask is ignored;
* the root directory always exists;
* a child process may change the file system in any way, but not the
  environment or the working directory of its parent;
* `syscall.Exec` succeeds exactly when its target is a regular file, and on
  success no deferred call of the replaced program runs.
-/

namespace Gorun

/-! ## Byte strings -/

/-- A byte. -/
abbrev Byte := Fin 256

/-- A Go `string`: an immutable sequence of bytes. -/
abbrev Str := List Byte

/-- The bytes of an ASCII literal. -/
def str (s : String) : Str := s.data.map (fun c => Fin.ofNat c.toNat)

/-- Byte-wise lexicographic order, the order of Go's `<` on strings. -/
def strLe : Str → Str → Bool
  | [], _ => true
  | _ :: _, [] => false
  | a :: as, b :: bs => if a < b then true else if b < a then false else strLe as bs

/-- `slices.Sort` on a slice of strings. -/
def slices.Sort (l : List Str) : List Str :=
  l.insertionSort (fun a b => strLe a b = true)

/-- `strings.Split(s, sep)` for a separator of one byte. -/
def strings.Split (s : Str) (sep : Byte) : List Str :=
  match s with
  | [] => [[]]
  | c :: cs =>
    if c = sep then [] :: strings.Split cs sep
    else
      match strings.Split cs sep with
      | [] => [[c]]
      | x :: xs => (c :: x) :: xs

/-- ASCII white space, as cut by `strings.TrimSpace`. -/
def isSpace (b : Byte) : Bool :=
  b = 9 || b = 10 || b = 11 || b = 12 || b = 13 || b = 32

/-- `strings.TrimSpace` on ASCII input. -/
def strings.TrimSpace (s : Str) : Str :=
  ((s.dropWhile isSpace).reverse.dropWhile isSpace).reverse

/-- `strconv.Itoa` on a non-negative integer. -/
def strconv.Itoa (n : Nat) : Str := str (toString n)

/-! ## SHA-256

The functions, constants and padding of FIPS 180-4 for SHA-256, on 32-bit
words held in `Nat` and reduced modulo `2^32`. -/

namespace Sha256

def mask (x : Nat) : Nat := x % 4294967296

def rotr (x n : Nat) : Nat := mask ((x >>> n) ||| (x <<< (32 - n)))

def ch (x y z : Nat) : Nat := (x &&& y) ^^^ ((4294967295 - x) &&& z)

def maj (x y z : Nat) : Nat := (x &&& y) ^^^ (x &&& z) ^^^ (y &&& z)

def bsig0 (x : Nat) : Nat := rotr x 2 ^^^ rotr x 13 ^^^ rotr x 22

def bsig1 (x : Nat) : Nat := rotr x 6 ^^^ rotr x 11 ^^^ rotr x 25

def ssig0 (x : Nat) : Nat := rotr x 7 ^^^ rotr x 18 ^^^ (x >>> 3)

def ssig1 (x : Nat) : Nat := rotr x 17 ^^^ rotr x 19 ^^^ (x >>> 10)

def K : List Nat := [
  0x428a2f98, 0x71374491, 0xb5c0fbcf, 0xe9b5dba5, 0x3956c25b, 0x59f111f1, 0x923f82a4, 0xab1c5ed5,
  0xd807aa98, 0x12835b01, 0x243185be, 0x550c7dc3, 0x72be5d74, 0x80deb1fe, 0x9bdc06a7, 0xc19bf174,
  0xe49b69c1, 0xefbe4786, 0x0fc19dc6, 0x240ca1cc, 0x2de92c6f, 0x4a7484aa, 0x5cb0a9dc, 0x76f988da,
  0x983e5152, 0xa831c66d, 0xb00327c8, 0xbf597fc7, 0xc6e00bf3, 0xd5a79147, 0x06ca6351, 0x14292967,
  0x27b70a85, 0x2e1b2138, 0x4d2c6dfc, 0x53380d13, 0x650a7354, 0x766a0abb, 0x81c2c92e, 0x92722c85,
  0xa2bfe8a1, 0xa81a664b, 0xc24b8b70, 0xc76c51a3, 0xd192e819, 0xd6990624, 0xf40e3585, 0x106aa070,
  0x19a4c116, 0x1e376c08, 0x2748774c, 0x34b0bcb5, 0x391c0cb3, 0x4ed8aa4a, 0x5b9cca4f, 0x682e6ff3,
  0x748f82ee, 0x78a5636f, 0x84c87814, 0x8cc70208, 0x90befffa, 0xa4506ceb, 0xbef9a3f7, 0xc67178f2]

/-- The eight working words. -/
structure State where
  a : Nat
  b : Nat
  c : Nat
  d : Nat
  e : Nat
  f : Nat
  g : Nat
  h : Nat

def H0 : State :=
  ⟨0x6a09e667, 0xbb67ae85, 0x3c6ef372, 0xa54ff53a, 0x510e527f, 0x9b05688c, 0x1f83d9ab, 0x5be0cd19⟩

/-- Padding: the byte 0x80, zero bytes up to 56 modulo 64, and the length of
the message in bits as eight big-endian bytes. -/
def pad (m : List Nat) : List Nat :=
  let l := m.length
  let z := (119 - l % 64) % 64
  m ++ [128] ++ List.replicate z 0 ++
    (List.range 8).map (fun i => ((8 * l) >>> (8 * (7 - i))) % 256)

/-- Big-endian 32-bit words of a block. -/
def words : List Nat → List Nat
  | a :: b :: c :: d :: rest => (a * 16777216 + b * 65536 + c * 256 + d) :: words rest
  | _ => []

/-- The message schedule extended by `n` words, newest word first. -/
def schedule : Nat → List Nat → List Nat
  | 0, w => w
  | n + 1, w =>
    schedule n (mask (ssig1 (w.getD 1 0) + w.getD 6 0 + ssig0 (w.getD 14 0) + w.getD 15 0) :: w)

def round (s : State) (kw : Nat × Nat) : State :=
  let t1 := s.h + bsig1 s.e + ch s.e s.f s.g + kw.1 + kw.2
  let t2 := bsig0 s.a + maj s.a s.b s.c
  ⟨mask (t1 + t2), s.a, s.b, s.c, mask (s.d + t1), s.e, s.f, s.g⟩

def compress (s : State) (block : List Nat) : State :=
  let w := (schedule 48 (words block).reverse).reverse
  let t := (K.zip w).foldl round s
  ⟨mask (s.a + t.a), mask (s.b + t.b), mask (s.c + t.c), mask (s.d + t.d),
   mask (s.e + t.e), mask (s.f + t.f), mask (s.g + t.g), mask (s.h + t.h)⟩

def blocks : Nat → List Nat → List (List Nat)
  | 0, _ => []
  | n + 1, m => m.take 64 :: blocks n (m.drop 64)

def wordBytes (w : Nat) : List Byte :=
  [Fin.ofNat (w >>> 24), Fin.ofNat (w >>> 16), Fin.ofNat (w >>> 8), Fin.ofNat w]

def digest (s : State) : List Byte :=
  wordBytes s.a ++ wordBytes s.b ++ wordBytes s.c ++ wordBytes s.d ++
  wordBytes s.e ++ wordBytes s.f ++ wordBytes s.g ++ wordBytes s.h

end Sha256

/-- The SHA-256 digest (32 bytes) of a message: what `hash.Sum(nil)` returns
after the message has been written to `sha256.New()`. -/
def sha256 (m : Str) : Str :=
  let p := Sha256.pad (m.map Fin.val)
  Sha256.digest ((Sha256.blocks (p.length / 64) p).foldl Sha256.compress Sha256.H0)

/-! ## Base64, URL alphabet, with padding -/

namespace Base64

def alphabet : Str :=
  str "ABCDEFGHIJKLMNOPQRSTUVWXYZabcdefghijklmnopqrstuvwxyz0123456789-_"

/-- The character of a six-bit value. -/
def enc (n : Nat) : Byte := alphabet.getD n 0

/-- The padding character `=`. -/
def padChar : Byte := 61

def encode : Str → Str
  | a :: b :: c :: rest =>
    enc (a.val / 4) :: enc (a.val % 4 * 16 + b.val / 16) ::
      enc (b.val % 16 * 4 + c.val / 64) :: enc (c.val % 64) :: encode rest
  | [a, b] =>
    [enc (a.val / 4), enc (a.val % 4 * 16 + b.val / 16), enc (b.val % 16 * 4), padChar]
  | [a] => [enc (a.val / 4), enc (a.val % 4 * 16), padChar, padChar]
  | [] => []

end Base64

/-- `base64.URLEncoding.EncodeToString`. -/
def base64.URLEncoding.EncodeToString (s : Str) : Str := Base64.encode s

/-! ## `path/filepath` on Unix -/

/-- The path separator `/`. -/
def sep : Byte := 47

/-- The `/`-separated elements of a path; never the empty list. -/
def comps (p : Str) : List Str := strings.Split p sep

/-- `filepath.IsAbs`: the path starts with the separator. -/
def filepath.IsAbs (p : Str) : Bool := p.head? = some sep

/-- One element of a path pushed on the stack of `filepath.Clean`. -/
def cleanStep (rooted : Bool) (st : List Str) (c : Str) : List Str :=
  if c = [] ∨ c = str "." then st
  else if c = str ".." then
    match st.getLast? with
    | none => if rooted then st else st ++ [c]
    | some l => if l = str ".." then st ++ [c] else st.dropLast
  else st ++ [c]

/-- `filepath.Clean`: the shortest path equivalent to `p` by lexical
processing: empty and `.` elements are dropped, an inner `..` is dropped
with the element before it, `..` at the start of a rooted path is dropped. -/
def filepath.Clean (p : Str) : Str :=
  let rooted := filepath.IsAbs p
  let st := (comps p).foldl (cleanStep rooted) []
  let out := (if rooted then [sep] else []) ++ [sep].intercalate st
  if out = [] then str "." else out

/-- `filepath.Join`: the elements from the first non-empty one on, joined by
the separator and cleaned; the empty string when all are empty. -/
def filepath.Join (elem : List Str) : Str :=
  match elem.dropWhile (fun e => e = []) with
  | [] => []
  | es => filepath.Clean ([sep].intercalate es)

/-- `filepath.Base`: the last element of a path. -/
def filepath.Base (p : Str) : Str :=
  if p = [] then str "."
  else
    let q := (p.reverse.dropWhile (fun b => b = sep)).reverse
    match (comps q).getLast? with
    | none => str "/"
    | some l => if l = [] then str "/" else l

/-! ## The operating system -/

/-- An error value; `none : Option Err` is Go's `nil` error. -/
abbrev Err := Str

/-- A canonical absolute path: the names from the root down. -/
abbrev Path := List Str

/-- A regular file with its content, or a directory with its mode bits. -/
inductive Node
  | file (content : Str)
  | dir (mode : Nat)
deriving DecidableEq

/-- `FileInfo.IsDir`. -/
def Node.IsDir : Node → Bool
  | .dir _ => true
  | .file _ => false

/-- The permission bits `Mode().Perm()`: the low nine bits of the mode. Files
carry no mode in this model; the program reads the bits of directories only. -/
def Node.Perm : Node → Nat
  | .dir mode => mode % 0o1000
  | .file _ => 0o644

/-- The file system: the nodes by canonical path; the first entry of a path
counts. -/
abbrev FS := List (Path × Node)

/-- `startsWith q p`: the path `q` is `p` or lies below `p`. -/
def startsWith : Path → Path → Bool
  | _, [] => true
  | [], _ :: _ => false
  | a :: q, b :: p => a = b && startsWith q p

/-- The node at a canonical path; the root is always a directory. -/
def FS.find (fs : FS) (p : Path) : Option Node :=
  if p = [] then some (.dir 0o755) else fs.lookup p

/-- The entry at `p` removed. -/
def FS.erase (fs : FS) (p : Path) : FS := fs.filter (fun e => e.1 ≠ p)

/-- The entry at `p` set to `n`. -/
def FS.set (fs : FS) (p : Path) (n : Node) : FS := (p, n) :: fs.erase p

/-- Some entry lies strictly below `p`. -/
def FS.hasBelow (fs : FS) (p : Path) : Bool :=
  fs.any (fun e => startsWith e.1 p && e.1 ≠ p)

/-- Everything at or below `p` removed. -/
def FS.eraseTree (fs : FS) (p : Path) : FS := fs.filter (fun e => !startsWith e.1 p)

/-- A name a directory entry can have. -/
def validName (n : Str) : Bool :=
  n ≠ [] && n ≠ str "." && n ≠ str ".." && !n.contains sep

/-- The name of an entry when it is a child of the directory `p`. -/
def childName (p : Path) (e : Path × Node) : Option Str :=
  match e.1.getLast? with
  | some n => if e.1.dropLast = p ∧ validName n then some n else none
  | none => none

/-- The state of the process and of the machine around it. -/
structure World where
  /-- The argument vector `os.Args`. -/
  args : List Str
  /-- The environment, in the order of `os.Environ`. -/
  env : List (Str × Str)
  /-- The working directory. -/
  cwd : Path
  /-- The effective user id. -/
  euid : Nat
  fs : FS
  /-- The argument vectors of the child processes run so far. -/
  spawned : List (List Str)
  stdout : Str
  stderr : Str

/-- What running a child process to completion yields. -/
structure CmdResult where
  /-- The file system the child leaves behind. -/
  fs : FS
  /-- What the child wrote to its standard output. -/
  out : Str
  /-- What the child wrote to its standard error. -/
  diag : Str
  /-- The error of `Cmd.Run`: the program was not found or exited non-zero. -/
  err : Option Err

/-- The programs that can be started as child processes, the Go toolchain
among them: an arbitrary function of the argument vector and the world. -/
structure Toolchain where
  run : List Str → World → CmdResult

/-- How a computation ends: it returns, it panics, or the process image has
been replaced by `syscall.Exec`. -/
inductive Res (α : Type)
  | ok (a : α) (w : World)
  | panic (e : Err) (w : World)
  | replaced (exe : Str) (argv : List Str) (envv : List Str) (w : World)

/-- The world a computation ends in. -/
def Res.world {α : Type} : Res α → World
  | .ok _ w => w
  | .panic _ w => w
  | .replaced _ _ _ w => w

/-- The computation ended in a panic. -/
def Res.isPanic {α : Type} : Res α → Bool
  | .panic _ _ => true
  | _ => false

/-- A computation of the program. -/
def M (α : Type) : Type := World → Res α

/-- A computation that returns. -/
def M.pure {α : Type} (a : α) : M α := fun w => .ok a w

/-- Sequencing: a panic or a replaced process ends the computation. -/
def M.bind {α β : Type} (x : M α) (f : α → M β) : M β := fun w =>
  match x w with
  | .ok a w1 => f a w1
  | .panic e w1 => .panic e w1
  | .replaced exe argv envv w1 => .replaced exe argv envv w1

instance : Monad M where
  pure := M.pure
  bind := M.bind

/-- Go's `panic`. -/
def throwPanic {α : Type} (e : Err) : M α := fun w => .panic e w

/-- A call that reads the world. -/
def ask {α : Type} (f : World → α) : M α := fun w => .ok (f w) w

/-- A call that changes the world. -/
def sys {α : Type} (f : World → α × World) : M α := fun w => .ok (f w).1 (f w).2

/-- Go's `defer d; body`: `d` runs when `body` returns and when it panics,
and a panic of `d` takes the place of the outcome of `body`; `d` does not
run when the process image has been replaced. -/
def deferring {α : Type} (d : M Unit) (body : M α) : M α := fun w =>
  match body w with
  | .ok a w1 =>
    match d w1 with
    | .ok _ w2 => .ok a w2
    | .panic e w2 => .panic e w2
    | .replaced exe argv envv w2 => .replaced exe argv envv w2
  | .panic e w1 =>
    match d w1 with
    | .ok _ w2 => .panic e w2
    | .panic e2 w2 => .panic e2 w2
    | .replaced exe argv envv w2 => .replaced exe argv envv w2
  | .replaced exe argv envv w1 => .replaced exe argv envv w1

/-- A `for _, x := range xs` loop. -/
def forEach {α : Type} : List α → (α → M Unit) → M Unit
  | [], _ => pure ()
  | x :: xs, f => do f x; forEach xs f

/-- One element of a path walked from a canonical path. -/
def walk (st : Path) (c : Str) : Path :=
  if c = [] ∨ c = str "." then st
  else if c = str ".." then st.dropLast
  else st ++ [c]

/-- The canonical path a path string names in a world. -/
def resolve (w : World) (p : Str) : Path :=
  (comps p).foldl walk (if filepath.IsAbs p then [] else w.cwd)

/-- `os.Geteuid`. -/
def os.Geteuid (w : World) : Nat := w.euid

/-- `os.LookupEnv`: the value and whether the variable is set. -/
def os.LookupEnv (key : Str) (w : World) : Str × Bool :=
  match w.env.lookup key with
  | some v => (v, true)
  | none => ([], false)

/-- `os.TempDir`: `$TMPDIR`, or `/tmp` when that is empty or unset. -/
def os.TempDir (w : World) : Str :=
  let dir := (os.LookupEnv (str "TMPDIR") w).1
  if dir = [] then str "/tmp" else dir

/-- `os.Environ`: the entries as `key=value`. -/
def os.Environ (w : World) : List Str := w.env.map (fun kv => kv.1 ++ str "=" ++ kv.2)

/-- An entry of the environment replaced in place, or appended. -/
def setEntry (key val : Str) : List (Str × Str) → List (Str × Str)
  | [] => [(key, val)]
  | kv :: rest => if kv.1 = key then (key, val) :: rest else kv :: setEntry key val rest

/-- `os.Setenv`: `EINVAL` for an empty key, a key with `=` or NUL, a value
with NUL. -/
def os.Setenv (key val : Str) (w : World) : Option Err × World :=
  if key = [] ∨ key.contains 61 ∨ key.contains 0 ∨ val.contains 0 then
    (some (str "setenv: invalid argument"), w)
  else (none, { w with env := setEntry key val w.env })

/-- `os.Unsetenv`. -/
def os.Unsetenv (key : Str) (w : World) : Option Err × World :=
  (none, { w with env := w.env.filter (fun kv => kv.1 ≠ key) })

/-- `os.Stat`: the node a path names. -/
def os.Stat (p : Str) (w : World) : Except Err Node :=
  match w.fs.find (resolve w p) with
  | some n => .ok n
  | none => .error (str "stat: no such file or directory")

/-- `os.Getwd`: fails when the working directory no longer exists. -/
def os.Getwd (w : World) : Except Err Str :=
  match w.fs.find w.cwd with
  | some (.dir _) => .ok (sep :: [sep].intercalate w.cwd)
  | _ => .error (str "getwd: no such file or directory")

/-- `os.Chdir`: the target must be a directory. -/
def os.Chdir (p : Str) (w : World) : Option Err × World :=
  match w.fs.find (resolve w p) with
  | some (.dir _) => (none, { w with cwd := resolve w p })
  | some (.file _) => (some (str "chdir: not a directory"), w)
  | none => (some (str "chdir: no such file or directory"), w)

/-- The directories of `ps` created in order, stopping at a regular file. -/
def mkdirs (perm : Nat) : List Path → FS → Option Err × FS
  | [], fs => (none, fs)
  | p :: ps, fs =>
    match fs.find p with
    | some (.dir _) => mkdirs perm ps fs
    | some (.file _) => (some (str "mkdir: not a directory"), fs)
    | none => mkdirs perm ps (fs.set p (.dir perm))

/-- `os.MkdirAll`: the directory and its missing parents, all with `perm`. -/
def os.MkdirAll (p : Str) (perm : Nat) (w : World) : Option Err × World :=
  let r := mkdirs perm (resolve w p).inits.tail w.fs
  (r.1, { w with fs := r.2 })

/-- `os.Remove`: a file or an empty directory. -/
def os.Remove (p : Str) (w : World) : Option Err × World :=
  let q := resolve w p
  match w.fs.find q with
  | none => (some (str "remove: no such file or directory"), w)
  | some (.file _) => (none, { w with fs := w.fs.erase q })
  | some (.dir _) =>
    if q = [] ∨ w.fs.hasBelow q then (some (str "remove: directory not empty"), w)
    else (none, { w with fs := w.fs.erase q })

/-- `endsWithDot` of package `os`. -/
def endsWithDot (p : Str) : Bool :=
  p = str "." || (p.reverse.head? = some 46 && p.reverse.tail.head? = some sep)

/-- `os.RemoveAll`: the path and everything below it; nothing for the empty
path, `EINVAL` for a path ending in a dot. -/
def os.RemoveAll (p : Str) (w : World) : Option Err × World :=
  if p = [] then (none, w)
  else if endsWithDot p then (some (str "RemoveAll: invalid argument"), w)
  else (none, { w with fs := w.fs.eraseTree (resolve w p) })

/-- `os.ReadDir`: the names of the entries of a directory, sorted. -/
def os.ReadDir (p : Str) (w : World) : Except Err (List Str) :=
  match w.fs.find (resolve w p) with
  | some (.dir _) => .ok (slices.Sort (w.fs.filterMap (childName (resolve w p))))
  | some (.file _) => .error (str "readdir: not a directory")
  | none => .error (str "open: no such file or directory")

/-- `os.Open`: the handle is the canonical path of the file. -/
def os.Open (p : Str) (w : World) : Except Err Path :=
  match w.fs.find (resolve w p) with
  | some _ => .ok (resolve w p)
  | none => .error (str "open: no such file or directory")

/-- Reading an open file to its end, as `io.Copy` does. -/
def readAll (f : Path) (w : World) : Except Err Str :=
  match w.fs.find f with
  | some (.file c) => .ok c
  | _ => .error (str "read: is a directory")

/-- `os.Create`: the file created or truncated; the handle is its path. -/
def os.Create (p : Str) (w : World) : Except Err Path × World :=
  let q := resolve w p
  match w.fs.find q.dropLast, w.fs.find q with
  | some (.dir _), some (.dir _) => (.error (str "open: is a directory"), w)
  | some (.dir _), _ => (.ok q, { w with fs := w.fs.set q (.file []) })
  | _, _ => (.error (str "open: no such file or directory"), w)

/-- Bytes appended to an open file. -/
def writeAll (f : Path) (c : Str) (w : World) : World :=
  match w.fs.find f with
  | some (.file old) => { w with fs := w.fs.set f (.file (old ++ c)) }
  | _ => w

/-- `syscall.Exec`: on success the process image is replaced and the call
does not return. -/
def syscall.Exec (exe : Str) (argv : List Str) (envv : List Str) : M (Option Err) := fun w =>
  match w.fs.find (resolve w exe) with
  | some (.file _) => .replaced exe argv envv w
  | some (.dir _) => .ok (some (str "exec: permission denied")) w
  | none => .ok (some (str "exec: no such file or directory")) w

/-- A child process run to completion: it may change the file system. -/
def spawn (tc : Toolchain) (argv : List Str) (w : World) : CmdResult × World :=
  let r := tc.run argv w
  (r, { w with fs := r.fs, spawned := w.spawned ++ [argv] })

/-! ## The program -/

/-- The invocation: the sorted absolute source paths and the arguments to
forward. -/
structure execCmd where
  src : List Str
  args : List Str

/-- The saved state of `GOPROXY`. -/
structure goEnv where
  proxy : Str
  proxyPresent : Bool

/-- The separator `,` of the source list. -/
def pathSplitter : Byte := 44

/-- The name of the proxy variable. -/
def goProxy : Str := str "GOPROXY"

/-- Modelled from the spec: `panicIfError` is called by `gorun.go` and
defined outside it; every error it is given is fatal, `nil` is not. -/
def panicIfError (err : Option Err) : M Unit :=
  match err with
  | none => pure ()
  | some e => throwPanic e

/-- The statement pair `v, err := f(...); panicIfError(err)`. -/
def must {α : Type} (r : Except Err α) : M α :=
  match r with
  | .ok a => pure a
  | .error e => throwPanic e

/-- Modelled from the spec: `logIfError` is called by `gorun.go` and defined
outside it; an error it is given is logged and ignored. -/
def logIfError (err : Option Err) : M Unit :=
  match err with
  | none => pure ()
  | some e => sys (fun w => ((), { w with stderr := w.stderr ++ e ++ str "\n" }))

/-- A call whose results are dropped. -/
def discard {α : Type} (x : M α) : M Unit := do
  let _ ← x
  pure ()

/-- `filepath.Abs`: a rooted path cleaned, any other joined to the working
directory. -/
def filepath.Abs (p : Str) (w : World) : Except Err Str :=
  if filepath.IsAbs p then .ok (filepath.Clean p)
  else
    match os.Getwd w with
    | .ok wd => .ok (filepath.Join [wd, p])
    | .error e => .error e

/-- `hashStrings`: every string is written to one SHA-256 hash, and the sum
is encoded. -/
def hashStrings (strs : List Str) : Str :=
  base64.URLEncoding.EncodeToString (sha256 (strs.foldl (fun hash s => hash ++ s) []))

/-- The loop of `hashFiles`; `hash` holds the bytes written to the hash. -/
def hashFilesLoop : List Str → Str → M Str
  | [], hash => pure hash
  | file :: files, hash => do
    let f ← must (← ask (os.Open file))
    let c ← must (← ask (readAll f))
    hashFilesLoop files (hash ++ c)

/-- `hashFiles`: every file is copied into one SHA-256 hash, and the sum is
encoded; a file that cannot be opened or read is fatal. -/
def hashFiles (files : List Str) : M Str := do
  let hash ← hashFilesLoop files []
  pure (base64.URLEncoding.EncodeToString (sha256 hash))

/-- `runCommand`: the child writes to the standard streams of the process. -/
def runCommand (tc : Toolchain) (cmd : Str) (args : List Str) : M (Option Err) := do
  let r ← sys (spawn tc (cmd :: args))
  sys (fun w => ((), { w with stdout := w.stdout ++ r.out, stderr := w.stderr ++ r.diag }))
  pure r.err

/-- `runCommandSilent`: the output of the child is dropped. -/
def runCommandSilent (tc : Toolchain) (cmd : Str) (args : List Str) : M (Option Err) := do
  let r ← sys (spawn tc (cmd :: args))
  pure r.err

/-- `runCommandOutput`: the standard output of the child is returned. -/
def runCommandOutput (tc : Toolchain) (cmd : Str) (args : List Str) : M (Str × Option Err) := do
  let r ← sys (spawn tc (cmd :: args))
  pure (r.out, r.err)

/-- `copyFile`: the destination is created or truncated, then the bytes of the
source are written to it; it returns the first error. -/
def copyFile (src dst : Str) : M (Option Err) := do
  match ← ask (os.Open src) with
  | .error e => pure (some e)
  | .ok inp =>
    match ← sys (os.Create dst) with
    | .error e => pure (some e)
    | .ok out =>
      match ← ask (readAll inp) with
      | .error e => pure (some e)
      | .ok c =>
        sys (fun w => ((), writeAll out c w))
        pure none

/-- The loop of `getExecCommand`: every path is made absolute in place. -/
def getExecCommandLoop : List Str → M (List Str)
  | [] => pure []
  | s :: rest => do
    let a ← must (← ask (filepath.Abs s))
    let as ← getExecCommandLoop rest
    pure (a :: as)

/-- `getExecCommand`: the first argument split at `,`, made absolute and
sorted; the other arguments as they are. -/
def getExecCommand : M execCmd := do
  let args ← ask (fun w => w.args)
  if args.length ≤ 1 then
    throwPanic (str "No file(s) to compile")
  else
    let src ← getExecCommandLoop (strings.Split (args.getD 1 []) pathSplitter)
    pure { src := slices.Sort src, args := args.drop 2 }

/-- `prepareOutputDir`: the cache path must be a directory with permission
bits 0o700 when it exists, and is created when it does not. -/
def prepareOutputDir (cmd : execCmd) : M Str := do
  let euid ← ask os.Geteuid
  let outDir := filepath.Join
    [← ask os.TempDir, str "gorun-" ++ strconv.Itoa euid, hashStrings cmd.src]
  match ← ask (os.Stat outDir) with
  | .ok stat =>
    if !stat.IsDir || stat.Perm != 0o700 then
      throwPanic (str "Output path is not a directory or has wrong permissions")
    else pure outDir
  | .error _ =>
    panicIfError (← sys (os.MkdirAll outDir 0o700))
    pure outDir

/-- `setGoEnv`: `GOPROXY` is saved and pointed at the module cache. -/
def setGoEnv (tc : Toolchain) : M goEnv := do
  let (cacheDir, err) ← runCommandOutput tc (str "go") [str "env", str "GOMODCACHE"]
  panicIfError err
  let cacheDir := strings.TrimSpace cacheDir
  let (proxy, proxyPresent) ← ask (os.LookupEnv goProxy)
  panicIfError (← sys (os.Setenv goProxy
    (str "file://" ++ filepath.Join [cacheDir, str "cache", str "download"])))
  pure { proxy := proxy, proxyPresent := proxyPresent }

/-- `unsetGoEnv`: `GOPROXY` is set to its saved value, or unset. -/
def unsetGoEnv (env : goEnv) : M Unit := do
  if env.proxyPresent then
    logIfError (← sys (os.Setenv goProxy env.proxy))
  else
    logIfError (← sys (os.Unsetenv goProxy))

/-- `copySources`: every source is copied into the cache directory under its
base name. -/
def copySources (cmd : execCmd) (outDir : Str) : M Unit :=
  forEach cmd.src fun src => do
    panicIfError (← copyFile src (filepath.Join [outDir, filepath.Base src]))

/-- `clearSources`: the staged copies, `go.mod` and `go.sum` are removed;
errors are ignored. -/
def clearSources (cmd : execCmd) (outDir : Str) : M Unit := do
  forEach cmd.src fun src =>
    discard (sys (os.Remove (filepath.Join [outDir, filepath.Base src])))
  discard (sys (os.Remove (filepath.Join [outDir, str "go.mod"])))
  discard (sys (os.Remove (filepath.Join [outDir, str "go.sum"])))

/-- `clearDir`: every entry of the directory is removed; an entry that cannot
be removed is logged. -/
def clearDir (path : Str) : M Unit := do
  let lsDir ← must (← ask (os.ReadDir path))
  forEach lsDir fun name =>
    if name = str "." ∨ name = str ".." then pure ()
    else do logIfError (← sys (os.Remove (filepath.Join [path, name])))

/-- The argument list of the build step. -/
def buildArgs (exe : Str) : List Str :=
  [str "build", str "-o", exe, str "-ldflags", str "-s -w", str "-trimpath"]

/-- `doCompileSources`: the three toolchain steps, run in the cache directory
with `GOPROXY` overridden; the working directory and `GOPROXY` are put back by
deferred calls. -/
def doCompileSources (tc : Toolchain) (_cmd : execCmd) (outDir : Str) (exe : Str) : M Unit := do
  let curWD ← must (← ask os.Getwd)
  panicIfError (← sys (os.Chdir outDir))
  deferring (discard (sys (os.Chdir curWD))) do
    let goEn ← setGoEnv tc
    deferring (unsetGoEnv goEn) do
      panicIfError (← runCommandSilent tc (str "go") [str "mod", str "init", str "gorun"])
      panicIfError (← runCommand tc (str "go") [str "mod", str "tidy"])
      panicIfError (← runCommand tc (str "go") (buildArgs exe))

/-- `compileSources`: the path of the executable named by the build-level key;
it is built when the cache directory has no entry of that name. -/
def compileSources (tc : Toolchain) (cmd : execCmd) (outDir : Str) : M Str := do
  let hash ← hashFiles cmd.src
  let exe := filepath.Join [outDir, hash]
  match ← ask (os.Stat exe) with
  | .ok _ => pure exe
  | .error _ =>
    clearDir outDir
    deferring (clearSources cmd outDir) do
      copySources cmd outDir
      doCompileSources tc cmd outDir exe
      pure exe

/-- `execCommand`: the process is replaced by the executable. -/
def execCommand (cmd : execCmd) (exe : Str) : M Unit := do
  let args := [exe] ++ cmd.args
  let err ← syscall.Exec exe args (← ask os.Environ)
  panicIfError err

/-- The body of `main` below `defer checkPanic()`. -/
def mainBody (tc : Toolchain) : M Unit := do
  let cmd ← getExecCommand
  let outDir ← prepareOutputDir cmd
  deferring (discard (sys (os.RemoveAll outDir))) do
    let exe ← compileSources tc cmd outDir
    execCommand cmd exe
    throwPanic (str "not reachable")

/-- How the process ends. -/
inductive Exit
  /-- The process image was replaced by `exe`, started with `argv` and `envv`. -/
  | launched (exe : Str) (argv : List Str) (envv : List Str) (w : World)
  /-- The error was printed and the process exited with a non-zero status. -/
  | fatal (e : Err) (w : World)
  /-- The function `main` returned. -/
  | returned (w : World)

/-- The world a process ends in. -/
def Exit.world : Exit → World
  | .launched _ _ _ w => w
  | .fatal _ w => w
  | .returned w => w

/-- Modelled from the spec: `checkPanic` is deferred by `main` and defined
outside `gorun.go`; it is the top-level recovery point, which prints the
error of a panic and ends the process with a non-zero status. -/
def checkPanic (r : Res Unit) : Exit :=
  match r with
  | .ok _ w => .returned w
  | .panic e w => .fatal e { w with stderr := w.stderr ++ e ++ str "\n" }
  | .replaced exe argv envv w => .launched exe argv envv w

/-- `main`, with the toolchain and the initial world as parameters. -/
def main (tc : Toolchain) (w : World) : Exit := checkPanic (mainBody tc w)

/-! ## Specifications -/

/-- A triple: from a world satisfying `P` the computation does not replace
the process image; it returns in a world satisfying `Q`, or panics in a world
satisfying `E`. -/
def Triple {α : Type} (P : World → Prop) (m : M α) (Q : α → World → Prop)
    (E : World → Prop) : Prop :=
  ∀ w, P w →
    match m w with
    | .ok a w1 => Q a w1
    | .panic _ w1 => E w1
    | .replaced _ _ _ _ => False

/-- The content of a file in a world, empty when it cannot be read. -/
def fileContent (w : World) (file : Str) : Str :=
  match w.fs.find (resolve w file) with
  | some (.file c) => c
  | _ => []

/-- The path names a regular file. -/
def readable (w : World) (file : Str) : Bool :=
  match w.fs.find (resolve w file) with
  | some (.file _) => true
  | _ => false

/-- The contents of the files, concatenated in the order of the list. -/
def fileBytes (files : List Str) (w : World) : Str :=
  (files.map (fileContent w)).flatten

/-! ## Example worlds -/

/-- A machine with an empty file system and environment, working directory
`/`, and a process started without arguments. -/
def emptyWorld : World :=
  { args := [str "gorun"], env := [], cwd := [], euid := 1000, fs := [],
    spawned := [], stdout := [], stderr := [] }

/-- The process started as `gorun SRC`. -/
def argWorld (srcArg : String) : World := { emptyWorld with args := [str "gorun", str srcArg] }

/-- The files `/a` and `/b` with the given contents. -/
def abWorld (a b : String) : World :=
  { emptyWorld with fs := [([str "a"], .file (str a)), ([str "b"], .file (str b))] }

/-- The process started as `gorun a.go` in a working directory that has been
removed. -/
def goneWorld : World :=
  { emptyWorld with args := [str "gorun", str "a.go"], cwd := [str "gone"] }

/-- The path of the cache directory, as `prepareOutputDir` computes it. -/
def cachePath (cmd : execCmd) (w : World) : Str :=
  filepath.Join [os.TempDir w, str "gorun-" ++ strconv.Itoa (os.Geteuid w), hashStrings cmd.src]

/-- The message of `prepareOutputDir`. -/
def badOutputDir : Err := str "Output path is not a directory or has wrong permissions"

/-- No program can be started. -/
def noToolchain : Toolchain :=
  { run := fun _ w => { fs := w.fs, out := [], diag := [], err := some (str "exec: not found") } }

/-- The source `/a` with content `x`, and the cache directory `/c` holding an
entry named by the build-level key of that content. -/
def hitWorld : World :=
  { emptyWorld with
    fs := [([str "a"], .file (str "x")), ([str "c"], .dir 0o700),
           ([str "c", Base64.encode (sha256 (str "x"))], .file (str "ELF"))] }

/-- The process started as `gorun /a` where the cache path of `/a` is a
regular file. -/
def blockedWorld : World :=
  { emptyWorld with
    args := [str "gorun", str "/a"]
    fs := [([str "a"], .file (str "x")), ([str "tmp"], .dir 0o777),
           ([str "tmp", str "gorun-1000"], .dir 0o700),
           ([str "tmp", str "gorun-1000", hashStrings [str "/a"]], .file [])] }

/-- The computation keeps an invariant of the world, on return and on panic,
and does not replace the process image. -/
def Keeps {α : Type} (I : World → Prop) (m : M α) : Prop :=
  Triple I m (fun _ => I) I

/-- A toolchain that behaves as the Go toolchain is expected to: `go env
GOMODCACHE` prints a path, `go mod init` writes `go.mod` and `go mod tidy`
writes `go.sum` in the working directory, and `go build -o exe` writes the
executable when `buildOk` holds and fails otherwise. -/
def goToolchain (buildOk : Bool) : Toolchain where
  run argv w :=
    if argv = [str "go", str "env", str "GOMODCACHE"] then
      { fs := w.fs, out := str "/root/go/pkg/mod\n", diag := [], err := none }
    else if argv = [str "go", str "mod", str "init", str "gorun"] then
      { fs := w.fs.set (w.cwd ++ [str "go.mod"]) (.file (str "module gorun\n")),
        out := [], diag := [], err := none }
    else if argv = [str "go", str "mod", str "tidy"] then
      { fs := w.fs.set (w.cwd ++ [str "go.sum"]) (.file []), out := [], diag := [], err := none }
    else
      match argv with
      | [_, _, _, exe, _, _, _] =>
        if argv = str "go" :: buildArgs exe ∧ buildOk = true then
          { fs := w.fs.set (resolve w exe) (.file (str "ELF")), out := [], diag := [],
            err := none }
        else { fs := w.fs, out := [], diag := str "build failed\n", err := some (str "exit status 1") }
      | _ => { fs := w.fs, out := [], diag := [], err := some (str "exec: not found") }

/-- The process started as `gorun b.go,a.go x y` in `/home`, which holds the
two sources, with `GOPROXY` set. -/
def homeWorld : World :=
  { args := [str "gorun", str "b.go,a.go", str "x", str "y"]
    env := [(str "HOME", str "/root"), (str "GOPROXY", str "direct")]
    cwd := [str "home"]
    euid := 1000
    fs := [([str "tmp"], .dir 0o777), ([str "home"], .dir 0o755),
           ([str "home", str "a.go"], .file (str "package main")),
           ([str "home", str "b.go"], .file (str "func main(){}"))]
    spawned := [], stdout := [], stderr := [] }

def Exit.isLaunched : Exit → Bool
  | .launched _ _ _ _ => true
  | _ => false

def Exit.isFatal : Exit → Bool
  | .fatal _ _ => true
  | _ => false

/-- The process started as `gorun a.go` in `/h/w`, which holds the source,
with `TMPDIR=../t`: the cache path is not rooted. -/
def relWorld : World :=
  { args := [str "gorun", str "a.go"]
    env := [(str "TMPDIR", str "../t")]
    cwd := [str "h", str "w"]
    euid := 1000
    fs := [([str "h"], .dir 0o755), ([str "h", str "w"], .dir 0o755),
           ([str "h", str "w", str "a.go"], .file (str "package main"))]
    spawned := [], stdout := [], stderr := [] }

/-- The command `getExecCommand` returns in `relWorld`. -/
def relCmd : execCmd := { src := [str "/h/w/a.go"], args := [] }

/-- A child process that removes the directory `/h/w` with all that is below
it, and exits with a non-zero status. -/
def wreckToolchain : Toolchain :=
  { run := fun _ w =>
      { fs := w.fs.eraseTree [str "h", str "w"], out := [], diag := [],
        err := some (str "exit status 1") } }

/-- The command `getExecCommand` returns in `homeWorld`. -/
def homeCmd : execCmd :=
  { src := [str "/home/a.go", str "/home/b.go"], args := [str "x", str "y"] }

/-! ## The contents of the cache directory -/

/-- The entry `n` of the directory `P` is a directory that is not empty:
`os.Remove` cannot remove it. -/
def stuck (P : Path) (fs : FS) (n : Str) : Bool :=
  match fs.find (P ++ [n]) with
  | some (.dir _) => fs.hasBelow (P ++ [n])
  | _ => false

/-- Every entry of the directory `P` is a regular file whose name satisfies
`A`, unless its name satisfies `D`. -/
def entriesIn (P : Path) (A D : Str → Prop) (fs : FS) : Prop :=
  ∀ n, validName n = true → ∀ node, fs.find (P ++ [n]) = some node →
    D n ∨ (node.IsDir = false ∧ A n)

/-- Every entry of the directory `P` is a regular file or an empty directory:
`os.Remove` can remove it. -/
def removable (P : Path) (fs : FS) : Prop :=
  ∀ n, validName n = true → ∀ node, fs.find (P ++ [n]) = some node →
    node.IsDir = false ∨ fs.hasBelow (P ++ [n]) = false

/-- The names `compileSources` stages in the cache directory and removes
again: the base names of the sources, `go.mod` and `go.sum`. -/
def staged (cmd : execCmd) (n : Str) : Prop :=
  n ∈ cmd.src.map filepath.Base ∨ n = str "go.mod" ∨ n = str "go.sum"

/-- The argument vectors of the child processes `doCompileSources` runs. -/
def toolSteps (exe : Str) : List (List Str) :=
  [[str "go", str "env", str "GOMODCACHE"], [str "go", str "mod", str "init", str "gorun"],
   [str "go", str "mod", str "tidy"], str "go" :: buildArgs exe]

/-- What `compileSources` expects of the toolchain, for the cache directory
`P`, the build-level key `key` and the path `exe` of the executable, apart
from the entries whose names satisfy `D`, of which nothing is expected: run
in a cache directory whose other entries are regular files, each of the four
commands leaves the other entries regular files, and an entry it adds is
`go.mod`, `go.sum` or, when the command is the build step and succeeds, the
executable. -/
def Confined (tc : Toolchain) (P : Path) (key exe : Str) (D : Str → Prop) : Prop :=
  ∀ argv ∈ toolSteps exe, ∀ w,
    (∀ n, validName n = true → ∀ node, w.fs.find (P ++ [n]) = some node →
      D n ∨ node.IsDir = false) →
    ∀ n, validName n = true → ∀ node, (tc.run argv w).fs.find (P ++ [n]) = some node →
      D n ∨ (node.IsDir = false ∧
      (w.fs.find (P ++ [n]) ≠ none ∨ n = str "go.mod" ∨ n = str "go.sum" ∨
        (n = key ∧ argv = str "go" :: buildArgs exe ∧ (tc.run argv w).err = none)))

/-- A regular file is at the canonical path `q`. -/
def holdsFile (q : Path) (fs : FS) : Prop := ∃ c, fs.find q = some (.file c)

/-- A build step that succeeds has written the executable, the entry `key`
of the cache directory `P`. -/
def Builds (tc : Toolchain) (P : Path) (key exe : Str) : Prop :=
  ∀ w, (tc.run (str "go" :: buildArgs exe) w).err = none →
    holdsFile (P ++ [key]) (tc.run (str "go" :: buildArgs exe) w).fs

/-- The miss path of `compileSources`, from the call of `clearDir` on. -/
def missPath (tc : Toolchain) (cmd : execCmd) (outDir exe : Str) : M Str := do
  clearDir outDir
  deferring (clearSources cmd outDir) do
    copySources cmd outDir
    doCompileSources tc cmd outDir exe
    pure exe

/-- The sources of `homeWorld` and a cache directory `/c` that holds a stale
file and an empty directory. -/
def missWorld : World :=
  { homeWorld with
    fs := homeWorld.fs ++ [([str "c"], .dir 0o700), ([str "c", str "old"], .file (str "stale")),
      ([str "c", str "d"], .dir 0o755)] }

/-- The sources of `homeWorld` and a cache directory `/c` that holds a
directory which is not empty. -/
def staleWorld : World :=
  { homeWorld with
    fs := homeWorld.fs ++ [([str "c"], .dir 0o700), ([str "c", str "d"], .dir 0o755),
      ([str "c", str "d", str "x"], .file [])] }

/-- The build-level key of the sources of `homeWorld`. -/
def homeKey : Str := Base64.encode (sha256 (str "package mainfunc main(){}"))

/-! ## Reasoning about computations -/

@[simp] theorem pure_run {α : Type} (a : α) (w : World) : (pure a : M α) w = .ok a w := rfl

theorem bind_run {α β : Type} (x : M α) (f : α → M β) (w : World) :
    (x >>= f) w = match x w with
      | .ok a w1 => f a w1
      | .panic e w1 => .panic e w1
      | .replaced exe argv envv w1 => .replaced exe argv envv w1 := rfl

@[simp] theorem bind_ok {α β : Type} (x : M α) (f : α → M β) (w w1 : World) (a : α)
    (h : x w = .ok a w1) : (x >>= f) w = f a w1 := by
  rw [bind_run, h]

@[simp] theorem ask_run {α : Type} (f : World → α) (w : World) : ask f w = .ok (f w) w := rfl

@[simp] theorem sys_run {α : Type} (f : World → α × World) (w : World) :
    sys f w = .ok (f w).1 (f w).2 := rfl

@[simp] theorem throwPanic_run {α : Type} (e : Err) (w : World) :
    (throwPanic e : M α) w = .panic e w := rfl

theorem Triple.pure {α : Type} {P : World → Prop} {Q : α → World → Prop} {E : World → Prop}
    (a : α) (h : ∀ w, P w → Q a w) : Triple P (pure a : M α) Q E := by
  intro w hw
  exact h w hw

theorem Triple.bind {α β : Type} {P : World → Prop} {R : α → World → Prop}
    {Q : β → World → Prop} {E : World → Prop} {x : M α} {f : α → M β}
    (hx : Triple P x R E) (hf : ∀ a, Triple (R a) (f a) Q E) : Triple P (x >>= f) Q E := by
  intro w hw
  have h1 := hx w hw
  rw [bind_run]
  cases hxw : x w with
  | ok a w1 =>
    rw [hxw] at h1
    exact hf a w1 h1
  | panic e w1 =>
    rw [hxw] at h1
    exact h1
  | replaced exe argv envv w1 =>
    rw [hxw] at h1
    exact h1.elim

theorem Triple.weaken {α : Type} {P P2 : World → Prop} {Q Q2 : α → World → Prop}
    {E E2 : World → Prop} {m : M α} (h : Triple P m Q E) (hP : ∀ w, P2 w → P w)
    (hQ : ∀ a w, Q a w → Q2 a w) (hE : ∀ w, E w → E2 w) : Triple P2 m Q2 E2 := by
  intro w hw
  have h1 := h w (hP w hw)
  cases hm : m w with
  | ok a w1 => rw [hm] at h1; exact hQ a w1 h1
  | panic e w1 => rw [hm] at h1; exact hE w1 h1
  | replaced exe argv envv w1 => rw [hm] at h1; exact h1.elim

theorem Triple.ask {α : Type} {P : World → Prop} {Q : α → World → Prop} {E : World → Prop}
    (f : World → α) (h : ∀ w, P w → Q (f w) w) : Triple P (ask f) Q E := by
  intro w hw
  exact h w hw

theorem Triple.sys {α : Type} {P : World → Prop} {Q : α → World → Prop} {E : World → Prop}
    (f : World → α × World) (h : ∀ w, P w → Q (f w).1 (f w).2) : Triple P (sys f) Q E := by
  intro w hw
  exact h w hw

theorem Triple.throwPanic {α : Type} {P : World → Prop} {Q : α → World → Prop}
    {E : World → Prop} (e : Err) (h : ∀ w, P w → E w) : Triple P (throwPanic e : M α) Q E := by
  intro w hw
  exact h w hw

theorem Triple.must {α : Type} {P : World → Prop} {Q : α → World → Prop} {E : World → Prop}
    (r : Except Err α) (hok : ∀ a, r = .ok a → ∀ w, P w → Q a w) (herr : ∀ w, P w → E w) :
    Triple P (must r) Q E := by
  cases r with
  | ok a => exact Triple.pure a (hok a rfl)
  | error e => exact Triple.throwPanic e herr

theorem Triple.panicIfError {P : World → Prop} {Q : Unit → World → Prop} {E : World → Prop}
    (err : Option Err) (hok : err = none → ∀ w, P w → Q () w) (herr : ∀ w, P w → E w) :
    Triple P (panicIfError err) Q E := by
  cases err with
  | none => exact Triple.pure () (hok rfl)
  | some e => exact Triple.throwPanic e herr

theorem Triple.deferring {α : Type} {P : World → Prop} {R : α → World → Prop}
    {F : World → Prop} {Q : α → World → Prop} {E : World → Prop} {d : M Unit} {body : M α}
    (hb : Triple P body R F)
    (hdQ : ∀ a, Triple (R a) d (fun _ => Q a) E)
    (hdE : Triple F d (fun _ => E) E) : Triple P (deferring d body) Q E := by
  intro w hw
  have h1 := hb w hw
  unfold Gorun.deferring
  cases hbw : body w with
  | ok a w1 =>
    rw [hbw] at h1
    have h2 := hdQ a w1 h1
    cases hd : d w1 with
    | ok u w2 => rw [hd] at h2; simpa only [hd] using h2
    | panic e w2 => rw [hd] at h2; simpa only [hd] using h2
    | replaced exe argv envv w2 => rw [hd] at h2; exact h2.elim
  | panic e w1 =>
    rw [hbw] at h1
    have h2 := hdE w1 h1
    cases hd : d w1 with
    | ok u w2 => rw [hd] at h2; simpa only [hd] using h2
    | panic e w2 => rw [hd] at h2; simpa only [hd] using h2
    | replaced exe argv envv w2 => rw [hd] at h2; exact h2.elim
  | replaced exe argv envv w1 =>
    rw [hbw] at h1
    exact h1.elim

theorem Triple.forEach {α : Type} {I : World → Prop} {E : World → Prop} (l : List α)
    (f : α → M Unit) (hf : ∀ x ∈ l, Triple I (f x) (fun _ => I) E) :
    Triple I (forEach l f) (fun _ => I) E := by
  induction l with
  | nil => exact Triple.pure () (fun _ h => h)
  | cons x xs ih =>
    unfold Gorun.forEach
    exact Triple.bind (hf x (List.mem_cons_self x xs))
      (fun _ => ih (fun y hy => hf y (List.mem_cons_of_mem x hy)))

/-! ## Sorting -/

theorem strLe_refl (a : Str) : strLe a a = true := by
  induction a with
  | nil => rfl
  | cons x xs ih => simp [strLe, ih]

theorem strLe_total (a b : Str) : strLe a b = true ∨ strLe b a = true := by
  induction a generalizing b with
  | nil => left; rfl
  | cons x xs ih =>
    cases b with
    | nil => right; rfl
    | cons y ys =>
      unfold strLe
      rcases lt_trichotomy x y with h | h | h
      · left; simp [h]
      · subst h
        simpa using ih ys
      · right; simp [h]

theorem strLe_antisymm (a b : Str) (h1 : strLe a b = true) (h2 : strLe b a = true) : a = b := by
  induction a generalizing b with
  | nil =>
    cases b with
    | nil => rfl
    | cons y ys => simp [strLe] at h2
  | cons x xs ih =>
    cases b with
    | nil => simp [strLe] at h1
    | cons y ys =>
      unfold strLe at h1 h2
      rcases lt_trichotomy x y with h | h | h
      · simp [h, not_lt_of_lt h] at h2
      · subst h
        simp at h1 h2
        rw [ih ys h1 h2]
      · simp [h, not_lt_of_lt h] at h1

theorem strLe_trans (a b c : Str) (h1 : strLe a b = true) (h2 : strLe b c = true) :
    strLe a c = true := by
  induction a generalizing b c with
  | nil => rfl
  | cons x xs ih =>
    cases b with
    | nil => simp [strLe] at h1
    | cons y ys =>
      cases c with
      | nil => simp [strLe] at h2
      | cons z zs =>
        unfold strLe at h1 h2 ⊢
        rcases lt_trichotomy x y with h | h | h
        · rcases lt_trichotomy y z with g | g | g
          · simp [lt_trans h g]
          · subst g; simp [h]
          · simp [g, not_lt_of_lt g] at h2
        · subst h
          rcases lt_trichotomy x z with g | g | g
          · simp [g]
          · subst g
            simp at h1 h2 ⊢
            exact ih ys zs h1 h2
          · simp [g, not_lt_of_lt g] at h2
        · simp [h, not_lt_of_lt h] at h1

/-- Sorting forgets the order of its input. -/
theorem sort_eq_of_perm (l1 l2 : List Str) (h : l1.Perm l2) : slices.Sort l1 = slices.Sort l2 := by
  haveI : IsTotal Str (fun a b => strLe a b = true) := ⟨strLe_total⟩
  haveI : IsTrans Str (fun a b => strLe a b = true) := ⟨strLe_trans⟩
  haveI : IsAntisymm Str (fun a b => strLe a b = true) := ⟨strLe_antisymm⟩
  unfold slices.Sort
  apply List.eq_of_perm_of_sorted _ (List.sorted_insertionSort _ l1) (List.sorted_insertionSort _ l2)
  exact ((List.perm_insertionSort _ l1).trans h).trans (List.perm_insertionSort _ l2).symm

theorem mem_sort (l : List Str) (x : Str) : x ∈ slices.Sort l ↔ x ∈ l :=
  (List.perm_insertionSort _ l).mem_iff

/-! ## Hashing -/

theorem foldl_write (strs : List Str) (acc : Str) :
    strs.foldl (fun hash s => hash ++ s) acc = acc ++ strs.flatten := by
  induction strs generalizing acc with
  | nil => simp
  | cons s rest ih => simp [ih]

/-- The digest depends on the strings through their concatenation only. -/
theorem hashStrings_eq (strs : List Str) :
    hashStrings strs = Base64.encode (sha256 strs.flatten) := by
  simp [hashStrings, base64.URLEncoding.EncodeToString, foldl_write]

/-! ## Base64 is injective -/

namespace Base64

theorem enc_ne_pad : ∀ n, n < 64 → enc n ≠ padChar := by decide

theorem enc_inj : ∀ n, n < 64 → ∀ m, m < 64 → enc n = enc m → n = m := by decide

theorem enc_eq {n m : Nat} (hn : n < 64) (hm : m < 64) (h : enc n = enc m) : n = m :=
  enc_inj n hn m hm h

theorem encode_injective : ∀ l1 l2 : Str, encode l1 = encode l2 → l1 = l2
  | [], [] => fun _ => rfl
  | [], [_] => fun h => by simp [encode] at h
  | [], [_, _] => fun h => by simp [encode] at h
  | [], _ :: _ :: _ :: _ => fun h => by simp [encode] at h
  | [_], [] => fun h => by simp [encode] at h
  | [_, _], [] => fun h => by simp [encode] at h
  | _ :: _ :: _ :: _, [] => fun h => by simp [encode] at h
  | [a], [a2] => fun h => by
    simp only [encode, List.cons.injEq] at h
    have h1 := enc_eq (by omega) (by omega) h.1
    have h2 := enc_eq (by omega) (by omega) h.2.1
    have : a = a2 := Fin.ext (by omega)
    rw [this]
  | [a], [a2, b2] => fun h => by
    simp only [encode, List.cons.injEq] at h
    exact absurd h.2.2.1.symm (enc_ne_pad _ (by omega))
  | [a], a2 :: b2 :: c2 :: r2 => fun h => by
    simp only [encode, List.cons.injEq] at h
    exact absurd h.2.2.1.symm (enc_ne_pad _ (by omega))
  | [a, b], [a2] => fun h => by
    simp only [encode, List.cons.injEq] at h
    exact absurd h.2.2.1 (enc_ne_pad _ (by omega))
  | [a, b], [a2, b2] => fun h => by
    simp only [encode, List.cons.injEq] at h
    have h1 := enc_eq (by omega) (by omega) h.1
    have h2 := enc_eq (by omega) (by omega) h.2.1
    have h3 := enc_eq (by omega) (by omega) h.2.2.1
    have e1 : a = a2 := Fin.ext (by omega)
    have e2 : b = b2 := Fin.ext (by omega)
    rw [e1, e2]
  | [a, b], a2 :: b2 :: c2 :: r2 => fun h => by
    simp only [encode, List.cons.injEq] at h
    exact absurd h.2.2.2.1.symm (enc_ne_pad _ (by omega))
  | a :: b :: c :: r, [a2] => fun h => by
    simp only [encode, List.cons.injEq] at h
    exact absurd h.2.2.1 (enc_ne_pad _ (by omega))
  | a :: b :: c :: r, [a2, b2] => fun h => by
    simp only [encode, List.cons.injEq] at h
    exact absurd h.2.2.2.1 (enc_ne_pad _ (by omega))
  | a :: b :: c :: r, a2 :: b2 :: c2 :: r2 => fun h => by
    simp only [encode, List.cons.injEq] at h
    have h1 := enc_eq (by omega) (by omega) h.1
    have h2 := enc_eq (by omega) (by omega) h.2.1
    have h3 := enc_eq (by omega) (by omega) h.2.2.1
    have h4 := enc_eq (by omega) (by omega) h.2.2.2.1
    have e1 : a = a2 := Fin.ext (by omega)
    have e2 : b = b2 := Fin.ext (by omega)
    have e3 : c = c2 := Fin.ext (by omega)
    rw [e1, e2, e3, encode_injective r r2 h.2.2.2.2]

end Base64

/-! ## Conformance of the library layer

The test vectors of FIPS 180-4 and RFC 4648, and the examples in the
documentation of `path/filepath`. -/

set_option maxRecDepth 1000000 in
theorem sha256_abc :
    sha256 (str "abc") =
      [0xba, 0x78, 0x16, 0xbf, 0x8f, 0x01, 0xcf, 0xea, 0x41, 0x41, 0x40, 0xde, 0x5d, 0xae, 0x22,
      0x23, 0xb0, 0x03, 0x61, 0xa3, 0x96, 0x17, 0x7a, 0x9c, 0xb4, 0x10, 0xff, 0x61, 0xf2, 0x00,
      0x15, 0xad] := by
  decide

set_option maxRecDepth 1000000 in
theorem sha256_empty :
    sha256 [] =
      [0xe3, 0xb0, 0xc4, 0x42, 0x98, 0xfc, 0x1c, 0x14, 0x9a, 0xfb, 0xf4, 0xc8, 0x99, 0x6f, 0xb9,
      0x24, 0x27, 0xae, 0x41, 0xe4, 0x64, 0x9b, 0x93, 0x4c, 0xa4, 0x95, 0x99, 0x1b, 0x78, 0x52,
      0xb8, 0x55] := by
  decide

set_option maxRecDepth 1000000 in
theorem sha256_two_blocks :
    sha256 (str "abcdbcdecdefdefgefghfghighijhijkijkljklmklmnlmnomnopnopq") =
      [0x24, 0x8d, 0x6a, 0x61, 0xd2, 0x06, 0x38, 0xb8, 0xe5, 0xc0, 0x26, 0x93, 0x0c, 0x3e, 0x60,
      0x39, 0xa3, 0x3c, 0xe4, 0x59, 0x64, 0xff, 0x21, 0x67, 0xf6, 0xec, 0xed, 0xd4, 0x19, 0xdb,
      0x06, 0xc1] := by
  decide

theorem base64_vectors :
    Base64.encode (str "f") = str "Zg==" ∧ Base64.encode (str "fo") = str "Zm8=" ∧
    Base64.encode (str "foo") = str "Zm9v" ∧ Base64.encode (str "foobar") = str "Zm9vYmFy" ∧
    Base64.encode [0xfb, 0xff, 0xbe] = str "-_--" := by
  decide

theorem clean_examples :
    filepath.Clean (str "a/c") = str "a/c" ∧ filepath.Clean (str "a//c") = str "a/c" ∧
    filepath.Clean (str "a/c/.") = str "a/c" ∧ filepath.Clean (str "a/c/b/..") = str "a/c" ∧
    filepath.Clean (str "/../a/c") = str "/a/c" ∧
    filepath.Clean (str "/../a/b/../././/c") = str "/a/c" ∧
    filepath.Clean [] = str "." ∧ filepath.Clean (str "../..") = str "../.." ∧
    filepath.Clean (str "/") = str "/" := by
  decide

theorem base_examples :
    filepath.Base (str "/foo/bar/baz.js") = str "baz.js" ∧
    filepath.Base (str "/foo/bar/baz/") = str "baz" ∧ filepath.Base (str "dev.txt") = str "dev.txt" ∧
    filepath.Base (str "../todo.txt") = str "todo.txt" ∧ filepath.Base (str "..") = str ".." ∧
    filepath.Base (str ".") = str "." ∧ filepath.Base (str "/") = str "/" ∧
    filepath.Base [] = str "." := by
  decide

theorem join_examples :
    filepath.Join [str "a", str "b", str "c"] = str "a/b/c" ∧
    filepath.Join [str "a", str "b/c"] = str "a/b/c" ∧
    filepath.Join [str "a/b", str "../../../xyz"] = str "../xyz" ∧
    filepath.Join [[], []] = [] ∧ filepath.Join [str "a", []] = str "a" ∧
    filepath.Join [[], str "a"] = str "a" := by
  decide

theorem split_examples :
    strings.Split (str "a,b,c") pathSplitter = [str "a", str "b", str "c"] ∧
    strings.Split [] pathSplitter = [[]] ∧
    strings.Split (str "a,,b,") pathSplitter = [str "a", [], str "b", []] := by
  decide

/-! ## Reading the source files -/

theorem hashFilesLoop_spec (files : List Str) (acc : Str) (w : World) :
    hashFilesLoop files acc w = .ok (acc ++ fileBytes files w) w ∨
    ∃ e, hashFilesLoop files acc w = .panic e w := by
  induction files generalizing acc with
  | nil => left; simp [hashFilesLoop, fileBytes]
  | cons f rest ih =>
    unfold hashFilesLoop
    simp only [bind_run, ask_run, os.Open, readAll]
    cases hf : w.fs.find (resolve w f) with
    | none => right; simp [must]
    | some n =>
      cases n with
      | dir p => right; simp [must, hf]
      | file c =>
        simp only [must, pure_run, hf]
        rcases ih (acc ++ c) with h | ⟨e, h⟩
        · left
          rw [h]
          simp [fileBytes, fileContent, hf]
        · right
          exact ⟨e, h⟩

theorem hashFiles_spec (files : List Str) (w : World) :
    hashFiles files w = .ok (Base64.encode (sha256 (fileBytes files w))) w ∨
    ∃ e, hashFiles files w = .panic e w := by
  unfold hashFiles
  rcases hashFilesLoop_spec files [] w with h | ⟨e, h⟩
  · left
    simp [bind_run, h, base64.URLEncoding.EncodeToString]
  · right
    exact ⟨e, by simp [bind_run, h]⟩

theorem hashFiles_ok (files : List Str) (w w1 : World) (k : Str)
    (h : hashFiles files w = .ok k w1) :
    k = Base64.encode (sha256 (fileBytes files w)) ∧ w1 = w := by
  rcases hashFiles_spec files w with h1 | ⟨e, h1⟩
  · rw [h1] at h
    cases h
    exact ⟨rfl, rfl⟩
  · rw [h1] at h
    cases h

/-! ## The digest of a list of strings (C8) -/

/-- C8, amended. `hashStrings` is deterministic and, SHA-256 taken as
collision-free on the two concatenations, two sequences of strings get the
same digest exactly when their concatenations are equal: the digest tells
apart any two sequences whose concatenations differ, and no others. -/
theorem hashStrings_eq_iff (xs ys : List Str)
    (hsha : sha256 xs.flatten = sha256 ys.flatten → xs.flatten = ys.flatten) :
    hashStrings xs = hashStrings ys ↔ xs.flatten = ys.flatten := by
  rw [hashStrings_eq, hashStrings_eq]
  constructor
  · intro h
    exact hsha (Base64.encode_injective _ _ h)
  · intro h
    rw [h]

set_option maxRecDepth 100000 in
/-- The sequences `["a"]` and `["b"]`: SHA-256 tells their concatenations apart, and the digests
differ. -/
theorem hashStrings_eq_iff_witness :
    (sha256 [str "a"].flatten = sha256 [str "b"].flatten → [str "a"].flatten = [str "b"].flatten) ∧
    (hashStrings [str "a"] = hashStrings [str "b"] ↔ [str "a"].flatten = [str "b"].flatten) :=
  ⟨fun h => absurd h (by decide),
   hashStrings_eq_iff [str "a"] [str "b"] (fun h => absurd h (by decide))⟩

/-- C8, as stated, fails: two sequences that differ in the content of their
elements, and two that differ in order, get the same digest, because the
strings are written to the hash one after the other without a separator. -/
theorem hashStrings_collision :
    [str "ab", str "c"] ≠ [str "a", str "bc"] ∧
    hashStrings [str "ab", str "c"] = hashStrings [str "a", str "bc"] ∧
    [str "a", str "aa"] ≠ [str "aa", str "a"] ∧
    hashStrings [str "a", str "aa"] = hashStrings [str "aa", str "a"] := by
  refine ⟨by decide, ?_, by decide, ?_⟩
  · rw [hashStrings_eq, hashStrings_eq]
    have : [str "ab", str "c"].flatten = [str "a", str "bc"].flatten := by decide
    rw [this]
  · rw [hashStrings_eq, hashStrings_eq]
    have : [str "a", str "aa"].flatten = [str "aa", str "a"].flatten := by decide
    rw [this]

/-! ## The build-level key (C7) -/

theorem hashFiles_readable (files : List Str) (w : World)
    (hr : ∀ f ∈ files, readable w f = true) :
    hashFiles files w = .ok (Base64.encode (sha256 (fileBytes files w))) w := by
  have key : ∀ acc, hashFilesLoop files acc w = .ok (acc ++ fileBytes files w) w := by
    induction files with
    | nil => intro acc; simp [hashFilesLoop, fileBytes]
    | cons f rest ih =>
      intro acc
      have hf := hr f (List.mem_cons_self f rest)
      unfold readable at hf
      split at hf
      case h_2 => cases hf
      rename_i c hc
      unfold hashFilesLoop
      simp only [bind_run, ask_run, os.Open, readAll, hc, must, pure_run]
      rw [ih (fun g hg => hr g (List.mem_cons_of_mem f hg))]
      simp [fileBytes, fileContent, hc]
  unfold hashFiles
  simp [bind_run, key, base64.URLEncoding.EncodeToString]

/-- C7, amended. When every listed file can be read in both file-system
states, `hashFiles` returns in both, and, SHA-256 taken as collision-free on
the two concatenations of the file contents, the two keys are equal exactly
when those concatenations are equal. In particular the keys differ when the
two states differ in the content of one listed file and agree on the files
listed before and after it. -/
theorem hashFiles_key_iff (files : List Str) (w1 w2 : World)
    (hr1 : ∀ f ∈ files, readable w1 f = true) (hr2 : ∀ f ∈ files, readable w2 f = true)
    (hsha : sha256 (fileBytes files w1) = sha256 (fileBytes files w2) →
      fileBytes files w1 = fileBytes files w2) :
    ∃ k1 k2, hashFiles files w1 = .ok k1 w1 ∧ hashFiles files w2 = .ok k2 w2 ∧
      (k1 = k2 ↔ fileBytes files w1 = fileBytes files w2) ∧
      (∀ before f after, files = before ++ f :: after →
        (∀ g ∈ before ++ after, fileContent w1 g = fileContent w2 g) →
        fileContent w1 f ≠ fileContent w2 f → k1 ≠ k2) := by
  refine ⟨_, _, hashFiles_readable files w1 hr1, hashFiles_readable files w2 hr2, ?_, ?_⟩
  · constructor
    · intro h
      exact hsha (Base64.encode_injective _ _ h)
    · intro h
      rw [h]
  · intro before f after hfiles hsame hdiff hk
    have hb := hsha (Base64.encode_injective _ _ hk)
    apply hdiff
    have e1 : List.map (fileContent w1) before = List.map (fileContent w2) before :=
      List.map_congr_left (fun g hg => hsame g (List.mem_append_left after hg))
    have e2 : List.map (fileContent w1) after = List.map (fileContent w2) after :=
      List.map_congr_left (fun g hg => hsame g (List.mem_append_right before hg))
    subst hfiles
    simp only [fileBytes, List.map_append, List.map_cons, List.flatten_append,
      List.flatten_cons, e1, e2] at hb
    have hb2 := List.append_cancel_left hb
    have hlen : (fileContent w1 f).length = (fileContent w2 f).length := by
      have := congrArg List.length hb2
      simp only [List.length_append] at this
      omega
    exact (List.append_inj hb2 hlen).1

set_option maxRecDepth 100000 in
/-- The files `/a` and `/b` in two states that differ in the content of `/b`. -/
theorem hashFiles_key_iff_witness :
    ∃ k1 k2, hashFiles [str "/a", str "/b"] (abWorld "x" "y") = .ok k1 (abWorld "x" "y") ∧
      hashFiles [str "/a", str "/b"] (abWorld "x" "z") = .ok k2 (abWorld "x" "z") ∧
      (k1 = k2 ↔ fileBytes [str "/a", str "/b"] (abWorld "x" "y") =
        fileBytes [str "/a", str "/b"] (abWorld "x" "z")) ∧
      (∀ before f after, [str "/a", str "/b"] = before ++ f :: after →
        (∀ g ∈ before ++ after,
          fileContent (abWorld "x" "y") g = fileContent (abWorld "x" "z") g) →
        fileContent (abWorld "x" "y") f ≠ fileContent (abWorld "x" "z") f → k1 ≠ k2) :=
  hashFiles_key_iff [str "/a", str "/b"] (abWorld "x" "y") (abWorld "x" "z")
    (by decide) (by decide) (fun h => absurd h (by decide))

/-- C7, as stated, fails: with `/a` holding `xy` and `/b` holding `z` in one
state, `/a` holding `x` and `/b` holding `yz` in the other, both files differ
in content and `hashFiles` returns the same key. -/
theorem hashFiles_collision :
    fileContent (abWorld "xy" "z") (str "/a") ≠ fileContent (abWorld "x" "yz") (str "/a") ∧
    fileContent (abWorld "xy" "z") (str "/b") ≠ fileContent (abWorld "x" "yz") (str "/b") ∧
    ∃ k, hashFiles [str "/a", str "/b"] (abWorld "xy" "z") = .ok k (abWorld "xy" "z") ∧
      hashFiles [str "/a", str "/b"] (abWorld "x" "yz") = .ok k (abWorld "x" "yz") := by
  refine ⟨by decide, by decide, Base64.encode (sha256 (str "xyz")), ?_, ?_⟩
  · rw [hashFiles_readable _ _ (by decide)]
    have : fileBytes [str "/a", str "/b"] (abWorld "xy" "z") = str "xyz" := by decide
    rw [this]
  · rw [hashFiles_readable _ _ (by decide)]
    have : fileBytes [str "/a", str "/b"] (abWorld "x" "yz") = str "xyz" := by decide
    rw [this]

/-! ## The directory-level key (C1) -/

theorem split_ne_nil (s : Str) (b : Byte) : strings.Split s b ≠ [] := by
  induction s with
  | nil => simp [strings.Split]
  | cons c cs ih =>
    unfold strings.Split
    split
    · simp
    · split <;> simp

/-- The loop of `getExecCommand` leaves the world as it is, and fails only
when the working directory cannot be determined. -/
theorem getExecCommandLoop_spec (l : List Str) (w : World) :
    (∃ as, getExecCommandLoop l w = .ok as w ∧ as.length = l.length) ∨
    (∃ e, getExecCommandLoop l w = .panic e w ∧ os.Getwd w = .error e) := by
  induction l with
  | nil => left; exact ⟨[], rfl, rfl⟩
  | cons s rest ih =>
    unfold getExecCommandLoop
    simp only [bind_run, ask_run]
    cases hab : filepath.Abs s w with
    | error e =>
      right
      refine ⟨e, by simp [must], ?_⟩
      unfold filepath.Abs at hab
      split at hab
      · cases hab
      · split at hab
        · cases hab
        · rename_i e2 he
          cases hab
          exact he
    | ok a =>
      simp only [must, pure_run]
      rcases ih with ⟨as, h1, h2⟩ | ⟨e, h1, h2⟩
      · left
        exact ⟨a :: as, by simp [h1], by simp [h2]⟩
      · right
        exact ⟨e, by simp [h1], h2⟩

theorem getExecCommand_noargs (w : World) (h : w.args.length ≤ 1) :
    getExecCommand w = .panic (str "No file(s) to compile") w := by
  simp [getExecCommand, bind_run, h]

theorem getExecCommand_spec (w : World) (h : 2 ≤ w.args.length) :
    (∃ l, getExecCommandLoop (strings.Split (w.args.getD 1 []) pathSplitter) w = .ok l w ∧
      l ≠ [] ∧
      getExecCommand w = .ok { src := slices.Sort l, args := w.args.drop 2 } w) ∨
    (∃ e, getExecCommand w = .panic e w ∧ os.Getwd w = .error e) := by
  have hn : ¬ w.args.length ≤ 1 := by omega
  rcases getExecCommandLoop_spec (strings.Split (w.args.getD 1 []) pathSplitter) w with
    ⟨as, h1, h2⟩ | ⟨e, h1, h2⟩
  · left
    refine ⟨as, h1, ?_, ?_⟩
    · intro h0
      subst h0
      exact split_ne_nil _ _ (List.length_eq_zero.mp h2.symm)
    · simp only [getExecCommand, bind_run, ask_run, if_neg hn, h1, pure_run]
  · right
    exact ⟨e, by simp only [getExecCommand, bind_run, ask_run, if_neg hn, h1], h2⟩

/-- The loop of `getExecCommand` returns the paths `filepath.Abs` gives, in
the order of the list. -/
theorem getExecCommandLoop_abs (l as : List Str) (w : World)
    (h : List.Forall₂ (fun p a => filepath.Abs p w = .ok a) l as) :
    getExecCommandLoop l w = .ok as w := by
  induction h with
  | nil => rfl
  | cons hpa _ ih =>
    unfold getExecCommandLoop
    simp only [bind_run, ask_run, hpa, must, pure_run, ih]

/-- What the loop of `getExecCommand` returns is, element by element, what
`filepath.Abs` gives. -/
theorem getExecCommandLoop_ok (l as : List Str) (w w1 : World)
    (h : getExecCommandLoop l w = .ok as w1) :
    List.Forall₂ (fun p a => filepath.Abs p w = .ok a) l as := by
  induction l generalizing as with
  | nil =>
    cases h
    exact .nil
  | cons s rest ih =>
    unfold getExecCommandLoop at h
    simp only [bind_run, ask_run] at h
    cases hab : filepath.Abs s w with
    | error e =>
      rw [hab] at h
      simp [must] at h
    | ok a =>
      rw [hab] at h
      simp only [must, pure_run] at h
      cases hr : getExecCommandLoop rest w with
      | ok as1 w2 =>
        rw [hr] at h
        cases h
        exact .cons hab (ih as1 hr)
      | panic e w2 =>
        rw [hr] at h
        cases h
      | replaced x argv envv w2 =>
        rw [hr] at h
        cases h

/-- Every path of a list can be made absolute when the working directory can
be determined, and also when every path is rooted. -/
theorem abs_total (l : List Str) (w : World)
    (h : (∃ wd, os.Getwd w = .ok wd) ∨ ∀ p ∈ l, filepath.IsAbs p = true) :
    ∃ as, List.Forall₂ (fun p a => filepath.Abs p w = .ok a) l as := by
  induction l with
  | nil => exact ⟨[], .nil⟩
  | cons s rest ih =>
    have hrest : (∃ wd, os.Getwd w = .ok wd) ∨ ∀ p ∈ rest, filepath.IsAbs p = true := by
      rcases h with h | h
      · exact .inl h
      · exact .inr (fun p hp => h p (List.mem_cons_of_mem _ hp))
    obtain ⟨as, has⟩ := ih hrest
    have hs : ∃ a, filepath.Abs s w = .ok a := by
      unfold filepath.Abs
      by_cases hab : filepath.IsAbs s = true
      · exact ⟨_, by rw [if_pos hab]⟩
      · rcases h with ⟨wd, hwd⟩ | h
        · exact ⟨filepath.Join [wd, s], by rw [if_neg hab, hwd]⟩
        · exact absurd (h s (List.mem_cons_self _ _)) hab
    obtain ⟨a, ha⟩ := hs
    exact ⟨a :: as, .cons ha has⟩

/-- The loop of `getExecCommand` panics with the error of `os.Getwd` when the
working directory cannot be determined and some path is not rooted. -/
theorem getExecCommandLoop_fails (l : List Str) (w : World) (e : Err)
    (hg : os.Getwd w = .error e) (h : ∃ p ∈ l, filepath.IsAbs p = false) :
    getExecCommandLoop l w = .panic e w := by
  induction l with
  | nil =>
    obtain ⟨p, hp, _⟩ := h
    cases hp
  | cons s rest ih =>
    unfold getExecCommandLoop
    simp only [bind_run, ask_run]
    by_cases hab : filepath.IsAbs s = true
    · have hs : filepath.Abs s w = .ok (filepath.Clean s) := by
        unfold filepath.Abs
        rw [if_pos hab]
      have hrest : ∃ p ∈ rest, filepath.IsAbs p = false := by
        obtain ⟨p, hp, hpa⟩ := h
        rcases List.mem_cons.mp hp with h0 | h0
        · subst h0
          rw [hab] at hpa
          cases hpa
        · exact ⟨p, h0, hpa⟩
      simp only [hs, must, pure_run, ih hrest]
    · have hs : filepath.Abs s w = .error e := by
        unfold filepath.Abs
        rw [if_neg hab, hg]
      simp only [hs, must, throwPanic_run]

/-- With a source argument whose paths `filepath.Abs` resolves to `l`,
`getExecCommand` returns the sorted `l` and the other arguments. -/
theorem getExecCommand_returns (w : World) (l : List Str) (h : 2 ≤ w.args.length)
    (hl : List.Forall₂ (fun p a => filepath.Abs p w = .ok a)
      (strings.Split (w.args.getD 1 []) pathSplitter) l) :
    getExecCommand w = .ok { src := slices.Sort l, args := w.args.drop 2 } w := by
  have hn : ¬ w.args.length ≤ 1 := by omega
  simp only [getExecCommand, bind_run, ask_run, if_neg hn, getExecCommandLoop_abs _ _ _ hl,
    pure_run]

theorem sort_perm (l : List Str) : (slices.Sort l).Perm l :=
  List.perm_insertionSort (fun a b => strLe a b = true) l

/-- C1, amended. Take two invocations with a source argument, in each of
which `filepath.Abs` resolves the listed paths, in the order given, to the
absolute paths `l1` and `l2`. Then `getExecCommand` returns in both, without
changing anything, and `cmd.src` is the sorted list of those absolute paths.
The two `cmd.src` are equal exactly when `l1` and `l2` are the same up to
order (the same paths, each as many times), and then the directory-level
keys `hashStrings cmd.src` are equal; this is so in particular when `l1` and
`l2` hold the same set of paths and neither lists a path twice. -/
theorem dirKey_perm (w1 w2 : World) (l1 l2 : List Str)
    (h1 : 2 ≤ w1.args.length) (h2 : 2 ≤ w2.args.length)
    (hl1 : List.Forall₂ (fun p a => filepath.Abs p w1 = .ok a)
      (strings.Split (w1.args.getD 1 []) pathSplitter) l1)
    (hl2 : List.Forall₂ (fun p a => filepath.Abs p w2 = .ok a)
      (strings.Split (w2.args.getD 1 []) pathSplitter) l2) :
    ∃ cmd1 cmd2, getExecCommand w1 = .ok cmd1 w1 ∧ getExecCommand w2 = .ok cmd2 w2 ∧
      cmd1.src = slices.Sort l1 ∧ cmd2.src = slices.Sort l2 ∧
      (cmd1.src = cmd2.src ↔ l1.Perm l2) ∧
      (l1.Perm l2 → hashStrings cmd1.src = hashStrings cmd2.src) ∧
      (l1.Nodup → l2.Nodup → (∀ p, p ∈ l1 ↔ p ∈ l2) →
        cmd1.src = cmd2.src ∧ hashStrings cmd1.src = hashStrings cmd2.src) := by
  refine ⟨_, _, getExecCommand_returns w1 l1 h1 hl1, getExecCommand_returns w2 l2 h2 hl2,
    rfl, rfl, ⟨fun h => ?_, fun h => sort_eq_of_perm l1 l2 h⟩, fun h => ?_, fun n1 n2 h => ?_⟩
  · have h0 : slices.Sort l1 = slices.Sort l2 := h
    exact (sort_perm l1).symm.trans (h0 ▸ sort_perm l2)
  · show hashStrings (slices.Sort l1) = hashStrings (slices.Sort l2)
    rw [sort_eq_of_perm l1 l2 h]
  · have hp : l1.Perm l2 := (List.perm_ext_iff_of_nodup n1 n2).mpr h
    show slices.Sort l1 = slices.Sort l2 ∧
      hashStrings (slices.Sort l1) = hashStrings (slices.Sort l2)
    rw [sort_eq_of_perm l1 l2 hp]
    exact ⟨rfl, rfl⟩

/-- The invocation `gorun b.go,a.go x y` in the working directory `/home`
and the invocation `gorun /home/a.go,/home/b.go`: the relative paths of the
first are resolved against the working directory. -/
theorem dirKey_perm_witness :
    2 ≤ homeWorld.args.length ∧ 2 ≤ (argWorld "/home/a.go,/home/b.go").args.length ∧
    List.Forall₂ (fun p a => filepath.Abs p homeWorld = .ok a)
      (strings.Split (homeWorld.args.getD 1 []) pathSplitter)
      [str "/home/b.go", str "/home/a.go"] ∧
    List.Forall₂ (fun p a => filepath.Abs p (argWorld "/home/a.go,/home/b.go") = .ok a)
      (strings.Split ((argWorld "/home/a.go,/home/b.go").args.getD 1 []) pathSplitter)
      [str "/home/a.go", str "/home/b.go"] ∧
    [str "/home/b.go", str "/home/a.go"].Perm [str "/home/a.go", str "/home/b.go"] ∧
    ∃ cmd1 cmd2, getExecCommand homeWorld = .ok cmd1 homeWorld ∧
      getExecCommand (argWorld "/home/a.go,/home/b.go") =
        .ok cmd2 (argWorld "/home/a.go,/home/b.go") ∧
      cmd1.src = [str "/home/a.go", str "/home/b.go"] ∧
      cmd2.src = [str "/home/a.go", str "/home/b.go"] ∧
      hashStrings cmd1.src = hashStrings cmd2.src := by
  have hs1 : strings.Split (homeWorld.args.getD 1 []) pathSplitter =
      [str "b.go", str "a.go"] := by decide
  have hs2 : strings.Split ((argWorld "/home/a.go,/home/b.go").args.getD 1 []) pathSplitter =
      [str "/home/a.go", str "/home/b.go"] := by decide
  have f1 : List.Forall₂ (fun p a => filepath.Abs p homeWorld = .ok a)
      (strings.Split (homeWorld.args.getD 1 []) pathSplitter)
      [str "/home/b.go", str "/home/a.go"] := by
    rw [hs1]
    exact .cons rfl (.cons rfl .nil)
  have f2 : List.Forall₂ (fun p a => filepath.Abs p (argWorld "/home/a.go,/home/b.go") = .ok a)
      (strings.Split ((argWorld "/home/a.go,/home/b.go").args.getD 1 []) pathSplitter)
      [str "/home/a.go", str "/home/b.go"] := by
    rw [hs2]
    exact .cons rfl (.cons rfl .nil)
  have hp : [str "/home/b.go", str "/home/a.go"].Perm [str "/home/a.go", str "/home/b.go"] := by
    decide
  obtain ⟨cmd1, cmd2, e1, e2, s1, s2, _, hk, _⟩ :=
    dirKey_perm homeWorld (argWorld "/home/a.go,/home/b.go")
      [str "/home/b.go", str "/home/a.go"] [str "/home/a.go", str "/home/b.go"]
      (by decide) (by decide) f1 f2
  refine ⟨by decide, by decide, f1, f2, hp, cmd1, cmd2, e1, e2, ?_, ?_, hk hp⟩
  · rw [s1]
    decide
  · rw [s2]
    decide

/-- C1, as stated, fails: `gorun /a,/a` and `gorun /a` resolve to the same
set of absolute paths, and their directory-level keys differ, because sorting
keeps a path that is listed twice. -/
theorem dirKey_set_counterexample :
    ∃ cmd1 cmd2, getExecCommand (argWorld "/a,/a") = .ok cmd1 (argWorld "/a,/a") ∧
      getExecCommand (argWorld "/a") = .ok cmd2 (argWorld "/a") ∧
      (∀ p, p ∈ cmd1.src ↔ p ∈ cmd2.src) ∧
      hashStrings cmd1.src ≠ hashStrings cmd2.src :=
  ⟨{ src := [str "/a", str "/a"], args := [] }, { src := [str "/a"], args := [] }, rfl, rfl,
    by simp, by decide⟩

/-! ## The arguments (C10) -/

theorem sort_ne_nil (l : List Str) (h : l ≠ []) : slices.Sort l ≠ [] := by
  intro h0
  have hp := List.perm_insertionSort (fun a b => strLe a b = true) l
  unfold slices.Sort at h0
  rw [h0] at hp
  exact h (List.nil_perm.mp hp)

/-- C10, amended. Without a source argument `getExecCommand` panics with
"No file(s) to compile" in an unchanged world. With one it never raises that
error, changes nothing and replaces no process. It returns a command with a
non-empty `src` and the remaining arguments whenever the working directory
can be determined or every listed path is rooted; in the one remaining case,
a listed path that is not rooted while `os.Getwd` fails, it panics with the
error of `os.Getwd`, which `filepath.Abs` hands on. -/
theorem getExecCommand_args (w : World) :
    (w.args.length ≤ 1 → getExecCommand w = .panic (str "No file(s) to compile") w) ∧
    (2 ≤ w.args.length →
      (∀ w1, getExecCommand w ≠ .panic (str "No file(s) to compile") w1) ∧
      (∀ cmd w1, getExecCommand w = .ok cmd w1 →
        cmd.src ≠ [] ∧ cmd.args = w.args.drop 2 ∧ w1 = w) ∧
      (∀ e w1, getExecCommand w = .panic e w1 → os.Getwd w = .error e ∧ w1 = w) ∧
      (∀ exe argv envv w1, getExecCommand w ≠ .replaced exe argv envv w1) ∧
      (∀ wd, os.Getwd w = .ok wd → ∃ cmd, getExecCommand w = .ok cmd w ∧ cmd.src ≠ []) ∧
      ((∃ wd, os.Getwd w = .ok wd) ∨
          (∀ p ∈ strings.Split (w.args.getD 1 []) pathSplitter, filepath.IsAbs p = true) →
        ∃ cmd, getExecCommand w = .ok cmd w ∧ cmd.src ≠ [] ∧ cmd.args = w.args.drop 2) ∧
      (∀ e, os.Getwd w = .error e →
        (∃ p ∈ strings.Split (w.args.getD 1 []) pathSplitter, filepath.IsAbs p = false) →
        getExecCommand w = .panic e w)) := by
  refine ⟨getExecCommand_noargs w, fun h => ?_⟩
  have hn : ¬ w.args.length ≤ 1 := by omega
  have hret : (∃ wd, os.Getwd w = .ok wd) ∨
      (∀ p ∈ strings.Split (w.args.getD 1 []) pathSplitter, filepath.IsAbs p = true) →
      ∃ cmd, getExecCommand w = .ok cmd w ∧ cmd.src ≠ [] ∧ cmd.args = w.args.drop 2 := by
    intro ht
    obtain ⟨as, has⟩ := abs_total _ w ht
    refine ⟨_, getExecCommand_returns w as h has, sort_ne_nil as ?_, rfl⟩
    intro h0
    subst h0
    exact split_ne_nil _ _ (List.forall₂_nil_right_iff.mp has)
  have hfail : ∀ e, os.Getwd w = .error e →
      (∃ p ∈ strings.Split (w.args.getD 1 []) pathSplitter, filepath.IsAbs p = false) →
      getExecCommand w = .panic e w := by
    intro e hg hp
    simp only [getExecCommand, bind_run, ask_run, if_neg hn,
      getExecCommandLoop_fails _ w e hg hp]
  rcases getExecCommand_spec w h with ⟨l, _, hl, hc⟩ | ⟨e, hc, hg⟩
  · refine ⟨fun w1 h0 => ?_, ?_, fun e w1 h0 => ?_, fun _ _ _ _ h0 => ?_,
      fun _ _ => ⟨_, hc, sort_ne_nil l hl⟩, hret, hfail⟩
    · rw [hc] at h0
      cases h0
    · intro cmd w1 h0
      rw [hc] at h0
      cases h0
      exact ⟨sort_ne_nil l hl, rfl, rfl⟩
    · rw [hc] at h0
      cases h0
    · rw [hc] at h0
      cases h0
  · refine ⟨?_, fun cmd w1 h0 => ?_, ?_, fun _ _ _ _ h0 => ?_, ?_, hret, hfail⟩
    · intro w1 h0
      rw [hc] at h0
      cases h0
      unfold os.Getwd at hg
      split at hg <;> cases hg
    · rw [hc] at h0
      cases h0
    · intro e1 w1 h0
      rw [hc] at h0
      cases h0
      exact ⟨hg, rfl⟩
    · rw [hc] at h0
      cases h0
    · intro wd hwd
      rw [hwd] at hg
      cases hg

/-- C10, as stated, fails: started as `gorun a.go` in a working directory
that no longer exists, `getExecCommand` does not return; it panics with the
error of `os.Getwd`. -/
theorem getExecCommand_abs_fails :
    2 ≤ goneWorld.args.length ∧
    getExecCommand goneWorld = .panic (str "getwd: no such file or directory") goneWorld :=
  ⟨by decide, rfl⟩

/-- Started as `gorun /a.go` in the same removed working directory,
`getExecCommand` returns: a rooted path is made absolute without `os.Getwd`. -/
theorem getExecCommand_rooted_returns :
    os.Getwd { goneWorld with args := [str "gorun", str "/a.go"] } =
      .error (str "getwd: no such file or directory") ∧
    getExecCommand { goneWorld with args := [str "gorun", str "/a.go"] } =
      .ok { src := [str "/a.go"], args := [] }
        { goneWorld with args := [str "gorun", str "/a.go"] } :=
  ⟨rfl, rfl⟩

/-! ## A cache path that is not an owner-only directory (C2) -/

/-- C2. When the cache path exists and is not a directory, or its permission
bits are not 0o700, `prepareOutputDir` panics in an unchanged world; `main`
then ends fatally with that message, and apart from the message it prints
the world is the one it started in: nothing was created, removed or run. -/
theorem prepareOutputDir_rejects (tc : Toolchain) (cmd : execCmd) (w : World) (node : Node)
    (hs : os.Stat (cachePath cmd w) w = .ok node)
    (hbad : node.IsDir = false ∨ node.Perm ≠ 0o700) :
    prepareOutputDir cmd w = .panic badOutputDir w ∧
    (getExecCommand w = .ok cmd w →
      main tc w = .fatal badOutputDir { w with stderr := w.stderr ++ badOutputDir ++ str "\n" }) := by
  have h1 : prepareOutputDir cmd w = .panic badOutputDir w := by
    unfold cachePath at hs
    have hc : (!node.IsDir || node.Perm != 0o700) = true := by
      rcases hbad with h | h
      · simp [h]
      · simp [h]
    simp only [prepareOutputDir, bind_run, ask_run, hs, hc, if_true, throwPanic_run, badOutputDir]
  refine ⟨h1, fun hc => ?_⟩
  simp only [main, mainBody, bind_run, hc, h1, checkPanic]

/-- The invocation `gorun /a` when the cache path of `/a` is a regular file. -/
theorem prepareOutputDir_rejects_witness :
    os.Stat (cachePath { src := [str "/a"], args := [] } blockedWorld) blockedWorld =
      .ok (.file []) ∧
    prepareOutputDir { src := [str "/a"], args := [] } blockedWorld =
      .panic badOutputDir blockedWorld ∧
    (getExecCommand blockedWorld = .ok { src := [str "/a"], args := [] } blockedWorld →
      main noToolchain blockedWorld = .fatal badOutputDir
        { blockedWorld with stderr := blockedWorld.stderr ++ badOutputDir ++ str "\n" }) :=
  ⟨rfl, prepareOutputDir_rejects noToolchain { src := [str "/a"], args := [] } blockedWorld
    (.file []) rfl (Or.inl rfl)⟩

/-! ## The cache hit (C6) -/

/-- C6. When `hashFiles` returns a key and the cache directory has an entry
of that name, `compileSources` returns the path of that entry in the world it
was called in: no child process was run, and the file system, the
environment and the working directory are unchanged. -/
theorem compileSources_hit (tc : Toolchain) (cmd : execCmd) (outDir : Str) (w w1 : World)
    (hash : Str) (node : Node) (hh : hashFiles cmd.src w = .ok hash w1)
    (hs : os.Stat (filepath.Join [outDir, hash]) w = .ok node) :
    compileSources tc cmd outDir w = .ok (filepath.Join [outDir, hash]) w := by
  obtain ⟨_, hw⟩ := hashFiles_ok cmd.src w w1 hash hh
  subst hw
  simp only [compileSources, bind_run, hh, ask_run, hs, pure_run]

set_option maxRecDepth 100000 in
/-- The source `/a` and a cache directory `/c` that holds an entry named by its key. -/
theorem compileSources_hit_witness :
    compileSources noToolchain { src := [str "/a"], args := [] } (str "/c") hitWorld =
      .ok (filepath.Join [str "/c", Base64.encode (sha256 (str "x"))]) hitWorld :=
  compileSources_hit noToolchain { src := [str "/a"], args := [] } (str "/c") hitWorld hitWorld
    (Base64.encode (sha256 (str "x"))) (.file (str "ELF"))
    (hashFiles_readable _ _ (by decide)) (by rfl)

/-! ## Invariants -/

theorem keeps_pure {α : Type} {I : World → Prop} (a : α) : Keeps I (pure a : M α) :=
  Triple.pure a (fun _ h => h)

theorem keeps_bind {α β : Type} {I : World → Prop} {x : M α} {f : α → M β}
    (hx : Keeps I x) (hf : ∀ a, Keeps I (f a)) : Keeps I (x >>= f) :=
  Triple.bind hx hf

theorem keeps_ask {α : Type} {I : World → Prop} (f : World → α) : Keeps I (ask f) :=
  Triple.ask f (fun _ h => h)

theorem keeps_sys {α : Type} {I : World → Prop} (f : World → α × World)
    (h : ∀ w, I w → I (f w).2) : Keeps I (sys f) :=
  Triple.sys f h

theorem keeps_throwPanic {α : Type} {I : World → Prop} (e : Err) :
    Keeps I (throwPanic e : M α) :=
  Triple.throwPanic e (fun _ h => h)

theorem keeps_must {α : Type} {I : World → Prop} (r : Except Err α) : Keeps I (must r) :=
  Triple.must r (fun _ _ _ h => h) (fun _ h => h)

theorem keeps_panicIfError {I : World → Prop} (err : Option Err) : Keeps I (panicIfError err) :=
  Triple.panicIfError err (fun _ _ h => h) (fun _ h => h)

theorem keeps_discard {α : Type} {I : World → Prop} {x : M α} (hx : Keeps I x) :
    Keeps I (discard x) :=
  keeps_bind hx (fun _ => keeps_pure ())

theorem keeps_deferring {α : Type} {I : World → Prop} {d : M Unit} {body : M α}
    (hb : Keeps I body) (hd : Keeps I d) : Keeps I (deferring d body) :=
  Triple.deferring hb (fun _ => hd) hd

theorem keeps_forEach {α : Type} {I : World → Prop} (l : List α) (f : α → M Unit)
    (hf : ∀ x ∈ l, Keeps I (f x)) : Keeps I (forEach l f) :=
  Triple.forEach l f hf

theorem keeps_logIfError {I : World → Prop} (err : Option Err)
    (h : ∀ w s, I w → I { w with stderr := s }) : Keeps I (logIfError err) := by
  cases err with
  | none => exact keeps_pure ()
  | some e => exact keeps_sys _ (fun w hw => h w _ hw)

/-- What a triple says about the world a computation ends in. -/
theorem Triple.world {α : Type} {P : World → Prop} {m : M α} {Q : α → World → Prop}
    {E : World → Prop} (h : Triple P m Q E) (w : World) (hw : P w) :
    (∃ a w1, m w = .ok a w1 ∧ Q a w1) ∨ (∃ e w1, m w = .panic e w1 ∧ E w1) := by
  have h1 := h w hw
  cases hm : m w with
  | ok a w1 => rw [hm] at h1; exact Or.inl ⟨a, w1, rfl, h1⟩
  | panic e w1 => rw [hm] at h1; exact Or.inr ⟨e, w1, rfl, h1⟩
  | replaced exe argv envv w1 => rw [hm] at h1; exact h1.elim

/-! ## The environment -/

theorem spawn_env (tc : Toolchain) (argv : List Str) (w : World) :
    (spawn tc argv w).2.env = w.env := rfl

theorem runCommand_env (tc : Toolchain) (cmd : Str) (args : List Str) (J : List (Str × Str) → Prop) :
    Keeps (fun w => J w.env) (runCommand tc cmd args) :=
  keeps_bind (keeps_sys _ (fun _ h => h)) (fun _ =>
    keeps_bind (keeps_sys _ (fun _ h => h)) (fun _ => keeps_pure _))

theorem runCommandSilent_env (tc : Toolchain) (cmd : Str) (args : List Str)
    (J : List (Str × Str) → Prop) : Keeps (fun w => J w.env) (runCommandSilent tc cmd args) :=
  keeps_bind (keeps_sys _ (fun _ h => h)) (fun _ => keeps_pure _)

theorem runCommandOutput_env (tc : Toolchain) (cmd : Str) (args : List Str)
    (J : List (Str × Str) → Prop) : Keeps (fun w => J w.env) (runCommandOutput tc cmd args) :=
  keeps_bind (keeps_sys _ (fun _ h => h)) (fun _ => keeps_pure _)

theorem os.Chdir_env (p : Str) (w : World) : (os.Chdir p w).2.env = w.env := by
  unfold os.Chdir
  split <;> rfl

theorem lookup_setEntry (key val : Str) (env : List (Str × Str)) :
    (setEntry key val env).lookup key = some val := by
  induction env with
  | nil => simp [setEntry, List.lookup]
  | cons kv rest ih =>
    unfold setEntry
    split
    · simp [List.lookup]
    · rename_i hne
      rw [List.lookup]
      have : (key == kv.1) = false := by
        simpa using fun h => hne h.symm
      simp [this, ih]

/-- Setting the old value again undoes a `Setenv` of a variable that was set. -/
theorem setEntry_restore (key old val : Str) (env : List (Str × Str))
    (h : env.lookup key = some old) : setEntry key old (setEntry key val env) = env := by
  induction env with
  | nil => simp [List.lookup] at h
  | cons kv rest ih =>
    obtain ⟨k, v⟩ := kv
    by_cases hk : k = key
    · subst hk
      simp only [List.lookup, beq_self_eq_true, Option.some.injEq] at h
      subst h
      simp [setEntry]
    · have hb : (key == k) = false := by simpa using fun h => hk h.symm
      simp only [List.lookup, hb] at h
      simp [setEntry, hk, ih h]

/-- Unsetting undoes a `Setenv` of a variable that was not set. -/
theorem unset_restore (key val : Str) (env : List (Str × Str)) (h : env.lookup key = none) :
    (setEntry key val env).filter (fun kv => kv.1 ≠ key) = env := by
  induction env with
  | nil => simp [setEntry]
  | cons kv rest ih =>
    obtain ⟨k, v⟩ := kv
    by_cases hk : k = key
    · subst hk
      simp [List.lookup] at h
    · have hb : (key == k) = false := by simpa using fun h => hk h.symm
      simp only [List.lookup, hb] at h
      have h2 := ih h
      rw [setEntry, if_neg hk, List.filter_cons_of_pos (by simpa using hk), h2]

/-- `setGoEnv` saves the state of `GOPROXY` and changes no other variable; when
it panics the environment is as it was. -/
theorem setGoEnv_spec (tc : Toolchain) (w0 : World) :
    Triple (fun w => w.env = w0.env) (setGoEnv tc)
      (fun g w => (∃ val, w.env = setEntry goProxy val w0.env) ∧
        (g.proxy, g.proxyPresent) = os.LookupEnv goProxy w0)
      (fun w => w.env = w0.env) := by
  unfold setGoEnv
  refine Triple.bind (runCommandOutput_env tc _ _ (fun e => e = w0.env)) (fun r => ?_)
  obtain ⟨cacheDir, err⟩ := r
  refine Triple.bind (keeps_panicIfError err) (fun _ => ?_)
  refine Triple.bind (R := fun r w => w.env = w0.env ∧ r = os.LookupEnv goProxy w0)
    (Triple.ask _ (fun w hw => ⟨hw, by simp only [os.LookupEnv, hw]⟩)) (fun r => ?_)
  obtain ⟨proxy, present⟩ := r
  refine Triple.bind
    (R := fun err w => (err ≠ none ∧ w.env = w0.env) ∨
      (err = none ∧ (∃ val, w.env = setEntry goProxy val w0.env) ∧
        (proxy, present) = os.LookupEnv goProxy w0))
    (Triple.sys _ ?_) (fun err2 => ?_)
  · intro w hw
    obtain ⟨hw, hr⟩ := hw
    unfold os.Setenv
    split
    · exact Or.inl ⟨by simp, hw⟩
    · exact Or.inr ⟨rfl, ⟨_, by rw [← hw]⟩, hr⟩
  · cases err2 with
    | some e =>
      refine Triple.throwPanic e ?_
      intro w hw
      rcases hw with ⟨_, h⟩ | ⟨h, _⟩
      · exact h
      · cases h
    | none =>
      refine Triple.bind (R := fun _ w => (∃ val, w.env = setEntry goProxy val w0.env) ∧
        (proxy, present) = os.LookupEnv goProxy w0) (Triple.pure () ?_) (fun _ => ?_)
      · intro w hw
        rcases hw with ⟨h, _⟩ | ⟨_, h⟩
        · exact absurd rfl h
        · exact h
      · exact Triple.pure _ (fun w hw => hw)

/-- `unsetGoEnv` puts the environment back, and does not panic. -/
theorem unsetGoEnv_spec (g : goEnv) (w0 : World)
    (hg : (g.proxy, g.proxyPresent) = os.LookupEnv goProxy w0)
    (hnul : (os.LookupEnv goProxy w0).1.contains 0 = false) :
    Triple (fun w => ∃ val, w.env = setEntry goProxy val w0.env) (unsetGoEnv g)
      (fun _ w => w.env = w0.env) (fun _ => False) := by
  intro w hw
  obtain ⟨val, hw⟩ := hw
  unfold unsetGoEnv
  unfold os.LookupEnv at hg hnul
  cases hl : w0.env.lookup goProxy with
  | some v =>
    rw [hl] at hg hnul
    simp only [Prod.mk.injEq] at hg
    obtain ⟨hg1, hp⟩ := hg
    simp only at hnul
    have hkey : ¬ (goProxy = [] ∨ goProxy.contains 61 = true ∨ goProxy.contains 0 = true ∨
        g.proxy.contains 0 = true) := by
      rw [hg1, hnul]
      decide
    simp only [hp, if_true, bind_run, sys_run, os.Setenv, if_neg hkey, logIfError, pure_run]
    rw [hw, hg1]
    exact setEntry_restore goProxy v val w0.env hl
  | none =>
    rw [hl] at hg
    simp only [Prod.mk.injEq] at hg
    obtain ⟨_, hp⟩ := hg
    simp only [hp, Bool.false_eq_true, if_false, bind_run, sys_run, os.Unsetenv, logIfError,
      pure_run]
    rw [hw]
    exact unset_restore goProxy val w0.env hl

theorem doCompileSources_env_triple (tc : Toolchain) (cmd : execCmd) (outDir exe : Str)
    (w0 : World) (hnul : (os.LookupEnv goProxy w0).1.contains 0 = false) :
    Keeps (fun w => w.env = w0.env) (doCompileSources tc cmd outDir exe) := by
  unfold doCompileSources
  refine keeps_bind (keeps_ask _) (fun r => ?_)
  refine keeps_bind (keeps_must r) (fun curWD => ?_)
  refine keeps_bind (keeps_sys _ (fun w hw => by rw [os.Chdir_env]; exact hw)) (fun err => ?_)
  refine keeps_bind (keeps_panicIfError err) (fun _ => ?_)
  refine keeps_deferring ?_
    (keeps_discard (keeps_sys _ (fun w hw => by rw [os.Chdir_env]; exact hw)))
  refine Triple.bind (setGoEnv_spec tc w0) (fun g => ?_)
  intro w hw
  obtain ⟨hval, hg⟩ := hw
  have hbody : Keeps (fun w => ∃ val, w.env = setEntry goProxy val w0.env) (do
      panicIfError (← runCommandSilent tc (str "go") [str "mod", str "init", str "gorun"])
      panicIfError (← runCommand tc (str "go") [str "mod", str "tidy"])
      panicIfError (← runCommand tc (str "go") (buildArgs exe))) :=
    keeps_bind
      (runCommandSilent_env tc _ _ (fun e => ∃ val, e = setEntry goProxy val w0.env)) (fun e1 =>
      keeps_bind (keeps_panicIfError e1) (fun _ =>
        keeps_bind
          (runCommand_env tc _ _ (fun e => ∃ val, e = setEntry goProxy val w0.env)) (fun e2 =>
          keeps_bind (keeps_panicIfError e2) (fun _ =>
            keeps_bind (runCommand_env tc _ _ (fun e => ∃ val, e = setEntry goProxy val w0.env))
              (fun e3 => keeps_panicIfError e3)))))
  have hun : Triple (fun w => ∃ val, w.env = setEntry goProxy val w0.env) (unsetGoEnv g)
      (fun _ w => w.env = w0.env) (fun w => w.env = w0.env) :=
    (unsetGoEnv_spec g w0 hg hnul).weaken (fun _ h => h) (fun _ _ h => h)
      (fun _ (h : False) => h.elim)
  exact Triple.deferring hbody (fun _ => hun) hun w hval

/-- C4. Whatever the toolchain does, `doCompileSources` ends, by return or by
panic and never by replacing the process, in a world whose environment is the
one it started with: `GOPROXY` is set to its old value when it was set
(empty value included) and unset when it was not, and every other variable is
untouched. So does `unsetGoEnv` run on what `setGoEnv` returns. The initial
value of `GOPROXY` has no NUL byte, as no value of an environment has. -/
theorem doCompileSources_restores_env (tc : Toolchain) (cmd : execCmd) (outDir exe : Str)
    (w : World) (hnul : (os.LookupEnv goProxy w).1.contains 0 = false) :
    (doCompileSources tc cmd outDir exe w).world.env = w.env ∧
    (∀ x argv envv w1, doCompileSources tc cmd outDir exe w ≠ .replaced x argv envv w1) ∧
    (∀ g w1, setGoEnv tc w = .ok g w1 →
      (g.proxy, g.proxyPresent) = os.LookupEnv goProxy w ∧
      ∃ w2, unsetGoEnv g w1 = .ok () w2 ∧ w2.env = w.env) := by
  refine ⟨?_, ?_, ?_⟩
  · rcases (doCompileSources_env_triple tc cmd outDir exe w hnul).world w rfl with
      ⟨a, w1, h1, h2⟩ | ⟨e, w1, h1, h2⟩
    · rw [h1]; exact h2
    · rw [h1]; exact h2
  · intro x argv envv w1 h
    rcases (doCompileSources_env_triple tc cmd outDir exe w hnul).world w rfl with
      ⟨a, w2, h1, _⟩ | ⟨e, w2, h1, _⟩
    · rw [h1] at h; cases h
    · rw [h1] at h; cases h
  · intro g w1 hg
    have h1 := setGoEnv_spec tc w w rfl
    rw [hg] at h1
    obtain ⟨hval, hp⟩ := h1
    refine ⟨hp, ?_⟩
    rcases (unsetGoEnv_spec g w hp hnul).world w1 hval with ⟨a, w2, h2, h3⟩ | ⟨e, w2, _, h3⟩
    · exact ⟨w2, h2, h3⟩
    · exact h3.elim

set_option maxRecDepth 100000 in
/-- The world `homeWorld`, in which `GOPROXY` is set to `direct`. -/
theorem doCompileSources_restores_env_witness :
    (os.LookupEnv goProxy homeWorld).1.contains 0 = false ∧
    (doCompileSources (goToolchain true) { src := [], args := [] } (str "/tmp") (str "/tmp/exe")
      homeWorld).world.env = homeWorld.env ∧
    (∀ x argv envv w1, doCompileSources (goToolchain true) { src := [], args := [] } (str "/tmp")
      (str "/tmp/exe") homeWorld ≠ .replaced x argv envv w1) ∧
    (∀ g w1, setGoEnv (goToolchain true) homeWorld = .ok g w1 →
      (g.proxy, g.proxyPresent) = os.LookupEnv goProxy homeWorld ∧
      ∃ w2, unsetGoEnv g w1 = .ok () w2 ∧ w2.env = homeWorld.env) :=
  ⟨by decide, doCompileSources_restores_env (goToolchain true) { src := [], args := [] }
    (str "/tmp") (str "/tmp/exe") homeWorld (by decide)⟩

/-! ## Paths -/

theorem split_cons_eq (c b : Byte) (cs : Str) (h : c ≠ b) :
    strings.Split (c :: cs) b =
      (c :: (strings.Split cs b).headD []) :: (strings.Split cs b).tail := by
  rw [strings.Split]
  simp only [if_neg h]
  cases hs : strings.Split cs b with
  | nil => exact absurd hs (split_ne_nil cs b)
  | cons x xs => rfl

theorem split_cons_sep (b : Byte) (cs : Str) :
    strings.Split (b :: cs) b = [] :: strings.Split cs b := by
  rw [strings.Split]
  simp

theorem split_no_sep (s : Str) (b : Byte) : ∀ x ∈ strings.Split s b, b ∉ x := by
  induction s with
  | nil => simp [strings.Split]
  | cons c cs ih =>
    by_cases h : c = b
    · subst h
      rw [split_cons_sep]
      intro x hx
      rcases List.mem_cons.mp hx with h1 | h1
      · subst h1; simp
      · exact ih x h1
    · rw [split_cons_eq c b cs h]
      intro x hx
      cases hs : strings.Split cs b with
      | nil => exact absurd hs (split_ne_nil cs b)
      | cons y ys =>
        rw [hs] at hx ih
        simp only [List.headD_cons, List.tail_cons, List.mem_cons] at hx
        rcases hx with h1 | h1
        · subst h1
          intro hm
          rcases List.mem_cons.mp hm with h2 | h2
          · exact h h2.symm
          · exact ih y (List.mem_cons_self y ys) h2
        · exact ih x (List.mem_cons_of_mem y h1)

theorem split_append (a c : Str) (b : Byte) :
    strings.Split (a ++ b :: c) b = strings.Split a b ++ strings.Split c b := by
  induction a with
  | nil => simp [split_cons_sep, strings.Split]
  | cons x xs ih =>
    by_cases h : x = b
    · subst h
      simp [split_cons_sep, ih]
    · rw [List.cons_append, split_cons_eq x b _ h, split_cons_eq x b xs h, ih]
      cases hs : strings.Split xs b with
      | nil => exact absurd hs (split_ne_nil xs b)
      | cons y ys => simp

theorem split_of_no_sep (n : Str) (b : Byte) (h : b ∉ n) : strings.Split n b = [n] := by
  induction n with
  | nil => simp [strings.Split]
  | cons x xs ih =>
    have hx : x ≠ b := fun e => h (by simp [e])
    have hxs : b ∉ xs := fun e => h (List.mem_cons_of_mem x e)
    rw [split_cons_eq x b xs hx, ih hxs]
    simp

theorem intercalate_cons_cons (b : Byte) (x y : Str) (rest : List Str) :
    [b].intercalate (x :: y :: rest) = x ++ b :: [b].intercalate (y :: rest) := by
  simp [List.intercalate, List.intersperse]

theorem split_intercalate (st : List Str) (b : Byte) (h : ∀ x ∈ st, b ∉ x) (hne : st ≠ []) :
    strings.Split ([b].intercalate st) b = st := by
  induction st with
  | nil => exact absurd rfl hne
  | cons x rest ih =>
    cases rest with
    | nil =>
      simp only [List.intercalate, List.intersperse, List.flatten, List.append_nil]
      exact split_of_no_sep x b (h x (List.mem_cons_self x []))
    | cons y ys =>
      rw [intercalate_cons_cons, split_append,
        split_of_no_sep x b (h x (List.mem_cons_self x _)),
        ih (fun z hz => h z (List.mem_cons_of_mem x hz)) (by simp)]
      simp

theorem walk_skip (st : Path) (c : Str) (h : c = [] ∨ c = str ".") : walk st c = st := by
  simp [walk, h]

theorem walk_name (st : Path) (c : Str) (h1 : c ≠ []) (h2 : c ≠ str ".") (h3 : c ≠ str "..") :
    walk st c = st ++ [c] := by
  simp [walk, h1, h2, h3]

theorem walk_dotdot (st : Path) : walk st (str "..") = st.dropLast := by
  have h1 : str ".." ≠ [] := by decide
  have h2 : str ".." ≠ str "." := by decide
  simp [walk, h1, h2]

/-- Walking the stack of `filepath.Clean` leads where walking the elements
themselves leads. -/
theorem walk_cleanStep (rooted : Bool) (cs : List Str) (acc : List Str) (s : Path)
    (hacc : ∀ x ∈ acc, x ≠ [] ∧ x ≠ str ".") (hroot : rooted = true → s = []) :
    (cs.foldl (cleanStep rooted) acc).foldl walk s = cs.foldl walk (acc.foldl walk s) := by
  induction cs generalizing acc with
  | nil => rfl
  | cons c rest ih =>
    simp only [List.foldl_cons]
    by_cases hskip : c = [] ∨ c = str "."
    · have e1 : cleanStep rooted acc c = acc := by simp [cleanStep, hskip]
      rw [e1, walk_skip _ c hskip]
      exact ih acc hacc
    · by_cases hdd : c = str ".."
      · subst hdd
        rw [walk_dotdot]
        cases hl : acc.getLast? with
        | none =>
          have hnil : acc = [] := List.getLast?_eq_none_iff.mp hl
          subst hnil
          by_cases hr : rooted = true
          · have e1 : cleanStep rooted [] (str "..") = [] := by
              simp only [cleanStep, if_neg hskip, List.getLast?_nil, hr, if_true]
            rw [e1, ih [] hacc]
            have hs := hroot hr
            subst hs
            rfl
          · have e1 : cleanStep rooted [] (str "..") = [str ".."] := by
              simp [cleanStep, hskip, hr]
            rw [e1, ih [str ".."] (by
              intro x hx
              simp at hx
              subst hx
              exact ⟨by decide, by decide⟩)]
            simp [walk_dotdot]
        | some l =>
          obtain ⟨init, hinit⟩ : ∃ init, acc = init ++ [l] := by
            have := List.getLast?_eq_some_iff.mp hl
            obtain ⟨ys, hys⟩ := this
            exact ⟨ys, hys⟩
          subst hinit
          by_cases hld : l = str ".."
          · have e1 : cleanStep rooted (init ++ [l]) (str "..") = init ++ [l] ++ [str ".."] := by
              simp only [cleanStep, if_neg hskip, hl, if_pos hld, if_true]
            rw [e1, ih _ (by
              intro x hx
              rcases List.mem_append.mp hx with h | h
              · exact hacc x h
              · simp at h; subst h; exact ⟨by decide, by decide⟩)]
            simp [List.foldl_append, walk_dotdot]
          · have e1 : cleanStep rooted (init ++ [l]) (str "..") = init := by
              simp only [cleanStep, if_neg hskip, hl, if_neg hld, if_true, List.dropLast_concat]
            have hl2 := hacc l (by simp)
            rw [e1, ih init (fun x hx => hacc x (List.mem_append_left _ hx))]
            simp [List.foldl_append, walk_name _ l hl2.1 hl2.2 hld]
      · have e1 : cleanStep rooted acc c = acc ++ [c] := by
          simp only [cleanStep, if_neg hskip, if_neg hdd]
        have hc : c ≠ [] ∧ c ≠ str "." := ⟨fun h => hskip (Or.inl h), fun h => hskip (Or.inr h)⟩
        rw [e1, ih _ (by
          intro x hx
          rcases List.mem_append.mp hx with h | h
          · exact hacc x h
          · simp at h; subst h; exact hc)]
        simp [List.foldl_append]

theorem validName_iff (n : Str) :
    validName n = true ↔ n ≠ [] ∧ n ≠ str "." ∧ n ≠ str ".." ∧ sep ∉ n := by
  simp [validName, and_assoc]

theorem comps_valid (n : Str) (h : validName n = true) : comps n = [n] :=
  split_of_no_sep n sep ((validName_iff n).mp h).2.2.2

theorem walk_valid (st : Path) (n : Str) (h : validName n = true) : walk st n = st ++ [n] := by
  obtain ⟨h1, h2, h3, _⟩ := (validName_iff n).mp h
  exact walk_name st n h1 h2 h3

/-- The stack of `filepath.Clean` holds names and `..` only. -/
theorem cleanStack_elems (rooted : Bool) (cs : List Str) (acc : List Str)
    (hcs : ∀ x ∈ cs, sep ∉ x) (hacc : ∀ x ∈ acc, x ≠ [] ∧ x ≠ str "." ∧ sep ∉ x) :
    ∀ x ∈ cs.foldl (cleanStep rooted) acc, x ≠ [] ∧ x ≠ str "." ∧ sep ∉ x := by
  induction cs generalizing acc with
  | nil => exact hacc
  | cons c rest ih =>
    simp only [List.foldl_cons]
    apply ih _ (fun x hx => hcs x (List.mem_cons_of_mem c hx))
    have hc := hcs c (List.mem_cons_self c rest)
    intro x hx
    unfold cleanStep at hx
    split at hx
    · exact hacc x hx
    · rename_i hskip
      have hcc : c ≠ [] ∧ c ≠ str "." ∧ sep ∉ c :=
        ⟨fun h => hskip (Or.inl h), fun h => hskip (Or.inr h), hc⟩
      have hpush : x ∈ acc ++ [c] → x ≠ [] ∧ x ≠ str "." ∧ sep ∉ x := by
        intro h
        rcases List.mem_append.mp h with h | h
        · exact hacc x h
        · simp at h; subst h; exact hcc
      split at hx
      · split at hx
        · split at hx
          · exact hacc x hx
          · exact hpush hx
        · split at hx
          · exact hpush hx
          · exact hacc x (List.mem_of_mem_dropLast hx)
      · exact hpush hx

theorem intercalate_head (b : Byte) (x : Str) (rest : List Str) (hx : x ≠ []) :
    ([b].intercalate (x :: rest)).head? = x.head? := by
  cases rest with
  | nil => simp [List.intercalate, List.intersperse]
  | cons y ys =>
    rw [intercalate_cons_cons]
    cases x with
    | nil => exact absurd rfl hx
    | cons a as => rfl

theorem resolve_def (w : World) (p : Str) :
    resolve w p = (comps p).foldl walk (if filepath.IsAbs p then [] else w.cwd) := rfl

/-- A cleaned path names what the path names. -/
theorem resolve_Clean (w : World) (p : Str) : resolve w (filepath.Clean p) = resolve w p := by
  have hst := cleanStack_elems (filepath.IsAbs p) (comps p) [] (split_no_sep p sep)
    (by intro x hx; cases hx)
  have hsep : ∀ x ∈ (comps p).foldl (cleanStep (filepath.IsAbs p)) [], sep ∉ x :=
    fun x hx => (hst x hx).2.2
  have hwalk : ∀ s : Path, (filepath.IsAbs p = true → s = []) →
      ((comps p).foldl (cleanStep (filepath.IsAbs p)) []).foldl walk s = (comps p).foldl walk s :=
    fun s hs => walk_cleanStep (filepath.IsAbs p) (comps p) [] s
      (by intro x hx; cases hx) hs
  unfold filepath.Clean
  simp only
  cases hr : filepath.IsAbs p with
  | true =>
    rw [hr] at hwalk hst hsep
    simp only [if_true, List.singleton_append, List.cons_ne_nil, if_false]
    rw [resolve_def w p, hr, if_pos rfl, ← hwalk [] (fun _ => rfl), resolve_def]
    have habs : filepath.IsAbs (sep :: [sep].intercalate
        ((comps p).foldl (cleanStep true) [])) = true := by
      simp [filepath.IsAbs]
    rw [habs, if_pos rfl]
    have hc : comps (sep :: [sep].intercalate ((comps p).foldl (cleanStep true) [])) =
        [] :: comps ([sep].intercalate ((comps p).foldl (cleanStep true) [])) := by
      unfold comps
      rw [split_cons_sep]
    rw [hc, List.foldl_cons, walk_skip _ _ (Or.inl rfl)]
    by_cases hnil : (comps p).foldl (cleanStep true) [] = []
    · rw [hnil]
      rfl
    · unfold comps at hsep hnil ⊢
      rw [split_intercalate _ sep hsep hnil]
  | false =>
    rw [hr] at hwalk hst hsep
    simp only [Bool.false_eq_true, if_false, List.nil_append]
    rw [resolve_def w p, hr, if_neg Bool.false_ne_true,
      ← hwalk w.cwd (fun h => absurd h Bool.false_ne_true)]
    cases hstack : (comps p).foldl (cleanStep false) [] with
    | nil =>
      simp only [List.intercalate, List.intersperse, List.flatten, if_true]
      rfl
    | cons x rest =>
      rw [hstack] at hst hsep
      have hx := hst x (List.mem_cons_self x rest)
      have hne : [sep].intercalate (x :: rest) ≠ [] := by
        intro h0
        have := intercalate_head sep x rest hx.1
        rw [h0] at this
        cases x with
        | nil => exact hx.1 rfl
        | cons a as => cases this
      rw [if_neg hne, resolve_def]
      have habs : filepath.IsAbs ([sep].intercalate (x :: rest)) = false := by
        unfold filepath.IsAbs
        rw [intercalate_head sep x rest hx.1]
        cases x with
        | nil => exact absurd rfl hx.1
        | cons a as =>
          have : a ≠ sep := fun h => hx.2.2 (by simp [h])
          simpa using this
      rw [habs, if_neg Bool.false_ne_true]
      unfold comps
      rw [split_intercalate _ sep hsep (by simp)]

theorem isAbs_append (d : Str) (rest : Str) (hd : d ≠ []) :
    filepath.IsAbs (d ++ rest) = filepath.IsAbs d := by
  cases d with
  | nil => exact absurd rfl hd
  | cons a as => rfl

/-- What `filepath.Join` of a directory and one more element names. -/
theorem resolve_Join2 (w : World) (d n : Str) (hd : d ≠ []) :
    resolve w (filepath.Join [d, n]) = (comps n).foldl walk (resolve w d) := by
  have hj : filepath.Join [d, n] = filepath.Clean (d ++ sep :: n) := by
    simp [filepath.Join, List.dropWhile, hd, List.intercalate, List.intersperse]
  rw [hj, resolve_Clean, resolve_def, resolve_def, isAbs_append d _ hd]
  unfold comps
  rw [split_append, List.foldl_append]

theorem resolve_Join3 (w : World) (a b c : Str) (ha : a ≠ []) :
    resolve w (filepath.Join [a, b, c]) =
      (comps c).foldl walk ((comps b).foldl walk (resolve w a)) := by
  have hj : filepath.Join [a, b, c] = filepath.Clean ((a ++ sep :: b) ++ sep :: c) := by
    simp [filepath.Join, List.dropWhile, ha, List.intercalate, List.intersperse]
  rw [hj, resolve_Clean, resolve_def, resolve_def, isAbs_append (a ++ sep :: b) _ (by simp [ha]),
    isAbs_append a _ ha]
  unfold comps
  rw [split_append, split_append, List.foldl_append, List.foldl_append]

/-- The entry `n` of the directory `d`. -/
theorem resolve_Join_valid (w : World) (d n : Str) (hd : d ≠ []) (hn : validName n = true) :
    resolve w (filepath.Join [d, n]) = resolve w d ++ [n] := by
  rw [resolve_Join2 w d n hd, comps_valid n hn]
  exact walk_valid _ n hn

/-- A rooted path names the same thing in every world. -/
theorem resolve_abs (w1 w2 : World) (p : Str) (h : filepath.IsAbs p = true) :
    resolve w1 p = resolve w2 p := by
  simp [resolve_def, h]

theorem isAbs_ne_nil (p : Str) (h : filepath.IsAbs p = true) : p ≠ [] := by
  intro h0
  subst h0
  cases h

/-! ## The file system -/

theorem lookup_filter_ne (fs : FS) (q r : Path) :
    (fs.filter (fun e => e.1 ≠ q)).lookup r = if r = q then none else fs.lookup r := by
  induction fs with
  | nil => simp
  | cons e rest ih =>
    obtain ⟨k, v⟩ := e
    by_cases hk : k = q
    · subst hk
      rw [List.filter_cons_of_neg (by simp), ih]
      by_cases hr : r = k
      · simp [hr]
      · have : (r == k) = false := by simpa using hr
        simp [hr, List.lookup, this]
    · rw [List.filter_cons_of_pos (by simpa using hk)]
      by_cases hr : r = k
      · subst hr
        simp [List.lookup, hk]
      · have : (r == k) = false := by simpa using hr
        simp only [List.lookup, this, ih]

theorem find_erase (fs : FS) (q r : Path) (hr : r ≠ []) :
    (fs.erase q).find r = if r = q then none else fs.find r := by
  simp only [FS.find, if_neg hr, FS.erase, lookup_filter_ne]

theorem find_set (fs : FS) (q r : Path) (n : Node) (hr : r ≠ []) :
    (fs.set q n).find r = if r = q then some n else fs.find r := by
  simp only [FS.find, if_neg hr, FS.set, List.lookup]
  by_cases h : r = q
  · subst h
    simp
  · have : (r == q) = false := by simpa using h
    simp only [this, if_neg h]
    have := lookup_filter_ne fs q r
    rw [if_neg h] at this
    exact this

theorem lookup_filter_tree (fs : FS) (q r : Path) :
    (fs.filter (fun e => !startsWith e.1 q)).lookup r =
      if startsWith r q then none else fs.lookup r := by
  induction fs with
  | nil => simp
  | cons e rest ih =>
    obtain ⟨k, v⟩ := e
    by_cases hk : startsWith k q = true
    · rw [List.filter_cons_of_neg (by simp [hk]), ih]
      by_cases hr : r = k
      · subst hr
        simp [hk]
      · have : (r == k) = false := by simpa using hr
        simp [List.lookup, this]
    · rw [List.filter_cons_of_pos (by simpa using hk)]
      by_cases hr : r = k
      · subst hr
        simp [List.lookup, hk]
      · have : (r == k) = false := by simpa using hr
        simp only [List.lookup, this, ih]

theorem startsWith_self (p : Path) : startsWith p p = true := by
  induction p with
  | nil => rfl
  | cons a rest ih => simp [startsWith, ih]

/-- After `os.RemoveAll` nothing is left at the path. -/
theorem find_eraseTree_self (fs : FS) (q : Path) (hq : q ≠ []) : (fs.eraseTree q).find q = none := by
  simp only [FS.find, if_neg hq, FS.eraseTree, lookup_filter_tree, startsWith_self, if_true]

theorem lookup_mem (fs : FS) (r : Path) (n : Node) (h : fs.lookup r = some n) : (r, n) ∈ fs := by
  induction fs with
  | nil => simp at h
  | cons e rest ih =>
    obtain ⟨k, v⟩ := e
    by_cases hr : r = k
    · subst hr
      simp only [List.lookup, beq_self_eq_true, Option.some.injEq] at h
      subst h
      exact List.mem_cons_self _ _
    · have : (r == k) = false := by simpa using hr
      simp only [List.lookup, this] at h
      exact List.mem_cons_of_mem _ (ih h)

theorem hasBelow_erase (fs : FS) (q p : Path) (h : (fs.erase q).hasBelow p = true) :
    fs.hasBelow p = true := by
  simp only [FS.hasBelow, FS.erase, List.any_eq_true, List.mem_filter] at h ⊢
  obtain ⟨e, ⟨he, _⟩, h2⟩ := h
  exact ⟨e, he, h2⟩

/-! ## The names `hashStrings` and `hashFiles` return -/

namespace Base64

set_option maxRecDepth 100000 in
theorem alphabet_chars : ∀ b ∈ alphabet ++ [0, padChar], b ≠ 47 ∧ b ≠ 46 := by decide

theorem enc_char (n : Nat) : enc n ≠ 47 ∧ enc n ≠ 46 := by
  apply alphabet_chars
  unfold enc
  rw [List.getD_eq_getElem?_getD]
  cases h : alphabet[n]? with
  | none => simp
  | some x =>
    simp only [Option.getD_some]
    exact List.mem_append_left _ (List.getElem?_mem h)

theorem encode_chars : ∀ (l : Str), ∀ b ∈ encode l, b ≠ 47 ∧ b ≠ 46
  | [] => by simp [encode]
  | [a] => by
    intro b hb
    simp only [encode, List.mem_cons, List.mem_singleton, List.not_mem_nil, or_false] at hb
    rcases hb with h | h | h | h <;> subst h <;> first | exact enc_char _ | decide
  | [a, c] => by
    intro b hb
    simp only [encode, List.mem_cons, List.mem_singleton, List.not_mem_nil, or_false] at hb
    rcases hb with h | h | h | h <;> subst h <;> first | exact enc_char _ | decide
  | a :: c :: d :: rest => by
    intro b hb
    simp only [encode, List.mem_cons] at hb
    rcases hb with h | h | h | h | h
    · subst h; exact enc_char _
    · subst h; exact enc_char _
    · subst h; exact enc_char _
    · subst h; exact enc_char _
    · exact encode_chars rest b h

theorem encode_ne_nil (l : Str) (h : l ≠ []) : encode l ≠ [] := by
  match l, h with
  | [a], _ => simp [encode]
  | [a, b], _ => simp [encode]
  | a :: b :: c :: rest, _ => simp [encode]

end Base64

theorem sha256_ne_nil (m : Str) : sha256 m ≠ [] := by
  simp [sha256, Sha256.digest, Sha256.wordBytes]

/-- A key is a name that a directory entry can have, and does not end in a
dot. -/
theorem key_name (m : Str) :
    validName (Base64.encode (sha256 m)) = true ∧
    (Base64.encode (sha256 m)).getLast? ≠ some 46 := by
  have hne := Base64.encode_ne_nil _ (sha256_ne_nil m)
  have hch := Base64.encode_chars (sha256 m)
  constructor
  · rw [validName_iff]
    refine ⟨hne, ?_, ?_, ?_⟩
    · intro h
      have := (hch 46 (by rw [h]; decide)).2
      exact this rfl
    · intro h
      have := (hch 46 (by rw [h]; decide)).2
      exact this rfl
    · intro h
      exact (hch sep h).1 rfl
  · intro h
    have := List.mem_of_getLast?_eq_some h
    exact (hch 46 this).2 rfl

/-! ## No function but `execCommand` replaces the process -/

theorem hashFiles_keeps (I : World → Prop) (files : List Str) : Keeps I (hashFiles files) := by
  intro w hw
  rcases hashFiles_spec files w with h | ⟨e, h⟩
  · rw [h]; exact hw
  · rw [h]; exact hw

theorem copyFile_runs (src dst : Str) : Keeps (fun _ => True) (copyFile src dst) := by
  unfold copyFile
  refine keeps_bind (keeps_ask _) (fun r => ?_)
  cases r with
  | error e => exact keeps_pure _
  | ok inp =>
    refine keeps_bind (keeps_sys _ (fun _ _ => trivial)) (fun r2 => ?_)
    cases r2 with
    | error e => exact keeps_pure _
    | ok out =>
      refine keeps_bind (keeps_ask _) (fun r3 => ?_)
      cases r3 with
      | error e => exact keeps_pure _
      | ok c => exact keeps_bind (keeps_sys _ (fun _ _ => trivial)) (fun _ => keeps_pure _)

theorem copySources_runs (cmd : execCmd) (outDir : Str) :
    Keeps (fun _ => True) (copySources cmd outDir) :=
  keeps_forEach _ _ (fun _ _ =>
    keeps_bind (copyFile_runs _ _) (fun err => keeps_panicIfError err))

theorem clearSources_runs (cmd : execCmd) (outDir : Str) :
    Keeps (fun _ => True) (clearSources cmd outDir) :=
  keeps_bind (keeps_forEach _ _ (fun _ _ => keeps_discard (keeps_sys _ (fun _ _ => trivial))))
    (fun _ => keeps_bind (keeps_discard (keeps_sys _ (fun _ _ => trivial)))
      (fun _ => keeps_discard (keeps_sys _ (fun _ _ => trivial))))

theorem clearDir_runs (path : Str) : Keeps (fun _ => True) (clearDir path) := by
  unfold clearDir
  refine keeps_bind (keeps_ask _) (fun r => keeps_bind (keeps_must r) (fun lsDir => ?_))
  refine keeps_forEach _ _ (fun name _ => ?_)
  split
  · exact keeps_pure _
  · exact keeps_bind (keeps_sys _ (fun _ _ => trivial))
      (fun err => keeps_logIfError err (fun _ _ _ => trivial))

theorem setGoEnv_runs (tc : Toolchain) : Keeps (fun _ => True) (setGoEnv tc) := by
  intro w _
  have h := setGoEnv_spec tc w w rfl
  cases hs : setGoEnv tc w with
  | ok g w1 => trivial
  | panic e w1 => trivial
  | replaced x argv envv w1 => rw [hs] at h; exact h

theorem unsetGoEnv_runs (g : goEnv) : Keeps (fun _ => True) (unsetGoEnv g) := by
  unfold unsetGoEnv
  split
  · exact keeps_bind (keeps_sys _ (fun _ _ => trivial))
      (fun err => keeps_logIfError err (fun _ _ _ => trivial))
  · exact keeps_bind (keeps_sys _ (fun _ _ => trivial))
      (fun err => keeps_logIfError err (fun _ _ _ => trivial))

theorem doCompileSources_runs (tc : Toolchain) (cmd : execCmd) (outDir exe : Str) :
    Keeps (fun _ => True) (doCompileSources tc cmd outDir exe) := by
  unfold doCompileSources
  refine keeps_bind (keeps_ask _) (fun r => keeps_bind (keeps_must r) (fun curWD => ?_))
  refine keeps_bind (keeps_sys _ (fun _ _ => trivial))
    (fun err => keeps_bind (keeps_panicIfError err) (fun _ => ?_))
  refine keeps_deferring ?_ (keeps_discard (keeps_sys _ (fun _ _ => trivial)))
  refine keeps_bind (setGoEnv_runs tc) (fun g => ?_)
  refine keeps_deferring ?_ (unsetGoEnv_runs g)
  exact keeps_bind (runCommandSilent_env tc _ _ (fun _ => True)) (fun e1 =>
    keeps_bind (keeps_panicIfError e1) (fun _ =>
      keeps_bind (runCommand_env tc _ _ (fun _ => True)) (fun e2 =>
        keeps_bind (keeps_panicIfError e2) (fun _ =>
          keeps_bind (runCommand_env tc _ _ (fun _ => True))
            (fun e3 => keeps_panicIfError e3)))))

theorem compileSources_runs (tc : Toolchain) (cmd : execCmd) (outDir : Str) :
    Keeps (fun _ => True) (compileSources tc cmd outDir) := by
  unfold compileSources
  refine keeps_bind (hashFiles_keeps _ _) (fun hash => ?_)
  refine keeps_bind (keeps_ask _) (fun r => ?_)
  cases r with
  | ok n => exact keeps_pure _
  | error e =>
    refine keeps_bind (clearDir_runs outDir) (fun _ => ?_)
    refine keeps_deferring ?_ (clearSources_runs cmd outDir)
    exact keeps_bind (copySources_runs cmd outDir) (fun _ =>
      keeps_bind (doCompileSources_runs tc cmd outDir _) (fun _ => keeps_pure _))

/-- `prepareOutputDir` returns the cache path or panics. -/
theorem prepareOutputDir_spec (cmd : execCmd) (w : World) :
    (∃ w1, prepareOutputDir cmd w = .ok (cachePath cmd w) w1 ∧ w1.cwd = w.cwd) ∨
    (∃ e w1, prepareOutputDir cmd w = .panic e w1) := by
  unfold prepareOutputDir
  simp only [bind_run, ask_run]
  cases hs : os.Stat (filepath.Join [os.TempDir w, str "gorun-" ++ strconv.Itoa (os.Geteuid w),
      hashStrings cmd.src]) w with
  | ok stat =>
    simp only
    split
    · right; exact ⟨_, _, rfl⟩
    · left; exact ⟨w, rfl, rfl⟩
  | error e =>
    simp only [sys_run]
    cases hm : (os.MkdirAll (filepath.Join [os.TempDir w,
        str "gorun-" ++ strconv.Itoa (os.Geteuid w), hashStrings cmd.src]) 0o700 w).1 with
    | none =>
      left
      refine ⟨(os.MkdirAll (cachePath cmd w) 0o700 w).2, ?_, rfl⟩
      simp only [bind_run, sys_run, hm, panicIfError, pure_run, cachePath]
    | some e2 =>
      right
      refine ⟨e2, (os.MkdirAll (cachePath cmd w) 0o700 w).2, ?_⟩
      simp only [bind_run, sys_run, hm, panicIfError, throwPanic_run, cachePath]

/-- What `execCommand` does: it replaces the process by the executable, with
the executable and the arguments of the command as argument vector and the
environment of the process, or it panics in an unchanged world. -/
theorem execCommand_spec (cmd : execCmd) (exe : Str) (w : World) :
    (readable w exe = true ∧
      execCommand cmd exe w = .replaced exe (exe :: cmd.args) (os.Environ w) w) ∨
    (readable w exe = false ∧ ∃ e, execCommand cmd exe w = .panic e w) := by
  unfold execCommand readable
  simp only [bind_run, ask_run, syscall.Exec]
  cases hf : w.fs.find (resolve w exe) with
  | none =>
    right
    refine ⟨rfl, ?_⟩
    simp [panicIfError]
  | some n =>
    cases n with
    | file c => left; exact ⟨rfl, by simp⟩
    | dir p =>
      right
      refine ⟨rfl, ?_⟩
      simp [panicIfError]

/-- The outcome of a computation that keeps the trivial invariant. -/
theorem runs_cases {α : Type} {m : M α} (h : Keeps (fun _ => True) m) (w : World) :
    (∃ a w1, m w = .ok a w1) ∨ (∃ e w1, m w = .panic e w1) := by
  rcases Triple.world h w trivial with ⟨a, w1, h1, _⟩ | ⟨e, w1, h1, _⟩
  · exact Or.inl ⟨a, w1, h1⟩
  · exact Or.inr ⟨e, w1, h1⟩

/-- The runs of `main` after the cache directory has been prepared: the
build panics and the directory is removed, or the executable is launched in
the world the build left, or launching fails and the directory is removed. -/
theorem mainBody_spec (tc : Toolchain) (w w2 : World) (cmd : execCmd) (outDir : Str)
    (hc : getExecCommand w = .ok cmd w) (hp : prepareOutputDir cmd w = .ok outDir w2) :
    (∃ e w3, compileSources tc cmd outDir w2 = .panic e w3 ∧
      mainBody tc w = .panic e (os.RemoveAll outDir w3).2) ∨
    (∃ exe w3, compileSources tc cmd outDir w2 = .ok exe w3 ∧ readable w3 exe = true ∧
      mainBody tc w = .replaced exe (exe :: cmd.args) (os.Environ w3) w3) ∨
    (∃ exe w3 e, compileSources tc cmd outDir w2 = .ok exe w3 ∧ readable w3 exe = false ∧
      mainBody tc w = .panic e (os.RemoveAll outDir w3).2) := by
  unfold mainBody
  simp only [bind_run, hc, hp, deferring]
  rcases runs_cases (compileSources_runs tc cmd outDir) w2 with ⟨exe, w3, h3⟩ | ⟨e, w3, h3⟩
  · rcases execCommand_spec cmd exe w3 with ⟨hr, he⟩ | ⟨hr, e, he⟩
    · right; left
      exact ⟨exe, w3, h3, hr, by simp [h3, he]⟩
    · right; right
      exact ⟨exe, w3, e, h3, hr, by simp [h3, he, discard, bind_run]⟩
  · left
    exact ⟨e, w3, h3, by simp [h3, discard, bind_run]⟩

/-! ## The cache path -/

theorem intercalate_concat (b : Byte) (l : List Str) (c : Str) :
    ∃ v, [b].intercalate (l ++ [c]) = v ++ c := by
  induction l with
  | nil => exact ⟨[], by simp [List.intercalate, List.intersperse]⟩
  | cons x rest ih =>
    obtain ⟨v, hv⟩ := ih
    cases rest with
    | nil =>
      refine ⟨x ++ [b], ?_⟩
      simp [List.intercalate, List.intersperse]
    | cons y ys =>
      refine ⟨x ++ b :: v, ?_⟩
      rw [List.cons_append, List.cons_append, intercalate_cons_cons, ← List.cons_append, hv]
      simp

/-- A cleaned path whose last element is a name ends in that name. -/
theorem clean_ends (u c : Str) (hc : validName c = true) :
    ∃ v, filepath.Clean (u ++ sep :: c) = v ++ c := by
  obtain ⟨h1, h2, h3, h4⟩ := (validName_iff c).mp hc
  have hcomps : comps (u ++ sep :: c) = comps u ++ [c] := by
    unfold comps
    rw [split_append, split_of_no_sep c sep h4]
  unfold filepath.Clean
  simp only
  rw [hcomps, List.foldl_append, List.foldl_cons, List.foldl_nil]
  have hstep : ∀ r st, cleanStep r st c = st ++ [c] := by
    intro r st
    simp [cleanStep, h1, h2, h3]
  rw [hstep]
  obtain ⟨v, hv⟩ := intercalate_concat sep
    ((comps u).foldl (cleanStep (filepath.IsAbs (u ++ sep :: c))) []) c
  rw [hv]
  have hne : (if filepath.IsAbs (u ++ sep :: c) = true then [sep] else []) ++ (v ++ c) ≠ [] := by
    cases c with
    | nil => exact absurd rfl h1
    | cons a as => simp
  rw [if_neg hne]
  exact ⟨_, (List.append_assoc _ _ _).symm⟩

theorem endsWithDot_false (v c : Str) (hne : c ≠ []) (hlast : c.getLast? ≠ some 46) :
    endsWithDot (v ++ c) = false := by
  have hl : (v ++ c).getLast? = c.getLast? := by
    rw [List.getLast?_append, List.getLast?_eq_getLast c hne]
    rfl
  have h1 : v ++ c ≠ str "." := by
    intro h
    rw [h] at hl
    exact hlast hl.symm
  have h2 : (v ++ c).reverse.head? ≠ some 46 := by
    rw [List.head?_reverse, hl]
    exact hlast
  have e1 : decide (v ++ c = str ".") = false := decide_eq_false h1
  have e2 : decide ((v ++ c).reverse.head? = some 46) = false := decide_eq_false h2
  unfold endsWithDot
  rw [e1, e2]
  rfl

theorem tempDir_ne_nil (w : World) : os.TempDir w ≠ [] := by
  unfold os.TempDir
  simp only
  split
  · decide
  · assumption

/-- The cache path is not empty, does not end in a dot, and names something
below the root: `os.RemoveAll` removes it. -/
theorem cachePath_props (cmd : execCmd) (w : World) :
    cachePath cmd w ≠ [] ∧ endsWithDot (cachePath cmd w) = false ∧
    ∀ w1, resolve w1 (cachePath cmd w) ≠ [] := by
  have hkey := key_name (cmd.src.flatten)
  rw [← hashStrings_eq] at hkey
  have hne := ((validName_iff _).mp hkey.1).1
  have hj : cachePath cmd w = filepath.Clean
      ((os.TempDir w ++ sep :: (str "gorun-" ++ strconv.Itoa (os.Geteuid w))) ++
        sep :: hashStrings cmd.src) := by
    simp [cachePath, filepath.Join, List.dropWhile, tempDir_ne_nil w, List.intercalate,
      List.intersperse]
  obtain ⟨v, hv⟩ := clean_ends
    (os.TempDir w ++ sep :: (str "gorun-" ++ strconv.Itoa (os.Geteuid w))) _ hkey.1
  refine ⟨?_, ?_, ?_⟩
  · rw [hj, hv]
    intro h
    exact hne (List.append_eq_nil.mp h).2
  · rw [hj, hv]
    exact endsWithDot_false v _ hne hkey.2
  · intro w1
    unfold cachePath
    rw [resolve_Join3 w1 _ _ _ (tempDir_ne_nil w), comps_valid _ hkey.1, List.foldl_cons,
      List.foldl_nil, walk_valid _ _ hkey.1]
    simp

/-- After `os.RemoveAll` of the cache path, `os.Stat` finds nothing there. -/
theorem stat_after_RemoveAll (cmd : execCmd) (w0 w : World) (s : Str) :
    os.Stat (cachePath cmd w0)
      { (os.RemoveAll (cachePath cmd w0) w).2 with stderr := s } =
      .error (str "stat: no such file or directory") := by
  obtain ⟨h1, h2, h3⟩ := cachePath_props cmd w0
  unfold os.RemoveAll
  rw [if_neg h1, h2]
  simp only [Bool.false_eq_true, if_false, os.Stat]
  have hr : resolve { w with fs := w.fs.eraseTree (resolve w (cachePath cmd w0)), stderr := s }
      (cachePath cmd w0) = resolve w (cachePath cmd w0) := rfl
  rw [hr, find_eraseTree_self _ _ (h3 w)]

theorem removeAll_cwd (p : Str) (w : World) : (os.RemoveAll p w).2.cwd = w.cwd := by
  unfold os.RemoveAll
  split
  · rfl
  · split <;> rfl

/-- After `os.RemoveAll` of the cache path nothing is left at the canonical
path it named, nor below it. -/
theorem removeAll_gone (cmd : execCmd) (w0 w : World) (q : Path)
    (hq : startsWith q (resolve w (cachePath cmd w0)) = true) :
    (os.RemoveAll (cachePath cmd w0) w).2.fs.find q = none := by
  obtain ⟨h1, h2, h3⟩ := cachePath_props cmd w0
  have hne : q ≠ [] := by
    intro h0
    subst h0
    cases hr : resolve w (cachePath cmd w0) with
    | nil => exact h3 w hr
    | cons a rest =>
      rw [hr] at hq
      cases hq
  unfold os.RemoveAll
  rw [if_neg h1, h2]
  simp only [Bool.false_eq_true, if_false, FS.find, if_neg hne, FS.eraseTree, lookup_filter_tree,
    hq, if_true]

/-- A cleaned path is rooted when the path is. -/
theorem isAbs_Clean (p : Str) : filepath.IsAbs (filepath.Clean p) = filepath.IsAbs p := by
  have hst := cleanStack_elems (filepath.IsAbs p) (comps p) [] (split_no_sep p sep)
    (by intro x hx; cases hx)
  unfold filepath.Clean
  simp only
  cases habs : filepath.IsAbs p with
  | true =>
    simp [filepath.IsAbs]
  | false =>
    rw [habs] at hst
    simp only [Bool.false_eq_true, if_false, List.nil_append]
    split
    · rfl
    · cases hs : (comps p).foldl (cleanStep false) [] with
      | nil => rfl
      | cons x rest =>
        have hx := hst x (by rw [hs]; exact List.mem_cons_self x rest)
        unfold filepath.IsAbs
        rw [intercalate_head sep x rest hx.1]
        cases x with
        | nil => exact absurd rfl hx.1
        | cons a as =>
          have : a ≠ sep := by
            intro h0
            exact hx.2.2 (by rw [h0]; exact List.mem_cons_self _ _)
          simp [this]

/-- The cache path is rooted exactly when the temporary directory is. -/
theorem cachePath_isAbs (cmd : execCmd) (w : World) :
    filepath.IsAbs (cachePath cmd w) = filepath.IsAbs (os.TempDir w) := by
  have hj : cachePath cmd w = filepath.Clean
      ((os.TempDir w ++ sep :: (str "gorun-" ++ strconv.Itoa (os.Geteuid w))) ++
        sep :: hashStrings cmd.src) := by
    simp [cachePath, filepath.Join, List.dropWhile, tempDir_ne_nil w, List.intercalate,
      List.intersperse]
  rw [hj, isAbs_Clean, List.append_assoc, isAbs_append _ _ (tempDir_ne_nil w)]

/-- A directory stays one while `os.MkdirAll` creates directories. -/
theorem mkdirs_keeps (perm : Nat) (ps : List Path) (fs : FS) (p : Path) (m : Nat)
    (h : fs.find p = some (.dir m)) : (mkdirs perm ps fs).2.find p = some (.dir m) := by
  induction ps generalizing fs with
  | nil => exact h
  | cons q rest ih =>
    unfold mkdirs
    cases hq : fs.find q with
    | none =>
      simp only
      apply ih
      have hne : q ≠ [] := by
        intro h0
        subst h0
        simp [FS.find] at hq
      by_cases hp : p = []
      · subst hp
        simp only [FS.find, if_true] at h ⊢
        exact h
      · rw [find_set _ _ _ _ hp]
        have : p ≠ q := by
          intro h0
          subst h0
          rw [hq] at h
          cases h
        rw [if_neg this]
        exact h
    | some node =>
      cases node with
      | file c => exact h
      | dir m2 => exact ih fs h

/-- When `os.MkdirAll` succeeds, every path it went through is a directory. -/
theorem mkdirs_dirs (perm : Nat) (ps : List Path) (fs : FS) (h : (mkdirs perm ps fs).1 = none) :
    ∀ p ∈ ps, ∃ m, (mkdirs perm ps fs).2.find p = some (.dir m) := by
  induction ps generalizing fs with
  | nil =>
    intro p hp
    cases hp
  | cons q rest ih =>
    intro p hp
    unfold mkdirs at h ⊢
    cases hq : fs.find q with
    | none =>
      rw [hq] at h
      simp only at h ⊢
      have hne : q ≠ [] := by
        intro h0
        subst h0
        simp [FS.find] at hq
      rcases List.mem_cons.mp hp with h0 | h0
      · subst h0
        exact ⟨perm, mkdirs_keeps perm rest _ p perm (by rw [find_set _ _ _ _ hne]; simp)⟩
      · exact ih _ h p h0
    | some node =>
      rw [hq] at h
      cases node with
      | file c =>
        simp only at h
        cases h
      | dir m2 =>
        simp only at h ⊢
        rcases List.mem_cons.mp hp with h0 | h0
        · subst h0
          exact ⟨m2, mkdirs_keeps perm rest fs p m2 hq⟩
        · exact ih fs h p h0

theorem mem_inits_tail (l : Path) (h : l ≠ []) : l ∈ l.inits.tail := by
  cases l with
  | nil => exact absurd rfl h
  | cons a rest =>
    rw [List.inits_cons, List.tail_cons]
    exact List.mem_map_of_mem _ ((List.mem_inits _ _).mpr (List.prefix_refl rest))

/-- The cache path `prepareOutputDir` returns names a directory. -/
theorem prepareOutputDir_dir (cmd : execCmd) (w w2 : World) (outDir : Str)
    (hp : prepareOutputDir cmd w = .ok outDir w2) :
    ∃ m, w2.fs.find (resolve w outDir) = some (.dir m) := by
  unfold prepareOutputDir at hp
  simp only [bind_run, ask_run] at hp
  cases hs : os.Stat (filepath.Join [os.TempDir w, str "gorun-" ++ strconv.Itoa (os.Geteuid w),
      hashStrings cmd.src]) w with
  | ok stat =>
    rw [hs] at hp
    simp only at hp
    split at hp
    · cases hp
    · rename_i hgood
      cases hp
      unfold os.Stat at hs
      split at hs
      · rename_i n hn
        cases hs
        cases stat with
        | file c => simp [Node.IsDir] at hgood
        | dir m => exact ⟨m, hn⟩
      · cases hs
  | error e =>
    rw [hs] at hp
    simp only [sys_run] at hp
    cases hm : (os.MkdirAll (filepath.Join [os.TempDir w,
        str "gorun-" ++ strconv.Itoa (os.Geteuid w), hashStrings cmd.src]) 0o700 w).1 with
    | none =>
      simp only [bind_run, sys_run, hm, panicIfError, pure_run] at hp
      cases hp
      have hne := (cachePath_props cmd w).2.2 w
      unfold cachePath at hne
      exact mkdirs_dirs 0o700 _ w.fs hm _ (mem_inits_tail _ hne)
    | some e2 =>
      simp only [bind_run, sys_run, hm, panicIfError, throwPanic_run] at hp
      cases hp

/-! ## Launching (C9) -/

/-- C9. For every argument vector with a source argument: with the command
`getExecCommand` returns, `execCommand` replaces the process by the
executable whenever that is a regular file, and whenever it replaces the
process the argument vector it hands over is the path of the executable
followed by `os.Args[2:]`, and the environment it hands over is that of the
process; so it is in every run of `main` that launches the executable. -/
theorem execCommand_hands_over (tc : Toolchain) (w : World) (hargs : 2 ≤ w.args.length) :
    (∀ cmd w1 exe w2, getExecCommand w = .ok cmd w1 →
      (readable w2 exe = true →
        execCommand cmd exe w2 = .replaced exe (exe :: w.args.drop 2) (os.Environ w2) w2) ∧
      (∀ x argv envv w3, execCommand cmd exe w2 = .replaced x argv envv w3 →
        x = exe ∧ argv = exe :: w.args.drop 2 ∧ envv = os.Environ w2 ∧ w3 = w2)) ∧
    (∀ exe argv envv wf, main tc w = .launched exe argv envv wf →
      argv = exe :: w.args.drop 2 ∧ envv = os.Environ wf ∧ readable wf exe = true) := by
  have hcmd : ∀ cmd w1, getExecCommand w = .ok cmd w1 → cmd.args = w.args.drop 2 ∧ w1 = w := by
    intro cmd w1 h
    rcases getExecCommand_spec w hargs with ⟨l, _, _, h2⟩ | ⟨e, h2, _⟩
    · rw [h2] at h
      cases h
      exact ⟨rfl, rfl⟩
    · rw [h2] at h
      cases h
  constructor
  · intro cmd w1 exe w2 hc
    obtain ⟨ha, _⟩ := hcmd cmd w1 hc
    rcases execCommand_spec cmd exe w2 with ⟨hr, he⟩ | ⟨hr, e, he⟩
    · rw [he, ha]
      refine ⟨fun _ => rfl, ?_⟩
      intro x argv envv w3 h
      cases h
      exact ⟨rfl, rfl, rfl, rfl⟩
    · rw [he]
      refine ⟨fun h => ?_, fun x argv envv w3 h => (by cases h)⟩
      rw [hr] at h
      cases h
  · intro exe argv envv wf hm
    unfold main at hm
    rcases getExecCommand_spec w hargs with ⟨l, _, _, hc⟩ | ⟨e, hc, _⟩
    · rcases prepareOutputDir_spec { src := slices.Sort l, args := w.args.drop 2 } w with
        ⟨w2, hp, _⟩ | ⟨e, w2, hp⟩
      · rcases mainBody_spec tc w w2 _ _ hc hp with ⟨e, w3, _, hb⟩ | ⟨exe2, w3, _, hr, hb⟩ |
          ⟨exe2, w3, e, _, _, hb⟩
        · rw [hb] at hm; cases hm
        · rw [hb] at hm
          cases hm
          exact ⟨rfl, rfl, hr⟩
        · rw [hb] at hm; cases hm
      · have hb : mainBody tc w = .panic e w2 := by
          simp only [mainBody, bind_run, hc, hp]
        rw [hb] at hm
        cases hm
    · have hb : mainBody tc w = .panic e w := by
        simp only [mainBody, bind_run, hc]
      rw [hb] at hm
      cases hm

set_option maxRecDepth 1000000 in
/-- The run `gorun b.go,a.go x y`: the executable is launched with the arguments `x` and `y`. -/
theorem execCommand_hands_over_witness :
    2 ≤ homeWorld.args.length ∧
    (∃ exe wf, main (goToolchain true) homeWorld =
      .launched exe [exe, str "x", str "y"] [str "HOME=/root", str "GOPROXY=direct"] wf) ∧
    (∀ exe argv envv wf, main (goToolchain true) homeWorld = .launched exe argv envv wf →
      argv = exe :: homeWorld.args.drop 2 ∧ envv = os.Environ wf ∧ readable wf exe = true) :=
  ⟨by decide, ⟨_, _, rfl⟩, (execCommand_hands_over (goToolchain true) homeWorld (by decide)).2⟩

/-! ## The end of a run (C5) -/

/-- C5, amended. In a run of `main` in which `prepareOutputDir` returned a
cache path, that path names a directory at that point, and it is rooted
exactly when the temporary directory is. When the run ends in a fatal error,
in `compileSources` or in `execCommand`, the deferred `os.RemoveAll` has
removed what the cache path names from the working directory the process is
left in; so the directory `prepareOutputDir` returned, with all that is below
it, no longer exists whenever the cache path is rooted or the process is left
in the working directory it started in. When the run ends by launching the
executable, no deferred removal runs, and the file system is the one
`compileSources` left, with the executable in it; `main` never returns. -/
theorem main_removes_on_fatal (tc : Toolchain) (w w1 w2 : World) (cmd : execCmd) (outDir : Str)
    (hc : getExecCommand w = .ok cmd w1) (hp : prepareOutputDir cmd w1 = .ok outDir w2) :
    (∃ m, w2.fs.find (resolve w outDir) = some (.dir m)) ∧
    filepath.IsAbs outDir = filepath.IsAbs (os.TempDir w) ∧
    (∀ e wf, main tc w = .fatal e wf →
      os.Stat outDir wf = .error (str "stat: no such file or directory") ∧
      (∀ q, startsWith q (resolve wf outDir) = true → wf.fs.find q = none) ∧
      (filepath.IsAbs outDir = true ∨ wf.cwd = w.cwd →
        ∀ q, startsWith q (resolve w outDir) = true → wf.fs.find q = none)) ∧
    (∀ exe argv envv wf, main tc w = .launched exe argv envv wf →
      compileSources tc cmd outDir w2 = .ok exe wf ∧ readable wf exe = true) ∧
    (∀ wf, main tc w ≠ .returned wf) := by
  have hw1 : w1 = w := by
    by_cases hlen : w.args.length ≤ 1
    · rw [getExecCommand_noargs w hlen] at hc
      cases hc
    · rcases getExecCommand_spec w (by omega) with ⟨l, _, _, h2⟩ | ⟨e, h2, _⟩
      · rw [h2] at hc; cases hc; rfl
      · rw [h2] at hc; cases hc
  subst hw1
  have hdir := prepareOutputDir_dir cmd w1 w2 outDir hp
  have hout : outDir = cachePath cmd w1 := by
    rcases prepareOutputDir_spec cmd w1 with ⟨w3, h, _⟩ | ⟨e, w3, h⟩
    · rw [h] at hp; cases hp; rfl
    · rw [h] at hp; cases hp
  subst hout
  have hfatal : ∀ (w3 : World) (s : Str),
      os.Stat (cachePath cmd w1) { (os.RemoveAll (cachePath cmd w1) w3).2 with stderr := s } =
        .error (str "stat: no such file or directory") ∧
      (∀ q, startsWith q (resolve { (os.RemoveAll (cachePath cmd w1) w3).2 with stderr := s }
          (cachePath cmd w1)) = true →
        ({ (os.RemoveAll (cachePath cmd w1) w3).2 with stderr := s } : World).fs.find q = none) ∧
      (filepath.IsAbs (cachePath cmd w1) = true ∨
          ({ (os.RemoveAll (cachePath cmd w1) w3).2 with stderr := s } : World).cwd = w1.cwd →
        ∀ q, startsWith q (resolve w1 (cachePath cmd w1)) = true →
          ({ (os.RemoveAll (cachePath cmd w1) w3).2 with stderr := s } : World).fs.find q =
            none) := by
    intro w3 s
    have hcwd : ({ (os.RemoveAll (cachePath cmd w1) w3).2 with stderr := s } : World).cwd =
        w3.cwd := removeAll_cwd _ w3
    have hres : resolve { (os.RemoveAll (cachePath cmd w1) w3).2 with stderr := s }
        (cachePath cmd w1) = resolve w3 (cachePath cmd w1) := by
      simp only [resolve_def, removeAll_cwd]
    refine ⟨stat_after_RemoveAll cmd w1 w3 s, ?_, ?_⟩
    · intro q hq
      rw [hres] at hq
      exact removeAll_gone cmd w1 w3 q hq
    · intro hor q hq
      have hsame : resolve w3 (cachePath cmd w1) = resolve w1 (cachePath cmd w1) := by
        rcases hor with h | h
        · exact resolve_abs w3 w1 _ h
        · rw [hcwd] at h
          simp only [resolve_def, h]
      rw [← hsame] at hq
      exact removeAll_gone cmd w1 w3 q hq
  refine ⟨hdir, cachePath_isAbs cmd w1, ?_⟩
  unfold main
  rcases mainBody_spec tc w1 w2 cmd _ hc hp with ⟨e, w3, _, hb⟩ | ⟨exe, w3, h3, hr, hb⟩ |
    ⟨exe, w3, e, _, _, hb⟩
  · rw [hb]
    refine ⟨?_, fun _ _ _ _ h => (by cases h), fun _ h => (by cases h)⟩
    intro e2 wf h
    cases h
    exact hfatal w3 _
  · rw [hb]
    refine ⟨fun _ _ h => (by cases h), ?_, fun _ h => (by cases h)⟩
    intro exe2 argv envv wf h
    cases h
    exact ⟨h3, hr⟩
  · rw [hb]
    refine ⟨?_, fun _ _ _ _ h => (by cases h), fun _ h => (by cases h)⟩
    intro e2 wf h
    cases h
    exact hfatal w3 _

set_option maxRecDepth 1000000 in
/-- The run `gorun b.go,a.go x y` with a toolchain whose build step fails:
the cache path `/tmp/gorun-1000/<key>` is rooted, and nothing is left of the
directory. -/
theorem main_removes_on_fatal_witness :
    getExecCommand homeWorld = .ok homeCmd homeWorld ∧
    (∃ w2, prepareOutputDir homeCmd homeWorld = .ok (cachePath homeCmd homeWorld) w2) ∧
    filepath.IsAbs (cachePath homeCmd homeWorld) = true ∧
    (∃ e wf, main (goToolchain false) homeWorld = .fatal e wf) ∧
    (∀ e wf, main (goToolchain false) homeWorld = .fatal e wf →
      os.Stat (cachePath homeCmd homeWorld) wf =
        .error (str "stat: no such file or directory") ∧
      (∀ q, startsWith q (resolve wf (cachePath homeCmd homeWorld)) = true →
        wf.fs.find q = none) ∧
      (filepath.IsAbs (cachePath homeCmd homeWorld) = true ∨ wf.cwd = homeWorld.cwd →
        ∀ q, startsWith q (resolve homeWorld (cachePath homeCmd homeWorld)) = true →
          wf.fs.find q = none)) :=
  ⟨rfl, ⟨_, rfl⟩, rfl, ⟨_, _, rfl⟩,
    (main_removes_on_fatal (goToolchain false) homeWorld homeWorld
      (os.MkdirAll (cachePath homeCmd homeWorld) 0o700 homeWorld).2 homeCmd
      (cachePath homeCmd homeWorld) rfl rfl).2.2.1⟩

set_option maxRecDepth 1000000 in
/-- C5, as stated, fails, in two ways. In a run that builds and launches the
executable, `syscall.Exec` replaces the process, the deferred `os.RemoveAll`
never runs, and the cache directory is still on disk when the run ends. And
in a run with `TMPDIR=../t`, where the cache path is not rooted, in which a
child process removes the working directory and fails: the deferred
`os.Chdir` back fails, the deferred `os.RemoveAll` resolves the cache path
from the cache directory the process is left in, and the directory
`prepareOutputDir` created is still on disk, with the staged source in it,
when the run ends in the fatal error. -/
theorem main_launch_keeps_directory :
    (getExecCommand homeWorld = .ok homeCmd homeWorld ∧
      (∃ w2, prepareOutputDir homeCmd homeWorld = .ok (cachePath homeCmd homeWorld) w2) ∧
      (main (goToolchain true) homeWorld).isLaunched = true ∧
      os.Stat (cachePath homeCmd homeWorld) (main (goToolchain true) homeWorld).world =
        .ok (.dir 0o700)) ∧
    (getExecCommand relWorld = .ok relCmd relWorld ∧
      (∃ w2, prepareOutputDir relCmd relWorld = .ok (cachePath relCmd relWorld) w2 ∧
        w2.fs.find (resolve relWorld (cachePath relCmd relWorld)) = some (.dir 0o700)) ∧
      filepath.IsAbs (cachePath relCmd relWorld) = false ∧
      (main wreckToolchain relWorld).isFatal = true ∧
      (main wreckToolchain relWorld).world.cwd ≠ relWorld.cwd ∧
      (main wreckToolchain relWorld).world.fs.find
        (resolve relWorld (cachePath relCmd relWorld)) = some (.dir 0o700) ∧
      (main wreckToolchain relWorld).world.fs.find
        (resolve relWorld (cachePath relCmd relWorld) ++ [str "a.go"]) =
          some (.file (str "package main"))) :=
  ⟨⟨rfl, ⟨_, rfl⟩, rfl, rfl⟩, ⟨rfl, ⟨_, rfl, rfl⟩, rfl, rfl, by decide, rfl, rfl⟩⟩

/-! ## What the file-system calls do to the entries of a directory -/

theorem remove_fs (p : Str) (w : World) :
    (os.Remove p w).2.fs = w.fs ∨ (os.Remove p w).2.fs = w.fs.erase (resolve w p) := by
  unfold os.Remove
  simp only
  split
  · left; rfl
  · right; rfl
  · split
    · left; rfl
    · right; rfl

theorem remove_done (p : Str) (w : World) (node : Node)
    (hf : w.fs.find (resolve w p) = some node) (hne : resolve w p ≠ [])
    (hrm : node.IsDir = false ∨ w.fs.hasBelow (resolve w p) = false) :
    (os.Remove p w).2.fs = w.fs.erase (resolve w p) := by
  unfold os.Remove
  simp only [hf]
  cases node with
  | file c => rfl
  | dir perm =>
    rcases hrm with h | h
    · cases h
    · rw [if_neg (by simp [hne, h])]

/-- `os.Remove` creates nothing. -/
theorem remove_sub (p : Str) (w : World) (r : Path) (hr : r ≠ []) (node : Node)
    (h : (os.Remove p w).2.fs.find r = some node) : w.fs.find r = some node := by
  rcases remove_fs p w with e | e
  · rw [e] at h; exact h
  · rw [e, find_erase _ _ _ hr] at h
    split at h
    · cases h
    · exact h

theorem remove_hasBelow (p : Str) (w : World) (q : Path)
    (h : (os.Remove p w).2.fs.hasBelow q = true) : w.fs.hasBelow q = true := by
  rcases remove_fs p w with e | e
  · rw [e] at h; exact h
  · rw [e] at h
    exact hasBelow_erase _ _ _ h

theorem removable_remove (P : Path) (p : Str) (w : World) (h : removable P w.fs) :
    removable P (os.Remove p w).2.fs := by
  intro n hn node hf
  have h1 := remove_sub p w _ (by simp) node hf
  rcases h n hn node h1 with h2 | h2
  · exact Or.inl h2
  · right
    cases hb : (os.Remove p w).2.fs.hasBelow (P ++ [n]) with
    | false => rfl
    | true => rw [remove_hasBelow p w _ hb] at h2; cases h2

/-- A removable entry is gone after `os.Remove`. -/
theorem remove_gone (P : Path) (p : Str) (w : World) (n : Str) (hp : resolve w p = P ++ [n])
    (hrm : ∀ node, w.fs.find (P ++ [n]) = some node →
      node.IsDir = false ∨ w.fs.hasBelow (P ++ [n]) = false) :
    (os.Remove p w).2.fs.find (P ++ [n]) = none := by
  cases hf : w.fs.find (P ++ [n]) with
  | none =>
    cases hf2 : (os.Remove p w).2.fs.find (P ++ [n]) with
    | none => rfl
    | some node =>
      rw [remove_sub p w _ (by simp) node hf2] at hf
      cases hf
  | some node =>
    have hne : resolve w p ≠ [] := by rw [hp]; simp
    rw [remove_done p w node (by rw [hp]; exact hf) hne (by rw [hp]; exact hrm node hf), hp,
      find_erase _ _ _ (by simp)]
    simp

/-- `os.Create` adds at most an empty regular file, at the path it names. -/
theorem create_sub (p : Str) (w : World) (r : Path) (hr : r ≠ []) (node : Node)
    (h : (os.Create p w).2.fs.find r = some node) :
    w.fs.find r = some node ∨ (r = resolve w p ∧ node = .file []) := by
  unfold os.Create at h
  simp only at h
  split at h
  · exact Or.inl h
  · simp only at h
    rw [find_set _ _ _ _ hr] at h
    split at h
    · right
      rename_i heq
      cases h
      exact ⟨heq, rfl⟩
    · exact Or.inl h
  · exact Or.inl h

/-- The handle `os.Create` returns is the path it names. -/
theorem create_handle (p : Str) (w : World) (out : Path) (h : (os.Create p w).1 = .ok out) :
    out = resolve w p := by
  unfold os.Create at h
  simp only at h
  split at h
  · cases h
  · cases h; rfl
  · cases h

theorem writeAll_sub (f : Path) (c : Str) (w : World) (r : Path) (hr : r ≠ []) (node : Node)
    (h : (writeAll f c w).fs.find r = some node) :
    w.fs.find r = some node ∨ (r = f ∧ node.IsDir = false) := by
  unfold writeAll at h
  split at h
  · simp only at h
    rw [find_set _ _ _ _ hr] at h
    split at h
    · right
      rename_i heq
      cases h
      exact ⟨heq, rfl⟩
    · exact Or.inl h
  · exact Or.inl h

/-! ## The last element of a path -/

theorem base_cases (p : Str) :
    validName (filepath.Base p) = true ∨ filepath.Base p = str "." ∨
    filepath.Base p = str "/" ∨ filepath.Base p = str ".." := by
  unfold filepath.Base
  split
  · right; left; rfl
  · simp only
    split
    · right; right; left; rfl
    · rename_i l hl
      split
      · right; right; left; rfl
      · rename_i hne
        have hsep : sep ∉ l := by
          apply split_no_sep _ sep l
          exact List.mem_of_getLast?_eq_some hl
        by_cases h1 : l = str "."
        · right; left; exact h1
        · by_cases h2 : l = str ".."
          · right; right; right; exact h2
          · left
            rw [validName_iff]
            exact ⟨hne, h1, h2, hsep⟩

/-- What the path of a staged copy names: the entry of that name in the cache
directory, or nothing in the cache directory. -/
theorem staged_target (w : World) (outDir : Str) (hd : outDir ≠ []) (src : Str) :
    (validName (filepath.Base src) = true ∧
      resolve w (filepath.Join [outDir, filepath.Base src]) =
        resolve w outDir ++ [filepath.Base src]) ∨
    (∀ n, resolve w (filepath.Join [outDir, filepath.Base src]) ≠ resolve w outDir ++ [n]) := by
  rcases base_cases src with h | h | h | h
  · left
    exact ⟨h, resolve_Join_valid w outDir _ hd h⟩
  · right
    intro n
    rw [resolve_Join2 w outDir _ hd, h]
    have : comps (str ".") = [str "."] := by decide
    rw [this, List.foldl_cons, List.foldl_nil, walk_skip _ _ (Or.inr rfl)]
    intro h0
    have := congrArg List.length h0
    simp at this
  · right
    intro n
    rw [resolve_Join2 w outDir _ hd, h]
    have : comps (str "/") = [[], []] := by decide
    rw [this, List.foldl_cons, List.foldl_cons, List.foldl_nil, walk_skip _ _ (Or.inl rfl),
      walk_skip _ _ (Or.inl rfl)]
    intro h0
    have := congrArg List.length h0
    simp at this
  · right
    intro n
    rw [resolve_Join2 w outDir _ hd, h]
    have : comps (str "..") = [str ".."] := by decide
    rw [this, List.foldl_cons, List.foldl_nil, walk_dotdot]
    intro h0
    have := congrArg List.length h0
    simp at this

/-! ## `clearDir` empties the cache directory -/

theorem childName_of_entry (P : Path) (n : Str) (node : Node) (hn : validName n = true) :
    childName P (P ++ [n], node) = some n := by
  simp [childName, hn]

theorem childName_valid (P : Path) (e : Path × Node) (x : Str) (h : childName P e = some x) :
    validName x = true := by
  unfold childName at h
  split at h
  · split at h
    · rename_i hc
      cases h
      exact hc.2
    · cases h
  · cases h

theorem readDir_names_valid (P : Path) (fs : FS) :
    ∀ x ∈ slices.Sort (fs.filterMap (childName P)), validName x = true := by
  intro x hx
  rw [mem_sort] at hx
  obtain ⟨e, _, he⟩ := List.mem_filterMap.mp hx
  exact childName_valid P e x he

theorem readDir_names_complete (P : Path) (fs : FS) (n : Str) (hn : validName n = true)
    (h : fs.find (P ++ [n]) ≠ none) : n ∈ slices.Sort (fs.filterMap (childName P)) := by
  rw [mem_sort]
  cases hf : fs.find (P ++ [n]) with
  | none => exact absurd hf h
  | some node =>
    simp only [FS.find, List.append_eq_nil, List.cons_ne_nil, and_false, if_false] at hf
    exact List.mem_filterMap.mpr ⟨_, lookup_mem fs _ node hf, childName_of_entry P n node hn⟩

theorem logIfError_fs (J : FS → Prop) (err : Option Err) :
    Triple (fun w => J w.fs) (logIfError err) (fun _ w => J w.fs) (fun _ => False) := by
  cases err with
  | none => exact Triple.pure () (fun _ h => h)
  | some e => exact Triple.sys _ (fun _ h => h)

/-- An entry that is a regular file, or a directory with nothing below it,
is not stuck. -/
theorem stuck_false (P : Path) (fs : FS) (n : Str) (node : Node)
    (hf : fs.find (P ++ [n]) = some node)
    (h : node.IsDir = false ∨ fs.hasBelow (P ++ [n]) = false) : stuck P fs n = false := by
  unfold stuck
  rw [hf]
  cases node with
  | file c => rfl
  | dir m =>
    rcases h with h | h
    · cases h
    · exact h

/-- In a directory whose entries are regular files or empty directories no
entry is stuck. -/
theorem removable_stuck (P : Path) (fs : FS) (h : removable P fs) (n : Str)
    (hn : validName n = true) : stuck P fs n = false := by
  cases hf : fs.find (P ++ [n]) with
  | none =>
    unfold stuck
    rw [hf]
  | some node => exact stuck_false P fs n node hf (h n hn node hf)

/-- The loop of `clearDir`, over names that cover the entries of the
directory: an entry that is left was, in the file system `fs0` the loop
started from, a directory that is not empty. -/
theorem clearDir_loop (outDir : Str) (P : Path) (hd : outDir ≠ [])
    (hP : ∀ w, resolve w outDir = P) (fs0 : FS) (L : List Str)
    (hL : ∀ x ∈ L, validName x = true) :
    Triple
      (fun w => (∀ r node, r ≠ [] → w.fs.find r = some node → fs0.find r = some node) ∧
        (∀ q, w.fs.hasBelow q = true → fs0.hasBelow q = true) ∧
        ∀ n, validName n = true → w.fs.find (P ++ [n]) ≠ none → n ∈ L ∨ stuck P fs0 n = true)
      (forEach L fun name =>
        if name = str "." ∨ name = str ".." then pure ()
        else do logIfError (← sys (os.Remove (filepath.Join [outDir, name]))))
      (fun _ w => ∀ n, validName n = true → w.fs.find (P ++ [n]) ≠ none → stuck P fs0 n = true)
      (fun _ => False) := by
  induction L with
  | nil =>
    refine Triple.pure () ?_
    intro w hw n hn hf
    rcases hw.2.2 n hn hf with h | h
    · cases h
    · exact h
  | cons name rest ih =>
    unfold forEach
    refine Triple.bind ?_ (fun _ => ih (fun x hx => hL x (List.mem_cons_of_mem name hx)))
    have hname := hL name (List.mem_cons_self name rest)
    obtain ⟨_, h2, h3, _⟩ := (validName_iff name).mp hname
    beta_reduce
    rw [if_neg (not_or.mpr ⟨h2, h3⟩)]
    refine Triple.bind (R := fun _ w =>
      (∀ r node, r ≠ [] → w.fs.find r = some node → fs0.find r = some node) ∧
      (∀ q, w.fs.hasBelow q = true → fs0.hasBelow q = true) ∧
      ∀ n, validName n = true → w.fs.find (P ++ [n]) ≠ none → n ∈ rest ∨ stuck P fs0 n = true)
      (Triple.sys _ ?_)
      (fun err => logIfError_fs
        (fun fs => (∀ r node, r ≠ [] → fs.find r = some node → fs0.find r = some node) ∧
          (∀ q, fs.hasBelow q = true → fs0.hasBelow q = true) ∧
          ∀ n, validName n = true → fs.find (P ++ [n]) ≠ none → n ∈ rest ∨ stuck P fs0 n = true)
        err)
    intro w hw
    obtain ⟨hsub, hbelow, hmem⟩ := hw
    refine ⟨fun r node hr hf => hsub r node hr (remove_sub _ w r hr node hf),
      fun q hq => hbelow q (remove_hasBelow _ w q hq), ?_⟩
    intro n hn hf
    cases hf2 : (os.Remove (filepath.Join [outDir, name]) w).2.fs.find (P ++ [n]) with
    | none => exact absurd hf2 hf
    | some node =>
      have hold := remove_sub _ w _ (by simp) node hf2
      rcases hmem n hn (by rw [hold]; simp) with hin | hst
      · rcases List.mem_cons.mp hin with heq | hrest
        · subst heq
          cases hs : stuck P fs0 n with
          | true => exact Or.inr rfl
          | false =>
            have hp : resolve w (filepath.Join [outDir, n]) = P ++ [n] := by
              rw [resolve_Join_valid w outDir n hd hn, hP]
            have hrm : ∀ nd, w.fs.find (P ++ [n]) = some nd →
                nd.IsDir = false ∨ w.fs.hasBelow (P ++ [n]) = false := by
              intro nd hnd
              cases nd with
              | file c => exact Or.inl rfl
              | dir m =>
                right
                have h0 := hsub _ _ (by simp) hnd
                unfold stuck at hs
                rw [h0] at hs
                simp only at hs
                cases hb : w.fs.hasBelow (P ++ [n]) with
                | false => rfl
                | true =>
                  rw [hbelow _ hb] at hs
                  cases hs
            rw [remove_gone P _ w n hp hrm] at hf2
            cases hf2
        · exact Or.inl hrest
      · exact Or.inr hst

/-- After `clearDir` an entry is left in the directory only under a name at
which the directory held, when `clearDir` was called, a directory that is not
empty. -/
theorem clearDir_leaves (outDir : Str) (P : Path) (hd : outDir ≠ [])
    (hP : ∀ w, resolve w outDir = P) (fs0 : FS) :
    Triple (fun w => w.fs = fs0 ∧ ∃ perm, w.fs.find P = some (.dir perm))
      (clearDir outDir)
      (fun _ w => ∀ n, validName n = true → w.fs.find (P ++ [n]) ≠ none → stuck P fs0 n = true)
      (fun _ => False) := by
  intro w hw
  obtain ⟨hfs, perm, hdir⟩ := hw
  subst hfs
  have hread : os.ReadDir outDir w = .ok (slices.Sort (w.fs.filterMap (childName P))) := by
    simp only [os.ReadDir, hP, hdir]
  unfold clearDir
  simp only [bind_run, ask_run, hread, must, pure_run]
  exact clearDir_loop outDir P hd hP w.fs _ (readDir_names_valid P w.fs) w
    ⟨fun _ _ _ h => h, fun _ h => h,
      fun n hn hf => Or.inl (readDir_names_complete P w.fs n hn hf)⟩

/-! ## `copySources` stages regular files under the base names -/

theorem copyFile_entries (P : Path) (A D : Str → Prop) (src dst : Str)
    (hdst : ∀ w n, validName n = true → resolve w dst = P ++ [n] → A n) :
    Keeps (fun w => entriesIn P A D w.fs) (copyFile src dst) := by
  unfold copyFile
  refine keeps_bind (keeps_ask _) (fun r => ?_)
  cases r with
  | error e => exact keeps_pure _
  | ok inp =>
    refine Triple.bind (R := fun r2 w => entriesIn P A D w.fs ∧
      ∀ out, r2 = .ok out → ∀ n, validName n = true → out = P ++ [n] → A n)
      (Triple.sys _ ?_) (fun r2 => ?_)
    · intro w hw
      constructor
      · intro n hn node hf
        rcases create_sub dst w _ (by simp) node hf with h | ⟨h1, h2⟩
        · exact hw n hn node h
        · subst h2
          exact Or.inr ⟨rfl, hdst w n hn h1.symm⟩
      · intro out hout n hn heq
        rw [create_handle dst w out hout] at heq
        exact hdst w n hn heq
    · cases r2 with
      | error e => exact Triple.pure _ (fun _ h => h.1)
      | ok out =>
        refine Triple.bind (R := fun _ w => entriesIn P A D w.fs ∧
          ∀ n, validName n = true → out = P ++ [n] → A n)
          (Triple.ask _ (fun w hw => ⟨hw.1, hw.2 out rfl⟩)) (fun r3 => ?_)
        cases r3 with
        | error e => exact Triple.pure _ (fun _ h => h.1)
        | ok c =>
          refine Triple.bind (R := fun _ w => entriesIn P A D w.fs) (Triple.sys _ ?_)
            (fun _ => Triple.pure _ (fun _ h => h))
          intro w hw n hn node hf
          rcases writeAll_sub out c w _ (by simp) node hf with h | ⟨h1, h2⟩
          · exact hw.1 n hn node h
          · exact Or.inr ⟨h2, hw.2 n hn h1.symm⟩

theorem copySources_entries (cmd : execCmd) (outDir : Str) (P : Path) (hd : outDir ≠ [])
    (hP : ∀ w, resolve w outDir = P) (D : Str → Prop) :
    Keeps (fun w => entriesIn P (staged cmd) D w.fs) (copySources cmd outDir) := by
  unfold copySources
  refine keeps_forEach _ _ (fun src hsrc => ?_)
  refine keeps_bind (copyFile_entries P (staged cmd) D src _ ?_) (fun err => keeps_panicIfError err)
  intro w n hn heq
  rcases staged_target w outDir hd src with ⟨_, h⟩ | h
  · rw [h, hP] at heq
    have : filepath.Base src = n := by
      have := List.append_cancel_left heq
      simpa using this
    subst this
    exact Or.inl (List.mem_map_of_mem _ hsrc)
  · rw [hP] at h
    exact absurd heq (h n)

/-! ## The toolchain steps -/

theorem os.Chdir_fs (p : Str) (w : World) : (os.Chdir p w).2.fs = w.fs := by
  unfold os.Chdir
  split <;> rfl

theorem os.Setenv_fs (key val : Str) (w : World) : (os.Setenv key val w).2.fs = w.fs := by
  unfold os.Setenv
  split <;> rfl

/-- A deferred call that leaves the file system alone and does not panic. -/
theorem chdir_deferred (J : FS → Prop) (p : Str) :
    Triple (fun w => J w.fs) (discard (sys (os.Chdir p))) (fun _ w => J w.fs) (fun _ => False) :=
  Triple.bind (R := fun _ w => J w.fs)
    (Triple.sys _ (fun w hw => by rw [os.Chdir_fs]; exact hw))
    (fun _ => Triple.pure _ (fun _ h => h))

theorem unsetGoEnv_fs (J : FS → Prop) (g : goEnv) :
    Triple (fun w => J w.fs) (unsetGoEnv g) (fun _ w => J w.fs) (fun _ => False) := by
  unfold unsetGoEnv
  split
  · exact Triple.bind (R := fun _ w => J w.fs)
      (Triple.sys _ (fun w hw => by rw [os.Setenv_fs]; exact hw))
      (fun err => logIfError_fs J err)
  · exact Triple.bind (R := fun _ w => J w.fs) (Triple.sys _ (fun w hw => hw))
      (fun err => logIfError_fs J err)

/-- A child process of a confined toolchain keeps the entries of the cache
directory regular files, and adds the executable only as the successful build
step. -/
theorem spawn_entries (tc : Toolchain) (cmd : execCmd) (P : Path) (key exe : Str)
    (D : Str → Prop) (hconf : Confined tc P key exe D) (argv : List Str)
    (hstep : argv ∈ toolSteps exe) (w : World) (h : entriesIn P (staged cmd) D w.fs) :
    entriesIn P (fun n => staged cmd n ∨
      (n = key ∧ argv = str "go" :: buildArgs exe ∧ (spawn tc argv w).1.err = none)) D
      (spawn tc argv w).2.fs := by
  intro n hn node hf
  rcases hconf argv hstep w (fun m hm nd hnd => (h m hm nd hnd).imp id (fun x => x.1))
    n hn node hf with hD | hc
  · exact Or.inl hD
  · rcases hc.2 with h1 | h1 | h1 | h1
    · cases hold : w.fs.find (P ++ [n]) with
      | none => exact absurd hold h1
      | some nd =>
        rcases h n hn nd hold with hD | hA
        · exact Or.inl hD
        · exact Or.inr ⟨hc.1, Or.inl hA.2⟩
    · exact Or.inr ⟨hc.1, Or.inl (Or.inr (Or.inl h1))⟩
    · exact Or.inr ⟨hc.1, Or.inl (Or.inr (Or.inr h1))⟩
    · exact Or.inr ⟨hc.1, Or.inr h1⟩

/-- A step other than the build step stages nothing but `go.mod` and
`go.sum`. -/
theorem spawn_staged (tc : Toolchain) (cmd : execCmd) (P : Path) (key exe : Str)
    (D : Str → Prop) (hconf : Confined tc P key exe D) (argv : List Str)
    (hstep : argv ∈ toolSteps exe) (hargv : argv ≠ str "go" :: buildArgs exe) (w : World)
    (h : entriesIn P (staged cmd) D w.fs) :
    entriesIn P (staged cmd) D (spawn tc argv w).2.fs := by
  intro n hn node hf
  rcases spawn_entries tc cmd P key exe D hconf argv hstep w h n hn node hf with hD | h1
  · exact Or.inl hD
  · refine Or.inr ⟨h1.1, ?_⟩
    rcases h1.2 with h2 | ⟨_, h2, _⟩
    · exact h2
    · exact absurd h2 hargv

theorem setGoEnv_entries (tc : Toolchain) (cmd : execCmd) (P : Path) (key exe : Str)
    (D : Str → Prop) (hconf : Confined tc P key exe D) :
    Keeps (fun w => entriesIn P (staged cmd) D w.fs) (setGoEnv tc) := by
  unfold setGoEnv
  refine keeps_bind ?_ (fun r => ?_)
  · exact keeps_bind (keeps_sys _ (fun w hw =>
      spawn_staged tc cmd P key exe D hconf _ (by simp [toolSteps]) (by simp [buildArgs]) w hw))
      (fun _ => keeps_pure _)
  · obtain ⟨cacheDir, err⟩ := r
    refine keeps_bind (keeps_panicIfError err) (fun _ => ?_)
    refine keeps_bind (keeps_ask _) (fun r2 => ?_)
    obtain ⟨proxy, present⟩ := r2
    exact keeps_bind (keeps_sys _ (fun w hw => by rw [os.Setenv_fs]; exact hw))
      (fun err2 => keeps_bind (keeps_panicIfError err2) (fun _ => keeps_pure _))

/-- `doCompileSources` in a cache directory that holds staged files only,
apart from the entries named by `D`: when it returns the directory holds
staged files and possibly the executable, when it panics it holds staged
files only. -/
theorem doCompileSources_entries (tc : Toolchain) (cmd : execCmd) (outDir exe : Str) (P : Path)
    (key : Str) (D : Str → Prop) (hconf : Confined tc P key exe D) :
    Triple (fun w => entriesIn P (staged cmd) D w.fs) (doCompileSources tc cmd outDir exe)
      (fun _ w => entriesIn P (fun n => staged cmd n ∨ n = key) D w.fs)
      (fun w => entriesIn P (staged cmd) D w.fs) := by
  unfold doCompileSources
  refine Triple.bind (keeps_ask _) (fun r => ?_)
  refine Triple.bind (keeps_must r) (fun curWD => ?_)
  refine Triple.bind (R := fun _ w => entriesIn P (staged cmd) D w.fs)
    (Triple.sys _ (fun w hw => by rw [os.Chdir_fs]; exact hw)) (fun err => ?_)
  refine Triple.bind (keeps_panicIfError err) (fun _ => ?_)
  refine Triple.deferring (R := fun _ w => entriesIn P (fun n => staged cmd n ∨ n = key) D w.fs)
    (F := fun w => entriesIn P (staged cmd) D w.fs) ?_
    (fun _ => (chdir_deferred (entriesIn P (fun n => staged cmd n ∨ n = key) D) curWD).weaken
      (fun _ h => h) (fun _ _ h => h) (fun _ (h : False) => h.elim))
    ((chdir_deferred (entriesIn P (staged cmd) D) curWD).weaken
      (fun _ h => h) (fun _ _ h => h) (fun _ (h : False) => h.elim))
  refine Triple.bind (setGoEnv_entries tc cmd P key exe D hconf) (fun g => ?_)
  refine Triple.deferring (R := fun _ w => entriesIn P (fun n => staged cmd n ∨ n = key) D w.fs)
    (F := fun w => entriesIn P (staged cmd) D w.fs) ?_
    (fun _ => (unsetGoEnv_fs (entriesIn P (fun n => staged cmd n ∨ n = key) D) g).weaken
      (fun _ h => h) (fun _ _ h => h) (fun _ (h : False) => h.elim))
    ((unsetGoEnv_fs (entriesIn P (staged cmd) D) g).weaken
      (fun _ h => h) (fun _ _ h => h) (fun _ (h : False) => h.elim))
  refine Triple.bind (R := fun _ w => entriesIn P (staged cmd) D w.fs) ?_ (fun e1 => ?_)
  · exact keeps_bind (keeps_sys _ (fun w hw =>
      spawn_staged tc cmd P key exe D hconf _ (by simp [toolSteps]) (by simp [buildArgs]) w hw))
      (fun _ => keeps_pure _)
  refine Triple.bind (keeps_panicIfError e1) (fun _ => ?_)
  refine Triple.bind (R := fun _ w => entriesIn P (staged cmd) D w.fs) ?_ (fun e2 => ?_)
  · exact keeps_bind (keeps_sys _ (fun w hw =>
      spawn_staged tc cmd P key exe D hconf _ (by simp [toolSteps]) (by simp [buildArgs]) w hw))
      (fun _ => keeps_bind (keeps_sys _ (fun _ hw => hw)) (fun _ => keeps_pure _))
  refine Triple.bind (keeps_panicIfError e2) (fun _ => ?_)
  refine Triple.bind (R := fun e3 w =>
      (e3 = none → entriesIn P (fun n => staged cmd n ∨ n = key) D w.fs) ∧
      (e3 ≠ none → entriesIn P (staged cmd) D w.fs)) ?_ (fun e3 => ?_)
  · unfold runCommand
    refine Triple.bind (R := fun r w =>
        (r.err = none → entriesIn P (fun n => staged cmd n ∨ n = key) D w.fs) ∧
        (r.err ≠ none → entriesIn P (staged cmd) D w.fs)) (Triple.sys _ ?_) (fun r => ?_)
    · intro w hw
      have h1 := spawn_entries tc cmd P key exe D hconf (str "go" :: buildArgs exe)
        (by simp [toolSteps]) w hw
      constructor
      · intro _ n hn node hf
        rcases h1 n hn node hf with hD | h2
        · exact Or.inl hD
        · exact Or.inr ⟨h2.1, h2.2.imp id (fun h => h.1)⟩
      · intro herr n hn node hf
        rcases h1 n hn node hf with hD | h2
        · exact Or.inl hD
        · refine Or.inr ⟨h2.1, ?_⟩
          rcases h2.2 with h3 | ⟨_, _, h3⟩
          · exact h3
          · exact absurd h3 herr
    · exact Triple.bind (R := fun _ w =>
          (r.err = none → entriesIn P (fun n => staged cmd n ∨ n = key) D w.fs) ∧
          (r.err ≠ none → entriesIn P (staged cmd) D w.fs))
        (Triple.sys _ (fun _ hw => hw)) (fun _ => Triple.pure _ (fun _ hw => hw))
  · cases e3 with
    | none => exact Triple.pure _ (fun _ hw => hw.1 rfl)
    | some e => exact Triple.throwPanic e (fun _ hw => hw.2 (by simp))

/-! ## `clearSources` removes what was staged -/

/-- One `os.Remove` of `clearSources`: the entry of that name, a regular
file, is gone, and nothing is added. -/
theorem remove_entry (outDir : Str) (P : Path) (hd : outDir ≠ [])
    (hP : ∀ w, resolve w outDir = P) (b : Str) (B D : Str → Prop) :
    Triple (fun w => entriesIn P (fun n => n = b ∨ B n) D w.fs)
      (discard (sys (os.Remove (filepath.Join [outDir, b]))))
      (fun _ w => entriesIn P B D w.fs) (fun _ => False) := by
  refine Triple.bind (R := fun _ w => entriesIn P B D w.fs) (Triple.sys _ ?_)
    (fun _ => Triple.pure _ (fun _ h => h))
  intro w hw n hn node hf
  have hold := remove_sub _ w _ (by simp) node hf
  rcases hw n hn node hold with hD | h1
  · exact Or.inl hD
  · rcases h1.2 with heq | hB
    · subst heq
      have hp : resolve w (filepath.Join [outDir, n]) = P ++ [n] := by
        rw [resolve_Join_valid w outDir n hd hn, hP]
      have hrm : ∀ nd, w.fs.find (P ++ [n]) = some nd →
          nd.IsDir = false ∨ w.fs.hasBelow (P ++ [n]) = false := by
        intro nd hnd
        rw [hold] at hnd
        cases hnd
        exact Or.inl h1.1
      rw [remove_gone P _ w n hp hrm] at hf
      cases hf
    · exact Or.inr ⟨h1.1, hB⟩

theorem clearSources_loop (outDir : Str) (P : Path) (hd : outDir ≠ [])
    (hP : ∀ w, resolve w outDir = P) (B D : Str → Prop) (L : List Str) :
    Triple (fun w => entriesIn P (fun n => n ∈ L.map filepath.Base ∨ B n) D w.fs)
      (forEach L fun src =>
        discard (sys (os.Remove (filepath.Join [outDir, filepath.Base src]))))
      (fun _ w => entriesIn P B D w.fs) (fun _ => False) := by
  induction L with
  | nil =>
    refine Triple.pure () ?_
    intro w hw n hn node hf
    rcases hw n hn node hf with hD | h1
    · exact Or.inl hD
    · exact Or.inr ⟨h1.1, h1.2.resolve_left (by simp)⟩
  | cons src rest ih =>
    unfold forEach
    refine Triple.bind ?_ (fun _ => ih)
    refine (remove_entry outDir P hd hP (filepath.Base src)
      (fun n => n ∈ rest.map filepath.Base ∨ B n) D).weaken ?_ (fun _ _ h => h) (fun _ h => h)
    intro w hw n hn node hf
    rcases hw n hn node hf with hD | h1
    · exact Or.inl hD
    · refine Or.inr ⟨h1.1, ?_⟩
      rcases h1.2 with h | h
      · rw [List.map_cons] at h
        rcases List.mem_cons.mp h with h2 | h2
        · exact Or.inl h2
        · exact Or.inr (Or.inl h2)
      · exact Or.inr (Or.inr h)

/-- `clearSources` leaves in the cache directory only what was there besides
the staged files. -/
theorem clearSources_entries (cmd : execCmd) (outDir : Str) (P : Path) (hd : outDir ≠ [])
    (hP : ∀ w, resolve w outDir = P) (B D : Str → Prop) :
    Triple (fun w => entriesIn P (fun n => staged cmd n ∨ B n) D w.fs) (clearSources cmd outDir)
      (fun _ w => entriesIn P B D w.fs) (fun _ => False) := by
  unfold clearSources
  refine Triple.bind (R := fun _ w =>
    entriesIn P (fun n => n = str "go.mod" ∨ (n = str "go.sum" ∨ B n)) D w.fs) ?_ (fun _ => ?_)
  · refine (clearSources_loop outDir P hd hP
      (fun n => n = str "go.mod" ∨ (n = str "go.sum" ∨ B n)) D cmd.src).weaken ?_
      (fun _ _ h => h) (fun _ h => h)
    intro w hw n hn node hf
    rcases hw n hn node hf with hD | h1
    · exact Or.inl hD
    · refine Or.inr ⟨h1.1, ?_⟩
      rcases h1.2 with (h | h | h) | h
      · exact Or.inl h
      · exact Or.inr (Or.inl h)
      · exact Or.inr (Or.inr (Or.inl h))
      · exact Or.inr (Or.inr (Or.inr h))
  · exact Triple.bind (remove_entry outDir P hd hP (str "go.mod") _ D)
      (fun _ => remove_entry outDir P hd hP (str "go.sum") B D)

/-! ## The executable stays -/

theorem remove_other (p : Str) (w : World) (r : Path) (hr : r ≠ []) (hne : r ≠ resolve w p) :
    (os.Remove p w).2.fs.find r = w.fs.find r := by
  rcases remove_fs p w with e | e
  · rw [e]
  · rw [e, find_erase _ _ _ hr, if_neg hne]

theorem doCompileSources_exe (tc : Toolchain) (cmd : execCmd) (outDir exe : Str) (P : Path)
    (key : Str) (hb : Builds tc P key exe) :
    Triple (fun _ => True) (doCompileSources tc cmd outDir exe)
      (fun _ w => holdsFile (P ++ [key]) w.fs) (fun _ => True) := by
  unfold doCompileSources
  refine Triple.bind (keeps_ask _) (fun r => ?_)
  refine Triple.bind (keeps_must r) (fun curWD => ?_)
  refine Triple.bind (R := fun _ _ => True) (Triple.sys _ (fun _ _ => trivial)) (fun err => ?_)
  refine Triple.bind (keeps_panicIfError err) (fun _ => ?_)
  refine Triple.deferring (R := fun _ w => holdsFile (P ++ [key]) w.fs) (F := fun _ => True) ?_
    (fun _ => (chdir_deferred (holdsFile (P ++ [key])) curWD).weaken
      (fun _ h => h) (fun _ _ h => h) (fun _ (h : False) => h.elim))
    ((chdir_deferred (fun _ => True) curWD).weaken
      (fun _ h => h) (fun _ _ h => h) (fun _ (h : False) => h.elim))
  refine Triple.bind (setGoEnv_runs tc) (fun g => ?_)
  refine Triple.deferring (R := fun _ w => holdsFile (P ++ [key]) w.fs) (F := fun _ => True) ?_
    (fun _ => (unsetGoEnv_fs (holdsFile (P ++ [key])) g).weaken
      (fun _ h => h) (fun _ _ h => h) (fun _ (h : False) => h.elim))
    ((unsetGoEnv_fs (fun _ => True) g).weaken
      (fun _ h => h) (fun _ _ h => h) (fun _ (h : False) => h.elim))
  refine Triple.bind (runCommandSilent_env tc _ _ (fun _ => True)) (fun e1 => ?_)
  refine Triple.bind (keeps_panicIfError e1) (fun _ => ?_)
  refine Triple.bind (runCommand_env tc _ _ (fun _ => True)) (fun e2 => ?_)
  refine Triple.bind (keeps_panicIfError e2) (fun _ => ?_)
  refine Triple.bind (R := fun e3 w => e3 = none → holdsFile (P ++ [key]) w.fs) ?_ (fun e3 => ?_)
  · unfold runCommand
    refine Triple.bind (R := fun r w => r.err = none → holdsFile (P ++ [key]) w.fs)
      (Triple.sys _ (fun w _ => hb w)) (fun r => ?_)
    exact Triple.bind (R := fun _ w => r.err = none → holdsFile (P ++ [key]) w.fs)
      (Triple.sys _ (fun _ hw => hw)) (fun _ => Triple.pure _ (fun _ hw => hw))
  · cases e3 with
    | none => exact Triple.pure _ (fun _ hw => hw rfl)
    | some e => exact Triple.throwPanic e (fun _ _ => trivial)

/-- `clearSources` does not remove an executable whose name is not the name
of a staged file. -/
theorem clearSources_keeps_exe (cmd : execCmd) (outDir : Str) (P : Path) (hd : outDir ≠ [])
    (hP : ∀ w, resolve w outDir = P) (key : Str) (hns : ¬ staged cmd key) :
    Triple (fun w => holdsFile (P ++ [key]) w.fs) (clearSources cmd outDir)
      (fun _ w => holdsFile (P ++ [key]) w.fs) (fun _ => False) := by
  have hmod : validName (str "go.mod") = true := by decide
  have hsum : validName (str "go.sum") = true := by decide
  have hstep : ∀ b : Str, (∀ w, resolve w (filepath.Join [outDir, b]) ≠ P ++ [key]) →
      Triple (fun w => holdsFile (P ++ [key]) w.fs)
        (discard (sys (os.Remove (filepath.Join [outDir, b]))))
        (fun _ w => holdsFile (P ++ [key]) w.fs) (fun _ => False) := by
    intro b hb
    refine Triple.bind (R := fun _ w => holdsFile (P ++ [key]) w.fs) (Triple.sys _ ?_)
      (fun _ => Triple.pure _ (fun _ h => h))
    intro w hw
    obtain ⟨c, hc⟩ := hw
    exact ⟨c, by rw [remove_other _ w _ (by simp) (fun h => hb w h.symm)]; exact hc⟩
  unfold clearSources
  refine Triple.bind (R := fun _ w => holdsFile (P ++ [key]) w.fs) ?_ (fun _ => ?_)
  · refine Triple.forEach _ _ (fun src hsrc => hstep _ ?_)
    intro w
    rcases staged_target w outDir hd src with ⟨_, h⟩ | h
    · rw [h, hP]
      intro heq
      have : filepath.Base src = key := by
        have := List.append_cancel_left heq
        simpa using this
      exact hns (Or.inl (this ▸ List.mem_map_of_mem _ hsrc))
    · rw [hP] at h
      exact h key
  · refine Triple.bind (R := fun _ w => holdsFile (P ++ [key]) w.fs) (hstep _ ?_)
      (fun _ => hstep _ ?_)
    · intro w
      rw [resolve_Join_valid w outDir _ hd hmod, hP]
      intro heq
      have : str "go.mod" = key := by
        have := List.append_cancel_left heq
        simpa using this
      exact hns (Or.inr (Or.inl this.symm))
    · intro w
      rw [resolve_Join_valid w outDir _ hd hsum, hP]
      intro heq
      have : str "go.sum" = key := by
        have := List.append_cancel_left heq
        simpa using this
      exact hns (Or.inr (Or.inr this.symm))

/-! ## The cache miss (C3) -/

/-- A fact that does not depend on the world can be carried through. -/
theorem Triple.frame {α : Type} {P : World → Prop} {m : M α} {Q : α → World → Prop}
    {E : World → Prop} (h : Triple P m Q E) (C : Prop) :
    Triple (fun w => C ∧ P w) m (fun a w => C ∧ Q a w) E := by
  intro w hw
  have h1 := h w hw.2
  cases hm : m w with
  | ok a w1 => rw [hm] at h1; exact ⟨hw.1, h1⟩
  | panic e w1 => rw [hm] at h1; exact h1
  | replaced exe argv envv w1 => rw [hm] at h1; exact h1.elim

theorem compileSources_miss (tc : Toolchain) (cmd : execCmd) (outDir : Str) (w w1 : World)
    (hash : Str) (e0 : Err) (hh : hashFiles cmd.src w = .ok hash w1)
    (hs : os.Stat (filepath.Join [outDir, hash]) w = .error e0) :
    compileSources tc cmd outDir w = missPath tc cmd outDir (filepath.Join [outDir, hash]) w := by
  obtain ⟨_, hw⟩ := hashFiles_ok cmd.src w w1 hash hh
  subst hw
  simp only [compileSources, missPath, bind_run, hh, ask_run, hs]

/-- The miss path, started in the file system `fs0` with the cache directory
`P`: when it has finished, an entry of the cache directory is the executable
(when it returned) or has a name at which `fs0` held a directory that is not
empty. -/
theorem missPath_entries (tc : Toolchain) (cmd : execCmd) (outDir exe : Str) (P : Path)
    (key : Str) (hd : outDir ≠ []) (hP : ∀ w, resolve w outDir = P) (fs0 : FS)
    (hconf : Confined tc P key exe (fun n => stuck P fs0 n = true)) :
    Triple (fun w => w.fs = fs0 ∧ ∃ perm, w.fs.find P = some (.dir perm))
      (missPath tc cmd outDir exe)
      (fun a w => a = exe ∧
        entriesIn P (fun n => n = key) (fun n => stuck P fs0 n = true) w.fs)
      (fun w => entriesIn P (fun _ => False) (fun n => stuck P fs0 n = true) w.fs) := by
  unfold missPath
  refine Triple.bind
    (R := fun _ w => entriesIn P (staged cmd) (fun n => stuck P fs0 n = true) w.fs) ?_
    (fun _ => ?_)
  · refine (clearDir_leaves outDir P hd hP fs0).weaken (fun _ h => h) ?_
      (fun _ (h : False) => h.elim)
    intro _ w hw n hn node hf
    exact Or.inl (hw n hn (by rw [hf]; simp))
  · refine Triple.deferring
      (R := fun a w => a = exe ∧
        entriesIn P (fun n => staged cmd n ∨ n = key) (fun n => stuck P fs0 n = true) w.fs)
      (F := fun w => entriesIn P (staged cmd) (fun n => stuck P fs0 n = true) w.fs) ?_ ?_ ?_
    · refine Triple.bind (copySources_entries cmd outDir P hd hP _) (fun _ => ?_)
      exact Triple.bind (doCompileSources_entries tc cmd outDir exe P key _ hconf)
        (fun _ => Triple.pure exe (fun _ h => ⟨rfl, h⟩))
    · intro a
      exact ((clearSources_entries cmd outDir P hd hP (fun n => n = key)
        (fun n => stuck P fs0 n = true)).frame
        (a = exe)).weaken (fun _ h => h) (fun _ _ h => h) (fun _ (h : False) => h.elim)
    · refine (clearSources_entries cmd outDir P hd hP (fun _ => False)
        (fun n => stuck P fs0 n = true)).weaken
        ?_ (fun _ _ h => h) (fun _ (h : False) => h.elim)
      intro w hw n hn node hf
      rcases hw n hn node hf with hD | h1
      · exact Or.inl hD
      · exact Or.inr ⟨h1.1, Or.inl h1.2⟩

theorem missPath_exe (tc : Toolchain) (cmd : execCmd) (outDir exe : Str) (P : Path)
    (key : Str) (hd : outDir ≠ []) (hP : ∀ w, resolve w outDir = P)
    (hb : Builds tc P key exe) (hns : ¬ staged cmd key) :
    Triple (fun _ => True) (missPath tc cmd outDir exe)
      (fun _ w => holdsFile (P ++ [key]) w.fs) (fun _ => True) := by
  unfold missPath
  refine Triple.bind (clearDir_runs outDir) (fun _ => ?_)
  refine Triple.deferring (R := fun _ w => holdsFile (P ++ [key]) w.fs) (F := fun _ => True)
    ?_ (fun _ => (clearSources_keeps_exe cmd outDir P hd hP key hns).weaken
      (fun _ h => h) (fun _ _ h => h) (fun _ (h : False) => h.elim))
    (clearSources_runs cmd outDir)
  refine Triple.bind (copySources_runs cmd outDir) (fun _ => ?_)
  exact Triple.bind (doCompileSources_exe tc cmd outDir exe P key hb)
    (fun _ => Triple.pure exe (fun _ h => h))

/-- C3, amended. Let the cache directory be given by a rooted path and be
a directory, whatever it holds, and let the toolchain be confined to
`go.mod`, `go.sum` and the executable, nothing being expected of it for the
names at which the cache directory holds a directory that is not empty when
`compileSources` is called (`stuck`). Then on the miss path `compileSources`
does not replace the process, and when it has finished the cache directory
has no entry under any name that was not stuck, the executable apart: when
it returns, it returns the path of the executable, and no name other than
that of the executable has an entry unless it was stuck; the executable is
there when the build step wrote it and no staged file has its name; when it
panics, no name has an entry unless it was stuck. The name of the executable
was not stuck, and no name was when the cache directory held only regular
files and empty directories. -/
theorem compileSources_miss_cleans (tc : Toolchain) (cmd : execCmd) (outDir : Str)
    (w w1 : World) (hash : Str) (e0 : Err) (perm : Nat)
    (habs : filepath.IsAbs outDir = true)
    (hdir : os.Stat outDir w = .ok (.dir perm))
    (hh : hashFiles cmd.src w = .ok hash w1)
    (hmiss : os.Stat (filepath.Join [outDir, hash]) w = .error e0)
    (hconf : Confined tc (resolve w outDir) hash (filepath.Join [outDir, hash])
      (fun n => stuck (resolve w outDir) w.fs n = true)) :
    (∀ exe wf, compileSources tc cmd outDir w = .ok exe wf →
      exe = filepath.Join [outDir, hash] ∧
      (∀ n, validName n = true → n ≠ hash → stuck (resolve w outDir) w.fs n = false →
        wf.fs.find (resolve w outDir ++ [n]) = none) ∧
      (Builds tc (resolve w outDir) hash (filepath.Join [outDir, hash]) → ¬ staged cmd hash →
        holdsFile (resolve w outDir ++ [hash]) wf.fs)) ∧
    (∀ e wf, compileSources tc cmd outDir w = .panic e wf →
      ∀ n, validName n = true → stuck (resolve w outDir) w.fs n = false →
        wf.fs.find (resolve w outDir ++ [n]) = none) ∧
    (∀ x argv envv wf, compileSources tc cmd outDir w ≠ .replaced x argv envv wf) ∧
    stuck (resolve w outDir) w.fs hash = false ∧
    (removable (resolve w outDir) w.fs →
      ∀ n, validName n = true → stuck (resolve w outDir) w.fs n = false) := by
  have hd := isAbs_ne_nil outDir habs
  have hP : ∀ w2, resolve w2 outDir = resolve w outDir := fun w2 => resolve_abs w2 w outDir habs
  have hfind : ∃ perm, w.fs.find (resolve w outDir) = some (.dir perm) := by
    unfold os.Stat at hdir
    split at hdir
    · rename_i n hn
      cases hdir
      exact ⟨perm, hn⟩
    · cases hdir
  have hkey : validName hash = true := by
    rw [(hashFiles_ok cmd.src w w1 hash hh).1]
    exact (key_name _).1
  have hstuck : stuck (resolve w outDir) w.fs hash = false := by
    unfold os.Stat at hmiss
    rw [resolve_Join_valid w outDir hash hd hkey] at hmiss
    unfold stuck
    split at hmiss
    · cases hmiss
    · rename_i hnone
      rw [hnone]
  rw [compileSources_miss tc cmd outDir w w1 hash e0 hh hmiss]
  have hA := missPath_entries tc cmd outDir (filepath.Join [outDir, hash]) (resolve w outDir)
    hash hd hP w.fs hconf w ⟨rfl, hfind⟩
  refine ⟨?_, ?_, ?_, hstuck, fun hrem n hn => removable_stuck _ _ hrem n hn⟩
  · intro exe wf hr
    rw [hr] at hA
    refine ⟨hA.1, ?_, ?_⟩
    · intro n hn hne hns
      cases hf : wf.fs.find (resolve w outDir ++ [n]) with
      | none => rfl
      | some node =>
        rcases hA.2 n hn node hf with h | h
        · rw [hns] at h
          cases h
        · exact absurd h.2 hne
    · intro hb hns
      have hB := missPath_exe tc cmd outDir (filepath.Join [outDir, hash]) (resolve w outDir)
        hash hd hP hb hns w trivial
      rw [hr] at hB
      exact hB
  · intro e wf hr n hn hns
    rw [hr] at hA
    cases hf : wf.fs.find (resolve w outDir ++ [n]) with
    | none => rfl
    | some node =>
      rcases hA n hn node hf with h | h
      · rw [hns] at h
        cases h
      · exact h.2.elim
  · intro x argv envv wf hr
    rw [hr] at hA
    exact hA

/-! ## The expected toolchain is confined -/

theorem append_singleton_inj (p q : Path) (a b : Str) (h : p ++ [a] = q ++ [b]) : a = b := by
  have := congrArg List.getLast? h
  simpa using this

theorem goToolchain_confined (buildOk : Bool) (outDir key : Str)
    (habs : filepath.IsAbs outDir = true) (hkey : validName key = true) (w0 : World)
    (D : Str → Prop) :
    Confined (goToolchain buildOk) (resolve w0 outDir) key (filepath.Join [outDir, key]) D := by
  have hd := isAbs_ne_nil outDir habs
  have hexe : ∀ w, resolve w (filepath.Join [outDir, key]) = resolve w0 outDir ++ [key] := by
    intro w
    rw [resolve_Join_valid w outDir key hd hkey, resolve_abs w w0 outDir habs]
  have hset : ∀ (w : World) (q : Path) (c : Str) (m : Str),
      (∀ n, validName n = true → ∀ node, w.fs.find (resolve w0 outDir ++ [n]) = some node →
        D n ∨ node.IsDir = false) →
      (∀ n, resolve w0 outDir ++ [n] = q → n = m) →
      ∀ n, validName n = true → ∀ node,
        (w.fs.set q (.file c)).find (resolve w0 outDir ++ [n]) = some node →
        D n ∨ (node.IsDir = false ∧ (w.fs.find (resolve w0 outDir ++ [n]) ≠ none ∨ n = m)) := by
    intro w q c m hpre hq n hn node hf
    rw [find_set _ _ _ _ (by simp)] at hf
    split at hf
    · rename_i heq
      cases hf
      exact Or.inr ⟨rfl, Or.inr (hq n heq)⟩
    · exact (hpre n hn node hf).imp id (fun h => ⟨h, Or.inl (by rw [hf]; simp)⟩)
  have hsame : ∀ (w : World),
      (∀ n, validName n = true → ∀ node, w.fs.find (resolve w0 outDir ++ [n]) = some node →
        D n ∨ node.IsDir = false) →
      ∀ n, validName n = true → ∀ node, w.fs.find (resolve w0 outDir ++ [n]) = some node →
        D n ∨ (node.IsDir = false ∧ w.fs.find (resolve w0 outDir ++ [n]) ≠ none) := by
    intro w hpre n hn node hf
    exact (hpre n hn node hf).imp id (fun h => ⟨h, by rw [hf]; simp⟩)
  intro argv hstep w hpre n hn node hf
  simp only [toolSteps, List.mem_cons, List.mem_singleton, List.not_mem_nil, or_false] at hstep
  rcases hstep with h | h | h | h
  · subst h
    have hrun : ((goToolchain buildOk).run [str "go", str "env", str "GOMODCACHE"] w).fs = w.fs :=
      rfl
    rw [hrun] at hf
    exact (hsame w hpre n hn node hf).imp id (fun h => ⟨h.1, Or.inl h.2⟩)
  · subst h
    have hrun : ((goToolchain buildOk).run [str "go", str "mod", str "init", str "gorun"] w).fs =
        w.fs.set (w.cwd ++ [str "go.mod"]) (.file (str "module gorun\n")) := rfl
    rw [hrun] at hf
    have := hset w _ _ (str "go.mod") hpre (fun m hm => append_singleton_inj _ _ _ _ hm) n hn
      node hf
    exact this.imp id (fun h => ⟨h.1, h.2.imp id (fun h => Or.inl h)⟩)
  · subst h
    have hrun : ((goToolchain buildOk).run [str "go", str "mod", str "tidy"] w).fs =
        w.fs.set (w.cwd ++ [str "go.sum"]) (.file []) := rfl
    rw [hrun] at hf
    have := hset w _ _ (str "go.sum") hpre (fun m hm => append_singleton_inj _ _ _ _ hm) n hn
      node hf
    exact this.imp id (fun h => ⟨h.1, h.2.imp id (fun h => Or.inr (Or.inl h))⟩)
  · subst h
    cases buildOk with
    | false =>
      have hrun : ((goToolchain false).run (str "go" :: buildArgs (filepath.Join [outDir, key]))
          w).fs = w.fs := by
        simp [goToolchain, buildArgs]
      rw [hrun] at hf
      exact (hsame w hpre n hn node hf).imp id (fun h => ⟨h.1, Or.inl h.2⟩)
    | true =>
      have hrun : (goToolchain true).run (str "go" :: buildArgs (filepath.Join [outDir, key]))
          w = { fs := w.fs.set (resolve w (filepath.Join [outDir, key])) (.file (str "ELF")),
                out := [], diag := [], err := none } := by
        simp [goToolchain, buildArgs]
      rw [hrun] at hf ⊢
      simp only at hf
      have := hset w _ _ key hpre (fun m hm => by
        rw [hexe w] at hm
        exact append_singleton_inj _ _ _ _ hm) n hn node hf
      rcases this with hD | this
      · exact Or.inl hD
      · refine Or.inr ⟨this.1, ?_⟩
        rcases this.2 with h | h
        · exact Or.inl h
        · exact Or.inr (Or.inr (Or.inr ⟨h, rfl, rfl⟩))

theorem goToolchain_builds (outDir key : Str) (habs : filepath.IsAbs outDir = true)
    (hkey : validName key = true) (w0 : World) :
    Builds (goToolchain true) (resolve w0 outDir) key (filepath.Join [outDir, key]) := by
  intro w _
  have hrun : ((goToolchain true).run (str "go" :: buildArgs (filepath.Join [outDir, key]))
      w).fs = w.fs.set (resolve w (filepath.Join [outDir, key])) (.file (str "ELF")) := by
    simp [goToolchain, buildArgs]
  rw [hrun, resolve_Join_valid w outDir key (isAbs_ne_nil outDir habs) hkey,
    resolve_abs w w0 outDir habs]
  exact ⟨str "ELF", by rw [find_set _ _ _ _ (by simp)]; simp⟩

theorem lookup_none (fs : FS) (r : Path) (h : ∀ e ∈ fs, e.1 ≠ r) : fs.lookup r = none := by
  induction fs with
  | nil => rfl
  | cons e rest ih =>
    obtain ⟨k, v⟩ := e
    have hk : (r == k) = false := by
      have := h (k, v) (List.mem_cons_self _ _)
      simpa using fun h2 => this h2.symm
    simp only [List.lookup, hk]
    exact ih (fun e he => h e (List.mem_cons_of_mem _ he))

theorem missWorld_removable : removable (resolve missWorld (str "/c")) missWorld.fs := by
  have hr : resolve missWorld (str "/c") = [str "c"] := by decide
  rw [hr]
  intro n hn node hf
  by_cases h1 : n = str "old"
  · subst h1
    have : missWorld.fs.find ([str "c"] ++ [str "old"]) = some (.file (str "stale")) := by decide
    rw [this] at hf
    cases hf
    exact Or.inl rfl
  · by_cases h2 : n = str "d"
    · subst h2
      exact Or.inr (by decide)
    · have hnone : missWorld.fs.find ([str "c"] ++ [n]) = none := by
        simp only [FS.find, List.append_eq_nil, List.cons_ne_nil, and_false, if_false]
        apply lookup_none
        intro e he
        simp only [missWorld, homeWorld, List.cons_append, List.nil_append, List.mem_cons,
          List.mem_singleton, List.not_mem_nil, or_false] at he
        have c1 : str "tmp" ≠ str "c" := by decide
        have c2 : str "home" ≠ str "c" := by decide
        rcases he with h | h | h | h | h | h | h <;> subst h <;> simp [c1, c2, Ne.symm h1, Ne.symm h2]
      rw [hnone] at hf
      cases hf

set_option maxRecDepth 1000000 in
/-- The miss path in two cache directories `/c`. In the first, `/c` holds a
directory `d` that is not empty: the staged copies, `go.mod` and `go.sum` are
gone after the build, and `d` and the executable are the entries left. In the
second, `/c` holds a stale file and an empty directory: both are gone, and
the executable is the entry left. -/
theorem compileSources_miss_cleans_witness :
    (filepath.IsAbs (str "/c") = true ∧
      os.Stat (str "/c") staleWorld = .ok (.dir 0o700) ∧
      hashFiles homeCmd.src staleWorld = .ok homeKey staleWorld ∧
      os.Stat (filepath.Join [str "/c", homeKey]) staleWorld =
        .error (str "stat: no such file or directory") ∧
      stuck (resolve staleWorld (str "/c")) staleWorld.fs (str "d") = true ∧
      stuck (resolve staleWorld (str "/c")) staleWorld.fs (str "a.go") = false ∧
      stuck (resolve staleWorld (str "/c")) staleWorld.fs (str "go.mod") = false ∧
      (∃ wf, compileSources (goToolchain true) homeCmd (str "/c") staleWorld =
        .ok (filepath.Join [str "/c", homeKey]) wf ∧
        wf.fs.find [str "c", str "a.go"] = none ∧ wf.fs.find [str "c", str "b.go"] = none ∧
        wf.fs.find [str "c", str "go.mod"] = none ∧ wf.fs.find [str "c", str "go.sum"] = none ∧
        wf.fs.find [str "c", str "d"] = some (.dir 0o755) ∧
        wf.fs.find [str "c", homeKey] = some (.file (str "ELF"))) ∧
      (∀ exe wf, compileSources (goToolchain true) homeCmd (str "/c") staleWorld = .ok exe wf →
        exe = filepath.Join [str "/c", homeKey] ∧
        (∀ n, validName n = true → n ≠ homeKey →
          stuck (resolve staleWorld (str "/c")) staleWorld.fs n = false →
          wf.fs.find (resolve staleWorld (str "/c") ++ [n]) = none) ∧
        (Builds (goToolchain true) (resolve staleWorld (str "/c")) homeKey
            (filepath.Join [str "/c", homeKey]) → ¬ staged homeCmd homeKey →
          holdsFile (resolve staleWorld (str "/c") ++ [homeKey]) wf.fs))) ∧
    (removable (resolve missWorld (str "/c")) missWorld.fs ∧
      hashFiles homeCmd.src missWorld = .ok homeKey missWorld ∧
      (∃ wf, compileSources (goToolchain true) homeCmd (str "/c") missWorld =
        .ok (filepath.Join [str "/c", homeKey]) wf ∧
        wf.fs.find [str "c", str "old"] = none ∧ wf.fs.find [str "c", str "d"] = none ∧
        wf.fs.find [str "c", str "a.go"] = none ∧ wf.fs.find [str "c", str "go.mod"] = none ∧
        wf.fs.find [str "c", homeKey] = some (.file (str "ELF"))) ∧
      (∀ exe wf, compileSources (goToolchain true) homeCmd (str "/c") missWorld = .ok exe wf →
        ∀ n, validName n = true → n ≠ homeKey →
          wf.fs.find (resolve missWorld (str "/c") ++ [n]) = none)) :=
  ⟨⟨rfl, rfl, rfl, rfl, rfl, rfl, rfl, ⟨_, rfl, rfl, rfl, rfl, rfl, rfl, rfl⟩,
      (compileSources_miss_cleans (goToolchain true) homeCmd (str "/c") staleWorld staleWorld
        homeKey (str "stat: no such file or directory") 0o700 rfl rfl rfl rfl
        (goToolchain_confined true (str "/c") homeKey rfl (key_name _).1 staleWorld _)).1⟩,
    ⟨missWorld_removable, rfl, ⟨_, rfl, rfl, rfl, rfl, rfl, rfl⟩,
      fun exe wf h n hn hne =>
        ((compileSources_miss_cleans (goToolchain true) homeCmd (str "/c") missWorld missWorld
          homeKey (str "stat: no such file or directory") 0o700 rfl rfl rfl rfl
          (goToolchain_confined true (str "/c") homeKey rfl (key_name _).1 missWorld _)).1
          exe wf h).2.1 n hn hne
          ((compileSources_miss_cleans (goToolchain true) homeCmd (str "/c") missWorld missWorld
            homeKey (str "stat: no such file or directory") 0o700 rfl rfl rfl rfl
            (goToolchain_confined true (str "/c") homeKey rfl (key_name _).1 missWorld
              _)).2.2.2.2 missWorld_removable n hn)⟩⟩

set_option maxRecDepth 1000000 in
/-- C3, as stated, fails. When the cache directory holds a directory that is
not empty, `clearDir` cannot remove it (the error is logged) and it is still
an entry of the cache directory, next to the executable, after a successful
build, and alone after a failed one. And when the cache path is not rooted
(`TMPDIR=../t`) and a child process removes the working directory and fails,
the deferred `os.Chdir` back fails, `clearSources` resolves the cache path
from the cache directory the process is left in, and the staged copy `a.go`
is still in the cache directory when `compileSources` panics. -/
theorem compileSources_leaves_directory :
    (os.Stat (filepath.Join [str "/c", homeKey]) staleWorld =
        .error (str "stat: no such file or directory") ∧
      validName (str "d") = true ∧ str "d" ≠ homeKey ∧
      (compileSources (goToolchain true) homeCmd (str "/c") staleWorld).isPanic = false ∧
      (compileSources (goToolchain true) homeCmd (str "/c") staleWorld).world.fs.find
        [str "c", str "d"] = some (.dir 0o755) ∧
      (compileSources (goToolchain false) homeCmd (str "/c") staleWorld).isPanic = true ∧
      (compileSources (goToolchain false) homeCmd (str "/c") staleWorld).world.fs.find
        [str "c", str "d"] = some (.dir 0o755)) ∧
    (prepareOutputDir relCmd relWorld = .ok (cachePath relCmd relWorld)
        (os.MkdirAll (cachePath relCmd relWorld) 0o700 relWorld).2 ∧
      filepath.IsAbs (cachePath relCmd relWorld) = false ∧
      (∀ n, stuck (resolve relWorld (cachePath relCmd relWorld))
        (os.MkdirAll (cachePath relCmd relWorld) 0o700 relWorld).2.fs n = false) ∧
      staged relCmd (str "a.go") ∧
      (compileSources wreckToolchain relCmd (cachePath relCmd relWorld)
        (os.MkdirAll (cachePath relCmd relWorld) 0o700 relWorld).2).isPanic = true ∧
      (compileSources wreckToolchain relCmd (cachePath relCmd relWorld)
        (os.MkdirAll (cachePath relCmd relWorld) 0o700 relWorld).2).world.fs.find
        (resolve relWorld (cachePath relCmd relWorld) ++ [str "a.go"]) =
          some (.file (str "package main"))) :=
  ⟨⟨rfl, by decide, by decide, rfl, rfl, rfl, rfl⟩,
    ⟨rfl, rfl, fun n => by
        have hb : (os.MkdirAll (cachePath relCmd relWorld) 0o700 relWorld).2.fs.hasBelow
            (resolve relWorld (cachePath relCmd relWorld) ++ [n]) = false := by
          have hfs : (os.MkdirAll (cachePath relCmd relWorld) 0o700 relWorld).2.fs =
              [(resolve relWorld (cachePath relCmd relWorld), .dir 0o700),
               ([str "h", str "t", str "gorun-1000"], .dir 0o700),
               ([str "h", str "t"], .dir 0o700),
               ([str "h"], .dir 0o755), ([str "h", str "w"], .dir 0o755),
               ([str "h", str "w", str "a.go"], .file (str "package main"))] := by decide
          rw [hfs]
          have hr : resolve relWorld (cachePath relCmd relWorld) =
              [str "h", str "t", str "gorun-1000", hashStrings relCmd.src] := by decide
          rw [hr]
          have c1 : str "w" ≠ str "t" := by decide
          simp [FS.hasBelow, startsWith, c1]
        unfold stuck
        split
        · exact hb
        · rfl,
      Or.inl (by decide), rfl, rfl⟩⟩

end Gorun
